import Mathlib

/-!
# A verification development for the `ellspmv` sparse matrix-vector benchmark

This file gives a shallow embedding, in Lean 4, of the computational core of the
`ellspmv`/`csrspmv` programs (`src/ellspmv.c`, `src/csrspmv.c`): conversion of a
coordinate-format (COO) sparse matrix to compressed sparse row (CSR) and ELLPACK
layouts, the matrix-vector multiply kernels, and the driver fragments that
build thread partitions and initialize the `x` and `y` vectors.

Modelling conventions:
* C `double` values are modelled as exact rationals `ℚ`.  All the kernels
  accumulate each row left-to-right, so statements about accumulation order
  and additivity transfer directly; IEEE-754 rounding itself is not modelled.
* C arrays are modelled as Lean lists.  Every array access goes through
  bounds-checked `aget`/`aset`; an access outside the array aborts the
  computation with `CErr.fault`, modelling undefined behaviour.  A C function
  that returns a nonzero error code `n` is modelled as `CErr.code n`.
* The loops `for (k = 0; k < num_nonzeros; k++)` over the parallel COO arrays
  `rowidx`, `colidx`, `a` are rendered as folds over the zipped entry list
  `zip3 rowidx colidx a`; `num_nonzeros` equals the common length of the arrays.
* `idx_t` and `int64_t` quantities are modelled as `Int` (dimensions that are
  used as list lengths are `Nat`).
* OpenMP parallel regions are modelled by running the per-thread body
  sequentially for threads `p = 0, 1, ..., nthreads-1`; `omp for` loops inside
  a parallel region are modelled by the static contiguous block schedule.
-/

namespace Ellspmv

/-- Outcome channel of an embedded C function: `fault` is an out-of-bounds
array access (undefined behaviour in the C program), `code n` is a nonzero
error code returned by the function. -/
inductive CErr where
  | fault : CErr
  | code : Nat → CErr
deriving DecidableEq

/-- Computations in the embedded semantics. -/
abbrev CM (α : Type) := Except CErr α

def exceptRepr {ε α : Type} : Except ε α → ε ⊕ α
  | .error e => .inl e
  | .ok a => .inr a

theorem exceptRepr_inj {ε α : Type} (x y : Except ε α) :
    x = y ↔ exceptRepr x = exceptRepr y := by
  cases x <;> cases y <;> simp [exceptRepr]

instance {ε α : Type} [DecidableEq ε] [DecidableEq α] : DecidableEq (Except ε α) :=
  fun x y => decidable_of_iff _ (exceptRepr_inj x y).symm

/-- Bounds-checked array read (`xs[i]` in C). -/
def aget {α : Type} (xs : List α) (i : Int) : CM α :=
  if h : 0 ≤ i ∧ i.toNat < xs.length then .ok (xs.get ⟨i.toNat, h.2⟩) else .error .fault

/-- Bounds-checked array write (`xs[i] = v` in C). -/
def aset {α : Type} (xs : List α) (i : Int) (v : α) : CM (List α) :=
  if 0 ≤ i ∧ i.toNat < xs.length then .ok (xs.set i.toNat v) else .error .fault

/-- `xs[i]++` in C. -/
def bump (xs : List Int) (i : Int) : CM (List Int) := do
  let v ← aget xs i
  aset xs i (v + 1)

/-- Error-propagating left fold: the embedded form of a C `for` loop whose body
may fault or return an error. -/
def efold {σ α : Type} (f : σ → α → CM σ) : σ → List α → CM σ
  | s, [] => .ok s
  | s, x :: xs =>
    match f s x with
    | .ok s2 => efold f s2 xs
    | .error e => .error e

/-- The COO triplet list built from the parallel arrays. -/
def zip3 : List Int → List Int → List ℚ → List (Int × Int × ℚ)
  | r :: rs, c :: cs, v :: vs => (r, c, v) :: zip3 rs cs vs
  | _, _, _ => []

/-- The list `[s, s+1, ..., e-1]` of `Int` loop indices. -/
def intRange (s e : Int) : List Int :=
  (List.range (e - s).toNat).map (fun (t : Nat) => s + (t : Int))

/-- Matrix Market symmetry kind (only the two kinds the programs handle). -/
inductive Mtxsymmetry where
  | general
  | symmetric
deriving DecidableEq

/-- errno value `EINVAL` used by the drivers for configuration errors. -/
def EINVAL : Nat := 22

end Ellspmv

namespace Ellspmv

/-! ## CSR conversion (`src/csrspmv.c`) -/

/-- Result record of `csr_from_coo_size` (`src/csrspmv.c:1192-1240`): the
row-pointer array together with the values returned through the out
parameters `csrsize`, `rowsizemin`, `rowsizemax`, `diagsize`. -/
structure CsrSize where
  rowptr : List Int
  csrsize : Int
  rowsizemin : Int
  rowsizemax : Int
  diagsize : Int
deriving DecidableEq, Repr

/-- `csr_from_coo_size` (`src/csrspmv.c:1192-1240`): the counting pass of the
COO→CSR conversion.  Counts, for each row, the nonzeros destined for it
(mirroring off-diagonal entries of a square symmetric matrix into both rows,
and skipping diagonal entries of a square matrix when the diagonal is
separated), then turns the counts into a prefix sum in place, recording the
minimum and maximum row count on the way. -/
def csr_from_coo_size (symmetry : Mtxsymmetry) (num_rows num_columns : Nat)
    (rowidx colidx : List Int) (a : List ℚ) (separate_diagonal : Bool) : CM CsrSize := do
  let rowptr : List Int := List.replicate (num_rows + 1) 0
  let rowptr ←
    if num_rows = num_columns ∧ symmetry = Mtxsymmetry.symmetric ∧ separate_diagonal = true then
      efold (fun rp e =>
        if e.1 ≠ e.2.1 then do
          let rp ← bump rp e.1
          bump rp e.2.1
        else pure rp) rowptr (zip3 rowidx colidx a)
    else if num_rows = num_columns ∧ symmetry = Mtxsymmetry.symmetric ∧ separate_diagonal = false then
      efold (fun rp e =>
        if e.1 ≠ e.2.1 then do
          let rp ← bump rp e.1
          bump rp e.2.1
        else bump rp e.1) rowptr (zip3 rowidx colidx a)
    else if num_rows = num_columns ∧ separate_diagonal = true then
      efold (fun rp e =>
        if e.1 ≠ e.2.1 then bump rp e.1 else pure rp) rowptr (zip3 rowidx colidx a)
    else
      efold (fun rp e => bump rp e.1) rowptr (zip3 rowidx colidx a)
  let rowmin0 ← if 0 < num_rows then aget rowptr 1 else pure 0
  let st ← efold (fun (st : Int × Int × List Int) (i : Nat) => do
      let (rowmin, rowmax, rp) := st
      let v ← aget rp (i : Int)
      let vprev ← aget rp ((i : Int) - 1)
      let rp ← aset rp (i : Int) (v + vprev)
      pure (if rowmin ≤ v then rowmin else v, if rowmax ≥ v then rowmax else v, rp))
    (rowmin0, 0, rowptr) ((List.range num_rows).map (fun i => i + 1))
  let (rowmin, rowmax, rowptr) := st
  let csrsize ← aget rowptr (num_rows : Int)
  pure {
    rowptr := rowptr
    csrsize := csrsize
    rowsizemin := if num_rows = num_columns ∧ separate_diagonal = true then rowmin + 1 else rowmin
    rowsizemax := if num_rows = num_columns ∧ separate_diagonal = true then rowmax + 1 else rowmax
    diagsize := if num_rows = num_columns ∧ separate_diagonal = true then (num_rows : Int) else 0 }

/-- Stable insertion of one `(column, value)` pair into a column-sorted row,
after all pairs with a column index `≤` its own (the shift loop of the
insertion sort in `rowsort` moves entries only while `colidx[l] > j`). -/
def insertByCol (x : Int × ℚ) : List (Int × ℚ) → List (Int × ℚ)
  | [] => [x]
  | y :: ys => if y.1 > x.1 then x :: y :: ys else y :: insertByCol x ys

/-- Insertion sort of a row's `(column, value)` pairs by ascending column. -/
def sortRowPairs (ps : List (Int × ℚ)) : List (Int × ℚ) :=
  ps.foldl (fun acc x => insertByCol x acc) []

/-- `rowsort` (`src/csrspmv.c:1242-1361`, duplicated in `src/ellspmv.c`),
modelled at the granularity of whole rows: for each row `i` the slice
`colidx[rowptr[i]..rowptr[i+1])`/`a[...]` is replaced by the same pairs sorted
by ascending column index.  The C code sorts short rows by insertion sort and
long rows by a blocked insertion/bottom-up-merge hybrid; both orderings are
modelled by the stable per-row insertion sort above.  (No theorem in this file
depends on the sorted order; every claim below runs with `sort_rows` false or
faults before reaching the sort.) -/
def rowsort (num_rows num_columns : Nat) (rowptr : List Int) (rowsizemax : Int)
    (colidx : List Int) (a : List ℚ) : CM (List Int × List ℚ) :=
  efold (fun (st : List Int × List ℚ) (i : Nat) => do
      let (colidx, a) := st
      let rs ← aget rowptr (i : Int)
      let re ← aget rowptr ((i : Int) + 1)
      let pairs ← efold (fun ps k => do
          let j ← aget colidx k
          let v ← aget a k
          pure (ps ++ [(j, v)])) [] (intRange rs re)
      let sorted := sortRowPairs pairs
      efold (fun (st : List Int × List ℚ) (tk : Nat × (Int × ℚ)) => do
          let (colidx, a) := st
          let colidx ← aset colidx (rs + (tk.1 : Int)) tk.2.1
          let a ← aset a (rs + (tk.1 : Int)) tk.2.2
          pure (colidx, a)) (colidx, a) sorted.enum)
    (colidx, a) (List.range num_rows)

/-- Result record of `csr_from_coo`: the (restored) row pointers, the CSR
column indices and values, and the separated diagonal values. -/
structure Csr where
  rowptr : List Int
  colidx : List Int
  a : List ℚ
  ad : List ℚ
deriving DecidableEq, Repr

/-- The final loop of each branch of `csr_from_coo`:
`for (i = num_rows; i > 0; i--) rowptr[i] = rowptr[i-1]; rowptr[0] = 0;`,
which undoes the in-place cursor mutation done by the scatter. -/
def csrShift (num_rows : Nat) (rowptr : List Int) : CM (List Int) := do
  let rowptr ← efold (fun rp (i : Nat) => do
      let v ← aget rp ((i : Int) - 1)
      aset rp (i : Int) v)
    rowptr (((List.range num_rows).map (fun i => i + 1)).reverse)
  aset rowptr 0 0

/-- One step of the square-symmetric separated-diagonal scatter of
`csr_from_coo` (`src/csrspmv.c:1369-1385`). -/
def csrSymSepStep (st : List Int × List Int × List ℚ × List ℚ) (e : Int × Int × ℚ) :
    CM (List Int × List Int × List ℚ × List ℚ) := do
  let (rp, ccol, ca, cad) := st
  let (ri, ci, av) := e
  if ri = ci then do
    let v ← aget cad (ri - 1)
    let cad ← aset cad (ri - 1) (v + av)
    pure (rp, ccol, ca, cad)
  else do
    let i := ri - 1
    let j := ci - 1
    let c ← aget rp i
    let ccol ← aset ccol c j
    let ca ← aset ca c av
    let rp ← aset rp i (c + 1)
    let c ← aget rp j
    let ccol ← aset ccol c i
    let ca ← aset ca c av
    let rp ← aset rp j (c + 1)
    pure (rp, ccol, ca, cad)

/-- One step of the square-symmetric non-separated scatter of `csr_from_coo`
(`src/csrspmv.c:1390-1404`). -/
def csrSymNoSepStep (st : List Int × List Int × List ℚ × List ℚ) (e : Int × Int × ℚ) :
    CM (List Int × List Int × List ℚ × List ℚ) := do
  let (rp, ccol, ca, cad) := st
  let (ri, ci, av) := e
  let i := ri - 1
  let j := ci - 1
  let c ← aget rp i
  let ccol ← aset ccol c j
  let ca ← aset ca c av
  let rp ← aset rp i (c + 1)
  if i ≠ j then do
    let c ← aget rp j
    let ccol ← aset ccol c i
    let ca ← aset ca c av
    let rp ← aset rp j (c + 1)
    pure (rp, ccol, ca, cad)
  else pure (rp, ccol, ca, cad)

/-- One step of the square general separated-diagonal scatter of
`csr_from_coo` (`src/csrspmv.c:1409-1419`). -/
def csrSepStep (st : List Int × List Int × List ℚ × List ℚ) (e : Int × Int × ℚ) :
    CM (List Int × List Int × List ℚ × List ℚ) := do
  let (rp, ccol, ca, cad) := st
  let (ri, ci, av) := e
  let i := ri - 1
  let j := ci - 1
  if i = j then do
    let v ← aget cad i
    let cad ← aset cad i (v + av)
    pure (rp, ccol, ca, cad)
  else do
    let c ← aget rp i
    let ccol ← aset ccol c j
    let ca ← aset ca c av
    let rp ← aset rp i (c + 1)
    pure (rp, ccol, ca, cad)

/-- One step of the permutation bucket-scatter of `csr_from_coo`'s general
branch (`src/csrspmv.c:1426-1431`). -/
def csrPermStep (st : List Int × List Int) (ke : Nat × (Int × Int × ℚ)) :
    CM (List Int × List Int) := do
  let (rp, perm) := st
  let (k, e) := ke
  let i := e.1 - 1
  let c ← aget rp i
  let perm ← aset perm c (k : Int)
  let rp ← aset rp i (c + 1)
  pure (rp, perm)

/-- One step of the gather of `csr_from_coo`'s general branch
(`src/csrspmv.c:1437-1441`). -/
def csrGatherStep (perm colidx : List Int) (a : List ℚ)
    (st : List Int × List ℚ) (k : Nat) : CM (List Int × List ℚ) := do
  let (ccol, ca) := st
  let pk ← aget perm (k : Int)
  let cj ← aget colidx pk
  let av ← aget a pk
  let ccol ← aset ccol (k : Int) (cj - 1)
  let ca ← aset ca (k : Int) av
  pure (ccol, ca)

/-- `csr_from_coo` (`src/csrspmv.c:1363-1448`): the fill pass of the COO→CSR
conversion.  Scatters each COO entry into its row's next free slot, using the
row-pointer array itself as the cursor array; symmetric branches also scatter
the transposed entry, diagonal-separating branches accumulate diagonal entries
into `csrad` instead; the general branch first builds a permutation that
groups the entry indices by row and then gathers columns and values through
it.  Each branch finally shifts the row pointers back.  `csrcolidx`, `csra`
and `csrad` are the caller-allocated output buffers. -/
def csr_from_coo (symmetry : Mtxsymmetry) (num_rows num_columns : Nat)
    (rowidx colidx : List Int) (a : List ℚ)
    (rowptr : List Int) (csrsize : Int) (rowsizemin rowsizemax : Int)
    (csrcolidx : List Int) (csra : List ℚ) (csrad : List ℚ)
    (separate_diagonal sort_rows : Bool) : CM Csr := do
  let st ←
    if num_rows = num_columns ∧ symmetry = Mtxsymmetry.symmetric ∧ separate_diagonal = true then do
      let st ← efold csrSymSepStep (rowptr, csrcolidx, csra, csrad) (zip3 rowidx colidx a)
      let (rp, ccol, ca, cad) := st
      let rp ← csrShift num_rows rp
      pure (rp, ccol, ca, cad)
    else if num_rows = num_columns ∧ symmetry = Mtxsymmetry.symmetric ∧ separate_diagonal = false then do
      let st ← efold csrSymNoSepStep (rowptr, csrcolidx, csra, csrad) (zip3 rowidx colidx a)
      let (rp, ccol, ca, cad) := st
      let rp ← csrShift num_rows rp
      pure (rp, ccol, ca, cad)
    else if num_rows = num_columns ∧ separate_diagonal = true then do
      let st ← efold csrSepStep (rowptr, csrcolidx, csra, csrad) (zip3 rowidx colidx a)
      let (rp, ccol, ca, cad) := st
      let rp ← csrShift num_rows rp
      pure (rp, ccol, ca, cad)
    else do
      let nnz := (zip3 rowidx colidx a).length
      let perm : List Int := List.replicate nnz 0
      let st ← efold csrPermStep (rowptr, perm) (zip3 rowidx colidx a).enum
      let (rp, perm) := st
      let rp ← csrShift num_rows rp
      let st ← efold (csrGatherStep perm colidx a) (csrcolidx, csra) (List.range nnz)
      let (ccol, ca) := st
      pure (rp, ccol, ca, csrad)
  let (rp, ccol, ca, cad) := st
  if sort_rows = true then do
    let (ccol, ca) ← rowsort num_rows num_columns rp rowsizemax ccol ca
    pure { rowptr := rp, colidx := ccol, a := ca, ad := cad }
  else
    pure { rowptr := rp, colidx := ccol, a := ca, ad := cad }

end Ellspmv

namespace Ellspmv

/-! ## CSR SpMV kernels (`src/csrspmv.c`) -/

/-- The inner product loop shared by the CSR kernels:
`for (k = s; k < e; k++) yi += a[k] * x[colidx[k]];`. -/
def csrRowDot (s e : Int) (colidx : List Int) (a : List ℚ) (x : List ℚ) : CM ℚ :=
  efold (fun yi k => do
      let j ← aget colidx k
      let av ← aget a k
      let xv ← aget x j
      pure (yi + av * xv)) 0 (intRange s e)

/-- `csrgemv` (`src/csrspmv.c:1534-1560`): `y += A*x` for a CSR matrix,
accumulating each row's nonzeros sequentially, left to right. -/
def csrgemv (num_rows : Nat) (y : List ℚ) (num_columns : Nat) (x : List ℚ)
    (csrsize rowsizemin rowsizemax : Int) (rowptr colidx : List Int) (a : List ℚ) :
    CM (List ℚ) :=
  efold (fun y (i : Nat) => do
      let rs ← aget rowptr (i : Int)
      let re ← aget rowptr ((i : Int) + 1)
      let yi ← csrRowDot rs re colidx a x
      let yv ← aget y (i : Int)
      aset y (i : Int) (yv + yi)) y (List.range num_rows)

/-- `csrgemvsd` (`src/csrspmv.c:1563-1590`): CSR `y += A*x` with a separated
diagonal: `y[i] += ad[i]*x[i] + yi`. -/
def csrgemvsd (num_rows : Nat) (y : List ℚ) (num_columns : Nat) (x : List ℚ)
    (csrsize rowsizemin rowsizemax : Int) (rowptr colidx : List Int) (a : List ℚ)
    (ad : List ℚ) : CM (List ℚ) :=
  efold (fun y (i : Nat) => do
      let rs ← aget rowptr (i : Int)
      let re ← aget rowptr ((i : Int) + 1)
      let yi ← csrRowDot rs re colidx a x
      let adi ← aget ad (i : Int)
      let xi ← aget x (i : Int)
      let yv ← aget y (i : Int)
      aset y (i : Int) (yv + (adi * xi + yi))) y (List.range num_rows)

/-- The body run by thread `p` of `csrgemvrp` (`src/csrspmv.c:1592-1640`,
OpenMP version): multiplies the explicitly partitioned row range
`[startrows[p], endrows[p])`, with the separated-diagonal term when
`ad` is present and `diagsize > 0`. -/
def csrgemvrpThread (y : List ℚ) (x : List ℚ) (rowptr colidx : List Int) (a : List ℚ)
    (diagsize : Int) (ad : Option (List ℚ)) (startrows endrows : List Int) (p : Nat) :
    CM (List ℚ) := do
  let sr ← aget startrows (p : Int)
  let er ← aget endrows (p : Int)
  match ad with
  | some ad =>
    if 0 < diagsize then
      efold (fun y i => do
          let rs ← aget rowptr i
          let re ← aget rowptr (i + 1)
          let yi ← csrRowDot rs re colidx a x
          let adi ← aget ad i
          let xi ← aget x i
          let yv ← aget y i
          aset y i (yv + (adi * xi + yi))) y (intRange sr er)
    else
      efold (fun y i => do
          let rs ← aget rowptr i
          let re ← aget rowptr (i + 1)
          let yi ← csrRowDot rs re colidx a x
          let yv ← aget y i
          aset y i (yv + yi)) y (intRange sr er)
  | none =>
    efold (fun y i => do
        let rs ← aget rowptr i
        let re ← aget rowptr (i + 1)
        let yi ← csrRowDot rs re colidx a x
        let yv ← aget y i
        aset y i (yv + yi)) y (intRange sr er)

/-- `csrgemvrp` (`src/csrspmv.c:1592-1640`): the row-partitioned CSR kernel.
The OpenMP parallel region is modelled by running the thread bodies
sequentially (each thread writes only its own disjoint row range). -/
def csrgemvrp (nthreads : Nat) (num_rows : Nat) (y : List ℚ) (num_columns : Nat)
    (x : List ℚ) (csrsize rowsizemin rowsizemax : Int) (rowptr colidx : List Int)
    (a : List ℚ) (diagsize : Int) (ad : Option (List ℚ))
    (startrows endrows : List Int) : CM (List ℚ) :=
  efold (fun y p => csrgemvrpThread y x rowptr colidx a diagsize ad startrows endrows p)
    y (List.range nthreads)

/-- The linear scans
`while (row < num_rows && nz > rowptr[row+1]) row++;` used by the
nonzero-partitioned kernel to find the row containing a nonzero boundary.
The fuel argument is `num_rows - row`, so fuel `0` is exactly `row ≥ num_rows`. -/
def rowscan (rowptr : List Int) (nz : Int) : Nat → Nat → CM Nat
  | row, 0 => pure row
  | row, fuel + 1 => do
    let v ← aget rowptr ((row : Int) + 1)
    if nz > v then rowscan rowptr nz (row + 1) fuel else pure row

/-- The body run by thread `p` of `csrgemvnz` (`src/csrspmv.c:1642-1722`,
OpenMP version): the thread's nonzero range is
`[p*(csrsize+nthreads-1)/nthreads, (p+1)*(csrsize+nthreads-1)/nthreads)`
clamped to `csrsize`; the rows it touches are found by `rowscan` (or taken
from the precomputed `startrows`/`endrows`); the thread then **zeroes
`y[startrow..endrow)`**, accumulates partial sums of the boundary rows with
atomic adds and interior rows with plain adds, and finally adds the separated
diagonal (an `omp for` over all rows, modelled by the static block schedule). -/
def csrgemvnzThread (nthreads p : Nat) (num_rows : Nat) (y : List ℚ)
    (num_columns : Nat) (x : List ℚ) (csrsize rowsizemin rowsizemax : Int)
    (rowptr colidx : List Int)
    (a : List ℚ) (diagsize : Int) (ad : Option (List ℚ))
    (startrows endrows : Option (List Int)) : CM (List ℚ) := do
  let startnz : Int := (p : Int) * (csrsize + (nthreads : Int) - 1) / (nthreads : Int)
  let endnz0 : Int := ((p : Int) + 1) * (csrsize + (nthreads : Int) - 1) / (nthreads : Int)
  let endnz : Int := if endnz0 > csrsize then csrsize else endnz0
  let startrow ← match startrows with
    | some sr => do
      let v ← aget sr (p : Int)
      pure v.toNat
    | none => rowscan rowptr startnz 0 num_rows
  let endrow ← match endrows with
    | some er => do
      let v ← aget er (p : Int)
      pure v.toNat
    | none => rowscan rowptr (endnz - 1) startrow (num_rows - startrow)
  let y ← efold (fun y i => aset y i (0 : ℚ)) y (intRange (startrow : Int) (endrow : Int))
  let y ←
    if startrow = endrow then do
      let yi ← csrRowDot startnz endnz colidx a x
      let yv ← aget y (startrow : Int)
      aset y (startrow : Int) (yv + yi)
    else do
      let re ← aget rowptr ((startrow : Int) + 1)
      let yi ← csrRowDot startnz re colidx a x
      let yv ← aget y (startrow : Int)
      let y ← aset y (startrow : Int) (yv + yi)
      let y ← efold (fun y i => do
          let rs ← aget rowptr i
          let re ← aget rowptr (i + 1)
          let yi ← csrRowDot rs re colidx a x
          let yv ← aget y i
          aset y i (yv + yi)) y (intRange ((startrow : Int) + 1) (endrow : Int))
      let rs ← aget rowptr (endrow : Int)
      let yi ← csrRowDot rs endnz colidx a x
      let yv ← aget y (endrow : Int)
      aset y (endrow : Int) (yv + yi)
  match ad with
  | some ad =>
    if 0 < diagsize then do
      let chunk : Nat := (num_rows + nthreads - 1) / nthreads
      let lo : Nat := p * chunk
      let hi : Nat := min ((p + 1) * chunk) num_rows
      efold (fun y i => do
          let adi ← aget ad i
          let xi ← aget x i
          let yv ← aget y i
          aset y i (yv + adi * xi)) y (intRange (lo : Int) (hi : Int))
    else pure y
  | none => pure y

/-- `csrgemvnz` (`src/csrspmv.c:1642-1722`): the nonzero-partitioned CSR
kernel, with the parallel region modelled by sequential thread composition
(exact for one thread; for several threads the boundary-row atomics make the
sum deterministic but the interleaving with the zeroing loop is not modelled). -/
def csrgemvnz (nthreads : Nat) (num_rows : Nat) (y : List ℚ) (num_columns : Nat)
    (x : List ℚ) (csrsize rowsizemin rowsizemax : Int) (rowptr colidx : List Int)
    (a : List ℚ)
    (diagsize : Int) (ad : Option (List ℚ)) (startrows endrows : Option (List Int)) :
    CM (List ℚ) :=
  efold (fun y p =>
      csrgemvnzThread nthreads p num_rows y num_columns x csrsize rowsizemin rowsizemax
        rowptr colidx a diagsize ad startrows endrows)
    y (List.range nthreads)

end Ellspmv

namespace Ellspmv

/-! ## ELLPACK conversion and kernels (`src/ellspmv.c`) -/

/-- Result record of `ell_from_coo_size` (`src/ellspmv.c:923-950`). -/
structure EllSize where
  rowptr : List Int
  ellsize : Int
  rowsize : Int
  diagsize : Int
deriving DecidableEq, Repr

/-- `ell_from_coo_size` (`src/ellspmv.c:923-950`): counts the nonzeros per row
(excluding diagonal entries when the diagonal is separated), records the
maximum row count as the fixed ELL row width `rowsize`, prefix-sums the
counts, and sets `ellsize = num_rows * rowsize` and
`diagsize = min(num_rows, num_columns)`. -/
def ell_from_coo_size (num_rows num_columns : Nat)
    (rowidx colidx : List Int) (a : List ℚ) (separate_diagonal : Bool) : CM EllSize := do
  let rowptr : List Int := List.replicate (num_rows + 1) 0
  let rowptr ← efold (fun rp e =>
      if separate_diagonal = false ∨ e.1 ≠ e.2.1 then bump rp e.1 else pure rp)
    rowptr (zip3 rowidx colidx a)
  let st ← efold (fun (st : Int × List Int) (i : Nat) => do
      let (rowmax, rp) := st
      let v ← aget rp (i : Int)
      let vprev ← aget rp ((i : Int) - 1)
      let rp ← aset rp (i : Int) (v + vprev)
      pure (if rowmax ≥ v then rowmax else v, rp))
    (0, rowptr) ((List.range num_rows).map (fun i => i + 1))
  let (rowmax, rowptr) := st
  pure { rowptr := rowptr, ellsize := (num_rows : Int) * rowmax, rowsize := rowmax,
         diagsize := if num_rows < num_columns then (num_rows : Int) else (num_columns : Int) }

/-- Result record of `ell_from_coo`. -/
structure Ell where
  rowptr : List Int
  colidx : List Int
  a : List ℚ
  ad : List ℚ
deriving DecidableEq, Repr

/-- One step of the ELLPACK scatter of `ell_from_coo`
(`src/ellspmv.c:1085-1099`). -/
def ellScatterStep (separate_diagonal : Bool) (rowsize : Int)
    (st : List Int × List Int × List ℚ × List ℚ) (e : Int × Int × ℚ) :
    CM (List Int × List Int × List ℚ × List ℚ) := do
  let (rp, ecol, ea, ead) := st
  let (ri, ci, av) := e
  if separate_diagonal = true ∧ ri = ci then do
    let v ← aget ead (ri - 1)
    let ead ← aset ead (ri - 1) (v + av)
    pure (rp, ecol, ea, ead)
  else do
    let i := ri - 1
    let c ← aget rp i
    let ecol ← aset ecol (i * rowsize + c) (ci - 1)
    let ea ← aset ea (i * rowsize + c) av
    let rp ← aset rp i (c + 1)
    pure (rp, ecol, ea, ead)

/-- One padding write of `ell_from_coo` (`src/ellspmv.c:1104-1108`): slot `l`
of row `i` is set to column `j` and value `0`. -/
def ellPadStep (rowsize : Int) (i : Nat) (j : Int)
    (st : List Int × List ℚ) (l : Int) : CM (List Int × List ℚ) := do
  let (ecol, ea) := st
  let ecol ← aset ecol ((i : Int) * rowsize + l) j
  let ea ← aset ea ((i : Int) * rowsize + l) (0 : ℚ)
  pure (ecol, ea)

/-- The padding of one ELLPACK row (`src/ellspmv.c:1100-1111`): the slots
beyond the row's fill count are set to column `min(i, num_columns-1)` and
value `0`. -/
def ellPadRow (num_columns : Nat) (rowsize : Int) (rp : List Int)
    (st : List Int × List ℚ) (i : Nat) : CM (List Int × List ℚ) := do
  let (ecol, ea) := st
  let j : Int := if (i : Int) < (num_columns : Int) then (i : Int) else (num_columns : Int) - 1
  let c ← aget rp (i : Int)
  efold (ellPadStep rowsize i j) (ecol, ea) (intRange c rowsize)

/-- `ell_from_coo` (`src/ellspmv.c:1073-1119`): the ELLPACK fill pass.  The
row-pointer array is re-zeroed and used as a per-row fill count; each entry is
written at `colidx[i*rowsize + rowptr[i]]`/`a[...]` (or accumulated into
`ellad[i]` for diagonal entries when `separate_diagonal` is set); afterwards
every row is padded up to `rowsize` with column `min(i, num_columns-1)` and
value `0`.  Note the parameter order: `separate_diagonal` comes before
`sort_rows` in the signature. -/
def ell_from_coo (num_rows num_columns : Nat)
    (rowidx colidx : List Int) (a : List ℚ)
    (rowptr : List Int) (ellsize : Int) (rowsize : Int)
    (ellcolidx : List Int) (ella : List ℚ) (ellad : List ℚ)
    (separate_diagonal sort_rows : Bool) : CM Ell := do
  let rowptr ← efold (fun rp (i : Nat) => aset rp (i : Int) 0) rowptr (List.range (num_rows + 1))
  let st ← efold (ellScatterStep separate_diagonal rowsize)
    (rowptr, ellcolidx, ella, ellad) (zip3 rowidx colidx a)
  let (rp, ecol, ea, ead) := st
  let st ← efold (ellPadRow num_columns rowsize rp) (ecol, ea) (List.range num_rows)
  let (ecol, ea) := st
  if sort_rows = true then do
    let (ecol, ea) ← rowsort num_rows num_columns rp rowsize ecol ea
    pure { rowptr := rp, colidx := ecol, a := ea, ad := ead }
  else
    pure { rowptr := rp, colidx := ecol, a := ea, ad := ead }

/-- `ellgemv` (`src/ellspmv.c:1121-1145`): `y += A*x` for an ELLPACK matrix;
each row accumulates its `rowsize` slots sequentially (padding slots
contribute `0 * x[j]`). -/
def ellgemv (num_rows : Nat) (y : List ℚ) (num_columns : Nat) (x : List ℚ)
    (ellsize : Int) (rowsize : Int) (colidx : List Int) (a : List ℚ) : CM (List ℚ) :=
  efold (fun y (i : Nat) => do
      let yi ← efold (fun yi l => do
          let j ← aget colidx ((i : Int) * rowsize + l)
          let av ← aget a ((i : Int) * rowsize + l)
          let xv ← aget x j
          pure (yi + av * xv)) 0 (intRange 0 rowsize)
      let yv ← aget y (i : Int)
      aset y (i : Int) (yv + yi)) y (List.range num_rows)

/-- `ellgemvsd` (`src/ellspmv.c:1147-1172`): ELLPACK `y += A*x` with a
separated diagonal: `y[i] += ad[i]*x[i] + yi`. -/
def ellgemvsd (num_rows : Nat) (y : List ℚ) (num_columns : Nat) (x : List ℚ)
    (ellsize : Int) (rowsize : Int) (colidx : List Int) (a : List ℚ) (ad : List ℚ) :
    CM (List ℚ) :=
  efold (fun y (i : Nat) => do
      let yi ← efold (fun yi l => do
          let j ← aget colidx ((i : Int) * rowsize + l)
          let av ← aget a ((i : Int) * rowsize + l)
          let xv ← aget x j
          pure (yi + av * xv)) 0 (intRange 0 rowsize)
      let adi ← aget ad (i : Int)
      let xi ← aget x (i : Int)
      let yv ← aget y (i : Int)
      aset y (i : Int) (yv + (adi * xi + yi))) y (List.range num_rows)

/-- `ellgemv16sd` (`src/ellspmv.c:1174-1213`): the fully unrolled fast path
for row width 16; returns the error code `EINVAL` when `rowsize != 16`,
otherwise adds the sixteen products and the diagonal term of each row in one
expression (same left-to-right order as the generic kernel). -/
def ellgemv16sd (num_rows : Nat) (y : List ℚ) (num_columns : Nat) (x : List ℚ)
    (ellsize : Int) (rowsize : Int) (colidx : List Int) (a : List ℚ) (ad : List ℚ) :
    CM (List ℚ) := do
  if rowsize ≠ 16 then throw (CErr.code EINVAL)
  else
    efold (fun y (i : Nat) => do
        let adi ← aget ad (i : Int)
        let xi ← aget x (i : Int)
        let terms ← efold (fun acc l => do
            let j ← aget colidx ((i : Int) * 16 + l)
            let av ← aget a ((i : Int) * 16 + l)
            let xv ← aget x j
            pure (acc + av * xv)) (adi * xi) (intRange 0 16)
        let yv ← aget y (i : Int)
        aset y (i : Int) (yv + terms)) y (List.range num_rows)

end Ellspmv

namespace Ellspmv

/-! ## Driver fragments (`main` of `src/csrspmv.c` and `src/ellspmv.c`) -/

/-- The two partitioning strategies selectable with `--partition`. -/
inductive Partition where
  | rows
  | nonzeros
deriving DecidableEq

/-- Outcome of the explicit `--rows-per-thread` partition planning
(`src/csrspmv.c:1983-2014`): the cumulative row boundaries, the two possible
warnings, and the fatal error code (the driver frees everything and exits
with `EXIT_FAILURE` when `fatal` is set, before the conversion fill pass and
before any multiply). -/
structure RowPartition where
  startrows : List Int
  endrows : List Int
  warn_mismatch : Bool
  warn_undersum : Bool
  fatal : Option Nat
deriving DecidableEq, Repr

/-- The `--rows-per-thread` planning block of `csrspmv`'s `main`
(`src/csrspmv.c:1983-2014`): computes cumulative boundaries
`startrows[p] = endrows[p-1]`, `endrows[p] = startrows[p] + counts[p]`
(threads beyond the supplied list get empty ranges), warns when the list
length differs from the thread count, exits fatally with `EINVAL` when
`endrows[nthreads-1] > num_rows`, and warns (only) when it is smaller. -/
def rowsPerThreadPartition (nthreads : Nat) (num_rows : Nat) (counts : List Int) :
    CM RowPartition := do
  let startrows : List Int := List.replicate nthreads 0
  let endrows : List Int := List.replicate nthreads 0
  let startrows ← if 0 < nthreads then aset startrows 0 0 else pure startrows
  let endrows ← if 0 < nthreads then aset endrows 0 (counts.getD 0 0) else pure endrows
  let st ← efold (fun (st : List Int × List Int) (p : Nat) => do
      let (startrows, endrows) := st
      let prev ← aget endrows ((p : Int) - 1)
      let startrows ← aset startrows (p : Int) prev
      let endrows ←
        if p < counts.length then aset endrows (p : Int) (prev + counts.getD p 0)
        else aset endrows (p : Int) prev
      pure (startrows, endrows))
    (startrows, endrows) ((List.range (nthreads - 1)).map (fun p => p + 1))
  let (startrows, endrows) := st
  let warn_mismatch := counts.length ≠ nthreads
  let last ← if 0 < nthreads then aget endrows ((nthreads : Int) - 1) else pure 0
  if 0 < nthreads ∧ last > (num_rows : Int) then
    pure { startrows := startrows, endrows := endrows, warn_mismatch := warn_mismatch,
           warn_undersum := false, fatal := some EINVAL }
  else
    pure { startrows := startrows, endrows := endrows, warn_mismatch := warn_mismatch,
           warn_undersum := 0 < nthreads ∧ last < (num_rows : Int), fatal := none }

/-- The `x`-vector default initialization of `csrspmv`'s `main`
(`src/csrspmv.c:2266-2293`), run when no `x` file is supplied: depending on
the partition options, either each thread fills its column range and the
master thread fills the tail, or each thread fills its row range (square
matrices) and the master the tail, or a plain parallel loop sets every entry;
in every branch the written value is `1.0`.  `x` is the freshly allocated
(uninitialized) buffer. -/
def csrXInit (partition : Partition)
    (columns_per_thread rows_per_thread : Option (List Int))
    (num_rows num_columns nthreads : Nat)
    (startrows endrows startcolumns endcolumns : List Int) (x : List ℚ) : CM (List ℚ) :=
  if partition = Partition.rows ∧ columns_per_thread ≠ none then do
    let x ← efold (fun x (p : Nat) => do
        let sc ← aget startcolumns (p : Int)
        let ec ← aget endcolumns (p : Int)
        efold (fun x i => aset x i (1 : ℚ)) x (intRange sc ec)) x (List.range nthreads)
    let eclast ← aget endcolumns ((nthreads : Int) - 1)
    efold (fun x i => aset x i (1 : ℚ)) x (intRange eclast (num_columns : Int))
  else if partition = Partition.rows ∧ rows_per_thread ≠ none ∧ num_rows = num_columns then do
    let x ← efold (fun x (p : Nat) => do
        let sr ← aget startrows (p : Int)
        let er ← aget endrows (p : Int)
        efold (fun x i => aset x i (1 : ℚ)) x (intRange sr er)) x (List.range nthreads)
    let erlast ← aget endrows ((nthreads : Int) - 1)
    efold (fun x i => aset x i (1 : ℚ)) x (intRange erlast (num_rows : Int))
  else
    efold (fun x i => aset x i (1 : ℚ)) x (intRange 0 (num_columns : Int))

/-- The `y`-vector default initialization of `csrspmv`'s `main`
(`src/csrspmv.c:2410-2442`), run when no `y` file is supplied: under row
partitioning every row is zeroed (either by a plain parallel loop or by the
per-thread ranges plus the master tail); under nonzero partitioning each
thread zeroes only the rows `[startrow, endrow)` of its nonzero range.
`y` is the freshly allocated (uninitialized) buffer. -/
def csrYInit (partition : Partition) (rows_per_thread : Option (List Int))
    (num_rows nthreads : Nat) (csrsize : Int) (csrrowptr : List Int)
    (startrows endrows : Option (List Int)) (startrowsRP endrowsRP : List Int)
    (y : List ℚ) : CM (List ℚ) :=
  if partition = Partition.rows ∧ rows_per_thread = none then
    efold (fun y i => aset y i (0 : ℚ)) y (intRange 0 (num_rows : Int))
  else if partition = Partition.rows then do
    let y ← efold (fun y (p : Nat) => do
        let sr ← aget startrowsRP (p : Int)
        let er ← aget endrowsRP (p : Int)
        efold (fun y i => aset y i (0 : ℚ)) y (intRange sr er)) y (List.range nthreads)
    let erlast ← aget endrowsRP ((nthreads : Int) - 1)
    efold (fun y i => aset y i (0 : ℚ)) y (intRange erlast (num_rows : Int))
  else
    efold (fun y (p : Nat) => do
        let startnz : Int := (p : Int) * (csrsize + (nthreads : Int) - 1) / (nthreads : Int)
        let endnz0 : Int := ((p : Int) + 1) * (csrsize + (nthreads : Int) - 1) / (nthreads : Int)
        let endnz : Int := if endnz0 > csrsize then csrsize else endnz0
        let startrow ← match startrows with
          | some sr => do
            let v ← aget sr (p : Int)
            pure v.toNat
          | none => rowscan csrrowptr startnz 0 num_rows
        let endrow ← match endrows with
          | some er => do
            let v ← aget er (p : Int)
            pure v.toNat
          | none => rowscan csrrowptr (endnz - 1) startrow (num_rows - startrow)
        efold (fun y i => aset y i (0 : ℚ)) y (intRange (startrow : Int) (endrow : Int)))
      y (List.range nthreads)

/-- The `x`-vector default initialization of `ellspmv`'s `main`
(`src/ellspmv.c:1494-1497`): `for (j = 0; j < num_columns; j++) x[j] = 1.0;`. -/
def ellXInit (num_columns : Nat) (x : List ℚ) : CM (List ℚ) :=
  efold (fun x i => aset x i (1 : ℚ)) x (intRange 0 (num_columns : Int))

/-- The `y`-vector default initialization of `ellspmv`'s `main`
(`src/ellspmv.c:1602-1605`): `for (i = 0; i < num_rows; i++) y[i] = 0.0;`. -/
def ellYInit (num_rows : Nat) (y : List ℚ) : CM (List ℚ) :=
  efold (fun y i => aset y i (0 : ℚ)) y (intRange 0 (num_rows : Int))

/-- The CSR conversion pipeline as the driver runs it: the size pass followed
by the fill pass, with the output buffers (`csrcolidx`, `csra`, `csrad`)
zero-initialized as the driver's first-touch loops do
(`src/csrspmv.c:2084-2164`). -/
def csrPipeline (symmetry : Mtxsymmetry) (num_rows num_columns : Nat)
    (rowidx colidx : List Int) (a : List ℚ)
    (separate_diagonal sort_rows : Bool) : CM (CsrSize × Csr) := do
  let sz ← csr_from_coo_size symmetry num_rows num_columns rowidx colidx a separate_diagonal
  let csr ← csr_from_coo symmetry num_rows num_columns rowidx colidx a
      sz.rowptr sz.csrsize sz.rowsizemin sz.rowsizemax
      (List.replicate sz.csrsize.toNat 0) (List.replicate sz.csrsize.toNat 0)
      (List.replicate sz.diagsize.toNat 0) separate_diagonal sort_rows
  pure (sz, csr)

/-- The ELLPACK conversion pipeline with the flags passed in the order of
`ell_from_coo`'s signature (`separate_diagonal` then `sort_rows`). -/
def ellPipeline (num_rows num_columns : Nat) (rowidx colidx : List Int) (a : List ℚ)
    (separate_diagonal sort_rows : Bool) : CM (EllSize × Ell) := do
  let sz ← ell_from_coo_size num_rows num_columns rowidx colidx a separate_diagonal
  let ell ← ell_from_coo num_rows num_columns rowidx colidx a sz.rowptr sz.ellsize sz.rowsize
      (List.replicate sz.ellsize.toNat 0) (List.replicate sz.ellsize.toNat 0)
      (List.replicate sz.diagsize.toNat 0) separate_diagonal sort_rows
  pure (sz, ell)

/-- The ELLPACK conversion exactly as `ellspmv`'s `main` performs it
(`src/ellspmv.c:1390-1472`): the size pass is called with
`args.separate_diagonal`; the buffers are zero-initialized (`ellad` by a loop
over `num_rows` entries into the `diagsize`-sized buffer, as in
`src/ellspmv.c:1452-1459`); then `ell_from_coo` is called with the arguments
`..., args.sort_rows, args.separate_diagonal` (`src/ellspmv.c:1460-1463`) —
i.e. `args.sort_rows` lands in the function's `separate_diagonal` parameter
and `args.separate_diagonal` in its `sort_rows` parameter. -/
def ellDriverConvert (num_rows num_columns : Nat) (rowidx colidx : List Int) (a : List ℚ)
    (args_separate_diagonal args_sort_rows : Bool) : CM (EllSize × Ell) := do
  let sz ← ell_from_coo_size num_rows num_columns rowidx colidx a args_separate_diagonal
  let ellad ← efold (fun ad (i : Nat) => aset ad (i : Int) 0)
    (List.replicate sz.diagsize.toNat (0 : ℚ)) (List.range num_rows)
  let ell ← ell_from_coo num_rows num_columns rowidx colidx a sz.rowptr sz.ellsize sz.rowsize
      (List.replicate sz.ellsize.toNat 0) (List.replicate sz.ellsize.toNat 0) ellad
      args_sort_rows args_separate_diagonal
  pure (sz, ell)

end Ellspmv

namespace Ellspmv

/-! ## Specification-side definitions used by the theorems -/

/-- Partial sums: `psumFrom acc [c1, ..., ck] = [acc+c1, acc+c1+c2, ...]`. -/
def psumFrom (acc : Int) : List Int → List Int
  | [] => []
  | c :: cs => (acc + c) :: psumFrom (acc + c) cs

/-- One write of a cursor-directed scatter: writing into (0-based) row `w.1`
stores the column `w.2.1` and value `w.2.2` at position
`base w.1 + cur[w.1]` and increments the cursor.  `csr_from_coo` is an
instance with `base = 0` (absolute cursors); `ell_from_coo` is an instance
with `base r = r * rowsize` (per-row counts). -/
def scatStep (base : Nat → Int) (st : List Int × List Int × List ℚ)
    (w : Nat × Int × ℚ) : CM (List Int × List Int × List ℚ) := do
  let (cur, bufc, bufa) := st
  let c ← aget cur (w.1 : Int)
  let bufc ← aset bufc (base w.1 + c) w.2.1
  let bufa ← aset bufa (base w.1 + c) w.2.2
  let cur ← aset cur (w.1 : Int) (c + 1)
  pure (cur, bufc, bufa)

/-- `lsub bufc bufa off seg`: the parallel arrays hold the segment `seg`
starting at offset `off`. -/
def lsub (bufc : List Int) (bufa : List ℚ) (off : Int) (seg : List (Int × ℚ)) : Prop :=
  ∀ t (h : t < seg.length),
    aget bufc (off + (t : Int)) = .ok (seg.get ⟨t, h⟩).1 ∧
    aget bufa (off + (t : Int)) = .ok (seg.get ⟨t, h⟩).2

/-- The writes generated by one entry in the general (bucket-scatter) branch
of `csr_from_coo`: the enumeration index `k` is stored into the permutation
array slot of the entry's row.  (The value component is unused there; the
generic machinery carries a dummy `0`.) -/
def genWrites (ke : Nat × (Int × Int × ℚ)) : List (Nat × Int × ℚ) :=
  [((ke.2.1 - 1).toNat, (ke.1 : Int), 0)]

/-- The writes generated by one entry in the symmetric branches of
`csr_from_coo`: off-diagonal entries are scattered into both their row and
their column's row; diagonal entries contribute one write only when the
diagonal is not separated. -/
def symWrites (separate_diagonal : Bool) (e : Int × Int × ℚ) : List (Nat × Int × ℚ) :=
  if e.1 ≠ e.2.1 then
    [((e.1 - 1).toNat, e.2.1 - 1, e.2.2), ((e.2.1 - 1).toNat, e.1 - 1, e.2.2)]
  else if separate_diagonal = false then [((e.1 - 1).toNat, e.2.1 - 1, e.2.2)]
  else []

/-- The writes generated by one entry in the non-symmetric
diagonal-separating branch of `csr_from_coo` and in the scatter of
`ell_from_coo` with separation: off-diagonal entries only. -/
def sepWrites (e : Int × Int × ℚ) : List (Nat × Int × ℚ) :=
  if e.1 = e.2.1 then [] else [((e.1 - 1).toNat, e.2.1 - 1, e.2.2)]

/-- The writes generated by one entry of `ell_from_coo` without separation
(and of the general CSR branch viewed with columns and values):
every entry is scattered into its row. -/
def allWrites (e : Int × Int × ℚ) : List (Nat × Int × ℚ) :=
  [((e.1 - 1).toNat, e.2.1 - 1, e.2.2)]

/-- The positions bumped by one entry of the counting pass of
`csr_from_coo_size` (raw 1-based rows; per branch of the C code). -/
def symSepBumps (e : Int × Int × ℚ) : List Int :=
  if e.1 ≠ e.2.1 then [e.1, e.2.1] else []

def symNoSepBumps (e : Int × Int × ℚ) : List Int :=
  if e.1 ≠ e.2.1 then [e.1, e.2.1] else [e.1]

def sepBumps (e : Int × Int × ℚ) : List Int :=
  if e.1 ≠ e.2.1 then [e.1] else []

def allBumps (e : Int × Int × ℚ) : List Int := [e.1]

/-- The diagonal-accumulation step shared by the separating branches:
`ad[ri-1] += av`. -/
def diagStep (ad : List ℚ) (e : Int × Int × ℚ) : CM (List ℚ) := do
  let v ← aget ad (e.1 - 1)
  aset ad (e.1 - 1) (v + e.2.2)

/-- The entries of (1-based) row `r`, in input order, as `(0-based column,
value)` pairs. -/
def rowEntries (entries : List (Int × Int × ℚ)) (r : Int) : List (Int × ℚ) :=
  (entries.filter (fun e => e.1 = r)).map (fun e => (e.2.1 - 1, e.2.2))

/-- The number of nonzeros destined for (1-based) row `r` after diagonal
entries are excluded: for a general matrix the off-diagonal entries of row
`r`; for a symmetric matrix additionally the mirrored off-diagonal entries
whose column is `r`. -/
def exclRowCount (symmetry : Mtxsymmetry) (entries : List (Int × Int × ℚ)) (r : Int) : Nat :=
  match symmetry with
  | .general => (entries.filter (fun e => e.1 = r ∧ e.1 ≠ e.2.1)).length
  | .symmetric => (entries.filter (fun e => e.1 ≠ e.2.1 ∧ (e.1 = r ∨ e.2.1 = r))).length

/-- Well-formedness of a COO input: parallel arrays of one common length and
1-based indices within the declared bounds. -/
def COOWF (num_rows num_columns : Nat) (rowidx colidx : List Int) (a : List ℚ) : Prop :=
  rowidx.length = a.length ∧ colidx.length = a.length ∧
  ∀ e ∈ zip3 rowidx colidx a,
    1 ≤ e.1 ∧ e.1 ≤ (num_rows : Int) ∧ 1 ≤ e.2.1 ∧ e.2.1 ≤ (num_columns : Int)

/-- `Σ_{r=0..q}` of the number of occurrences of position `r` in the list of
bumped positions: the value of the in-place prefix sum of the counting pass at
index `q`. -/
def prefCount (bumps : List Int) (q : Nat) : Int :=
  ((List.range (q + 1)).map (fun (r : Nat) => (bumps.count (r : Int) : Int))).sum

/-- The per-row counts (1-based rows `1..n`) of the counting pass. -/
def cntRows (n : Nat) (bumps : List Int) : List Int :=
  (List.range n).map (fun (i : Nat) => (bumps.count ((i : Int) + 1) : Int))

end Ellspmv

namespace Ellspmv

/-! ## Basic lemmas about the embedding -/

@[simp] theorem cm_bind_ok {α β : Type} (a : α) (f : α → CM β) :
    (Except.ok a >>= f : CM β) = f a := rfl

@[simp] theorem cm_bind_error {α β : Type} (e : CErr) (f : α → CM β) :
    (Except.error e >>= f : CM β) = Except.error e := rfl

@[simp] theorem cm_pure_eq {α : Type} (a : α) : (pure a : CM α) = Except.ok a := rfl

@[simp] theorem efold_nil {σ α : Type} (f : σ → α → CM σ) (s : σ) :
    efold f s [] = .ok s := rfl

theorem efold_cons_ok {σ α : Type} {f : σ → α → CM σ} {s s2 : σ} {x : α} (xs : List α)
    (h : f s x = .ok s2) : efold f s (x :: xs) = efold f s2 xs := by
  simp [efold, h]

theorem efold_cons_error {σ α : Type} {f : σ → α → CM σ} {s : σ} {x : α} {e : CErr}
    (xs : List α) (h : f s x = .error e) : efold f s (x :: xs) = .error e := by
  simp [efold, h]

theorem efold_append {σ α : Type} (f : σ → α → CM σ) (s : σ) (xs ys : List α) :
    efold f s (xs ++ ys) =
      match efold f s xs with
      | .ok s2 => efold f s2 ys
      | .error e => .error e := by
  induction xs generalizing s with
  | nil => simp [efold]
  | cons x xs ih =>
    simp only [List.cons_append, efold]
    cases f s x with
    | ok s2 => exact ih s2
    | error e => rfl

theorem aget_eq_ok {α : Type} {xs : List α} {i : Int} (h0 : 0 ≤ i)
    (h1 : i.toNat < xs.length) : aget xs i = .ok (xs.get ⟨i.toNat, h1⟩) := by
  simp [aget, h0, h1]

theorem aget_ok_elim {α : Type} {xs : List α} {i : Int} {v : α}
    (h : aget xs i = .ok v) :
    0 ≤ i ∧ ∃ h1 : i.toNat < xs.length, v = xs.get ⟨i.toNat, h1⟩ := by
  by_cases hb : 0 ≤ i ∧ i.toNat < xs.length
  · refine ⟨hb.1, hb.2, ?_⟩
    rw [aget_eq_ok hb.1 hb.2] at h
    exact (Except.ok.injEq _ _).mp h |>.symm
  · simp [aget, hb] at h

theorem aset_eq_ok {α : Type} {xs : List α} {i : Int} (v : α) (h0 : 0 ≤ i)
    (h1 : i.toNat < xs.length) : aset xs i v = .ok (xs.set i.toNat v) := by
  simp [aset, h0, h1]

theorem aset_ok_elim {α : Type} {xs ys : List α} {i : Int} {v : α}
    (h : aset xs i v = .ok ys) :
    0 ≤ i ∧ i.toNat < xs.length ∧ ys = xs.set i.toNat v := by
  by_cases hb : 0 ≤ i ∧ i.toNat < xs.length
  · refine ⟨hb.1, hb.2, ?_⟩
    rw [aset_eq_ok v hb.1 hb.2] at h
    exact ((Except.ok.injEq _ _).mp h).symm
  · simp [aset, hb] at h

theorem length_aset {α : Type} {xs ys : List α} {i : Int} {v : α}
    (h : aset xs i v = .ok ys) : ys.length = xs.length := by
  obtain ⟨_, _, rfl⟩ := aset_ok_elim h
  simp

theorem aget_aset {α : Type} {xs ys : List α} {i : Int} {v : α}
    (h : aset xs i v = .ok ys) (j : Int) :
    aget ys j = if j = i then .ok v else aget xs j := by
  obtain ⟨h0, h1, rfl⟩ := aset_ok_elim h
  by_cases hji : j = i
  · subst hji
    rw [if_pos rfl, aget_eq_ok h0 (by simpa using h1)]
    simp [List.get_eq_getElem, List.getElem_set]
  · rw [if_neg hji]
    by_cases hb : 0 ≤ j ∧ j.toNat < xs.length
    · rw [aget_eq_ok hb.1 (by simpa using hb.2), aget_eq_ok hb.1 hb.2]
      have hne : ¬ i.toNat = j.toNat := by omega
      simp [List.get_eq_getElem, List.getElem_set, hne]
    · have hb' : ¬(0 ≤ j ∧ j.toNat < (xs.set i.toNat v).length) := by simpa using hb
      simp [aget, hb, hb']

theorem aget_replicate {α : Type} (c : α) (n : Nat) {j : Int} (h0 : 0 ≤ j)
    (h1 : j.toNat < n) : aget (List.replicate n c) j = .ok c := by
  rw [aget_eq_ok h0 (by simpa using h1)]
  simp [List.get_eq_getElem]

theorem aget_fault {α : Type} (xs : List α) {j : Int}
    (h : ¬(0 ≤ j ∧ j.toNat < xs.length)) : aget xs j = .error .fault := by
  simp [aget, h]

theorem list_ext_aget {α : Type} {xs ys : List α} (hlen : xs.length = ys.length)
    (h : ∀ j : Int, aget xs j = aget ys j) : xs = ys := by
  apply List.ext_get hlen
  intro n h1 h2
  have := h (n : Int)
  rw [aget_eq_ok (by positivity) (by simpa using h1),
      aget_eq_ok (by positivity) (by simpa using h2)] at this
  simpa using this

theorem mem_intRange {s e j : Int} : j ∈ intRange s e ↔ s ≤ j ∧ j < e := by
  simp only [intRange, List.mem_map, List.mem_range]
  constructor
  · rintro ⟨t, ht, rfl⟩
    omega
  · rintro ⟨h1, h2⟩
    exact ⟨(j - s).toNat, by omega, by omega⟩

theorem intRange_eq_nil {s e : Int} (h : e ≤ s) : intRange s e = [] := by
  unfold intRange
  have h1 : (e - s).toNat = 0 := by omega
  rw [h1]
  rfl

theorem intRange_eq_cons {s e : Int} (h : s < e) :
    intRange s e = s :: intRange (s + 1) e := by
  unfold intRange
  have h1 : (e - s).toNat = (e - (s + 1)).toNat + 1 := by omega
  rw [h1, List.range_succ_eq_map, List.map_cons, List.map_map]
  refine congrArg₂ _ (by simp) ?_
  apply List.map_congr_left
  intro t _
  simp only [Function.comp_apply]
  push_cast
  ring

end Ellspmv

namespace Ellspmv

/-! ## Claim C1: the end-to-end example -/

/-- C1: On the 3×3 general COO matrix with 1-based entries
`(1,1,2.0), (1,2,3.0), (2,2,4.0), (3,1,5.0), (3,3,6.0)`, without diagonal
separation, the CSR conversion (`csr_from_coo_size` followed by
`csr_from_coo`) produces `row_ptr = [0,2,3,5]`, `col_index = [0,1,1,0,2]`,
`value = [2,3,4,5,6]`, and a single `csrgemv` invocation with `x = [1,1,1]`
starting from `y = [0,0,0]` yields `y = [5,4,11]`. -/
theorem C1_end_to_end_example :
    csrPipeline Mtxsymmetry.general 3 3 [1,1,2,3,3] [1,2,2,1,3] [2,3,4,5,6] false false =
      .ok ({ rowptr := [0,2,3,5], csrsize := 5, rowsizemin := 1, rowsizemax := 2, diagsize := 0 },
           { rowptr := [0,2,3,5], colidx := [0,1,1,0,2], a := [2,3,4,5,6], ad := [] }) ∧
    (do
      let (sz, csr) ← csrPipeline Mtxsymmetry.general 3 3 [1,1,2,3,3] [1,2,2,1,3] [2,3,4,5,6] false false
      csrgemv 3 [0,0,0] 3 [1,1,1] sz.csrsize sz.rowsizemin sz.rowsizemax csr.rowptr csr.colidx csr.a
      : CM (List ℚ)) = .ok [5, 4, 11] := by
  with_unfolding_all decide

/-! ## Claim C4: the swapped flag arguments at the `ell_from_coo` call site -/

/-- C4: the `ellspmv` driver passes `args.sort_rows, args.separate_diagonal`
into `ell_from_coo`'s `..., separate_diagonal, sort_rows` parameters
(`src/ellspmv.c:1460-1463`), so with diagonal separation enabled and row
sorting disabled the fill pass runs with separation *disabled*.  On the 1×1
matrix with the single diagonal entry `(1,1,2.0)` the size pass (which does
use `args.separate_diagonal`) computes an ELL body of width 0, and the fill
pass then writes the diagonal entry into that zero-sized body: an
out-of-bounds access, instead of accumulating it into `ellad`.  Calling
`ell_from_coo` with the flags in the positions of its signature — what the
claim describes — instead yields the empty body and `ellad = [2]`. -/
theorem C4_swapped_flags_at_call_site :
    ellDriverConvert 1 1 [1] [1] [2] true false = .error .fault ∧
    (do
      let sz ← ell_from_coo_size 1 1 [1] [1] [2] true
      ell_from_coo 1 1 [1] [1] [2] sz.rowptr sz.ellsize sz.rowsize
        (List.replicate sz.ellsize.toNat 0) (List.replicate sz.ellsize.toNat 0)
        (List.replicate sz.diagsize.toNat 0) true false : CM Ell)
      = .ok { rowptr := [0, 0], colidx := [], a := [], ad := [2] } := by
  with_unfolding_all decide

/-! ## Claim C6: repeat accumulation, kernel by kernel -/

/-- C6 counterexample: the claim asserts that running the same kernel twice
without zeroing `y` doubles the result for *every* kernel variant the drivers
can select.  The nonzero-partitioned kernel `csrgemvnz` (selected with
`--partition=nonzeros`) zeroes `y[startrow..endrow)` at the start of each
invocation, so on the 3×3 example (one thread) the second run yields
`[5, 4, 22]`, not the doubled `[10, 8, 22]`. -/
theorem C6_counterexample_csrgemvnz :
    (do
      let (sz, csr) ← csrPipeline Mtxsymmetry.general 3 3 [1,1,2,3,3] [1,2,2,1,3] [2,3,4,5,6] false false
      let y ← csrgemvnz 1 3 [0,0,0] 3 [1,1,1] sz.csrsize sz.rowsizemin sz.rowsizemax
        csr.rowptr csr.colidx csr.a sz.diagsize (some csr.ad) none none
      csrgemvnz 1 3 y 3 [1,1,1] sz.csrsize sz.rowsizemin sz.rowsizemax
        csr.rowptr csr.colidx csr.a sz.diagsize (some csr.ad) none none
      : CM (List ℚ)) = .ok [5, 4, 22] ∧
    ([5, 4, 22] : List ℚ) ≠ [10, 8, 22] := by
  with_unfolding_all decide

/-- C6 (amended): two invocations on the same `y` without zeroing compound
additively and yield exactly the doubled result `[10, 8, 22]` on the 3×3
example for the plain, separated-diagonal and row-partitioned CSR kernels and
for the plain and separated-diagonal ELLPACK kernels; the nonzero-partitioned
kernel `csrgemvnz` is the exception (it zeroes its interior rows first and
yields `[5, 4, 22]`, see the counterexample). -/
theorem C6_repeat_accumulation_amended :
    ((do
      let (sz, csr) ← csrPipeline Mtxsymmetry.general 3 3 [1,1,2,3,3] [1,2,2,1,3] [2,3,4,5,6] false false
      let y ← csrgemv 3 [0,0,0] 3 [1,1,1] sz.csrsize sz.rowsizemin sz.rowsizemax csr.rowptr csr.colidx csr.a
      csrgemv 3 y 3 [1,1,1] sz.csrsize sz.rowsizemin sz.rowsizemax csr.rowptr csr.colidx csr.a
      : CM (List ℚ)) = .ok [10, 8, 22]) ∧
    ((do
      let (sz, csr) ← csrPipeline Mtxsymmetry.general 3 3 [1,1,2,3,3] [1,2,2,1,3] [2,3,4,5,6] true false
      let y ← csrgemvsd 3 [0,0,0] 3 [1,1,1] sz.csrsize sz.rowsizemin sz.rowsizemax csr.rowptr csr.colidx csr.a csr.ad
      csrgemvsd 3 y 3 [1,1,1] sz.csrsize sz.rowsizemin sz.rowsizemax csr.rowptr csr.colidx csr.a csr.ad
      : CM (List ℚ)) = .ok [10, 8, 22]) ∧
    ((do
      let (sz, csr) ← csrPipeline Mtxsymmetry.general 3 3 [1,1,2,3,3] [1,2,2,1,3] [2,3,4,5,6] false false
      let y ← csrgemvrp 1 3 [0,0,0] 3 [1,1,1] sz.csrsize sz.rowsizemin sz.rowsizemax
        csr.rowptr csr.colidx csr.a sz.diagsize (some csr.ad) [0] [3]
      csrgemvrp 1 3 y 3 [1,1,1] sz.csrsize sz.rowsizemin sz.rowsizemax
        csr.rowptr csr.colidx csr.a sz.diagsize (some csr.ad) [0] [3]
      : CM (List ℚ)) = .ok [10, 8, 22]) ∧
    ((do
      let (sz, csr) ← csrPipeline Mtxsymmetry.general 3 3 [1,1,2,3,3] [1,2,2,1,3] [2,3,4,5,6] true false
      let y ← csrgemvrp 1 3 [0,0,0] 3 [1,1,1] sz.csrsize sz.rowsizemin sz.rowsizemax
        csr.rowptr csr.colidx csr.a sz.diagsize (some csr.ad) [0] [3]
      csrgemvrp 1 3 y 3 [1,1,1] sz.csrsize sz.rowsizemin sz.rowsizemax
        csr.rowptr csr.colidx csr.a sz.diagsize (some csr.ad) [0] [3]
      : CM (List ℚ)) = .ok [10, 8, 22]) ∧
    ((do
      let (sz, ell) ← ellPipeline 3 3 [1,1,2,3,3] [1,2,2,1,3] [2,3,4,5,6] false false
      let y ← ellgemv 3 [0,0,0] 3 [1,1,1] sz.ellsize sz.rowsize ell.colidx ell.a
      ellgemv 3 y 3 [1,1,1] sz.ellsize sz.rowsize ell.colidx ell.a
      : CM (List ℚ)) = .ok [10, 8, 22]) ∧
    ((do
      let (sz, ell) ← ellPipeline 3 3 [1,1,2,3,3] [1,2,2,1,3] [2,3,4,5,6] true false
      let y ← ellgemvsd 3 [0,0,0] 3 [1,1,1] sz.ellsize sz.rowsize ell.colidx ell.a ell.ad
      ellgemvsd 3 y 3 [1,1,1] sz.ellsize sz.rowsize ell.colidx ell.a ell.ad
      : CM (List ℚ)) = .ok [10, 8, 22]) ∧
    ((do
      let (sz, csr) ← csrPipeline Mtxsymmetry.general 3 3 [1,1,2,3,3] [1,2,2,1,3] [2,3,4,5,6] false false
      let y ← csrgemvnz 1 3 [0,0,0] 3 [1,1,1] sz.csrsize sz.rowsizemin sz.rowsizemax
        csr.rowptr csr.colidx csr.a sz.diagsize (some csr.ad) none none
      csrgemvnz 1 3 y 3 [1,1,1] sz.csrsize sz.rowsizemin sz.rowsizemax
        csr.rowptr csr.colidx csr.a sz.diagsize (some csr.ad) none none
      : CM (List ℚ)) = .ok [5, 4, 22]) := by
  with_unfolding_all decide

/-! ## Claims C7, C9, C10: counterexamples -/

/-- C7 counterexample: on the 1×1 general matrix with the single entry
`(1, 2, 1.0)` — whose column index `2` is outside the declared bounds —
`csr_from_coo` does not return an error code: the conversion succeeds and
silently stores the out-of-bounds column index `1 ≥ num_columns = 1` in the
CSR structure. -/
theorem C7_counterexample_column_unchecked :
    csrPipeline Mtxsymmetry.general 1 1 [1] [2] [1] false false =
      .ok ({ rowptr := [0, 1], csrsize := 1, rowsizemin := 1, rowsizemax := 1, diagsize := 0 },
           { rowptr := [0, 1], colidx := [1], a := [1], ad := [] }) ∧
    ¬ ((1 : Int) < (1 : Int)) := by
  with_unfolding_all decide

/-- C9 counterexample: on the 1×1 matrix whose only entry is the diagonal
entry `(1,1,1.0)`, converted with `separate_diagonal = true`, the number of
nonzeros destined for row 1 after diagonal exclusion is `0`, yet
`csr_from_coo_size` returns `rowsizemin = rowsizemax = 1` (the code increments
both by one in the separated case). -/
theorem C9_counterexample_plus_one :
    csr_from_coo_size Mtxsymmetry.general 1 1 [1] [1] [1] true =
      .ok { rowptr := [0, 0], csrsize := 0, rowsizemin := 1, rowsizemax := 1, diagsize := 1 } ∧
    exclRowCount Mtxsymmetry.general (zip3 [1] [1] [1]) 1 = 0 ∧
    (1 : Int) ≠ 0 := by
  with_unfolding_all decide

/-- C10 counterexample: under `--partition=nonzeros` (one thread) the `y`
initialization of `csrspmv`'s `main` zeroes only the rows `[startrow, endrow)`
of the thread's nonzero range; on the 3×3 example `endrow = 2`, so starting
from an uninitialized buffer holding `[7,7,7]` the "initialized" `y` is
`[0, 0, 7]`, not all zeros. -/
theorem C10_counterexample_nonzeros_partition :
    (do
      let (sz, csr) ← csrPipeline Mtxsymmetry.general 3 3 [1,1,2,3,3] [1,2,2,1,3] [2,3,4,5,6] false false
      csrYInit Partition.nonzeros none 3 1 sz.csrsize csr.rowptr none none [] [] [7, 7, 7]
      : CM (List ℚ)) = .ok [0, 0, 7] ∧
    ([0, 0, 7] : List ℚ) ≠ [0, 0, 0] := by
  with_unfolding_all decide

end Ellspmv

namespace Ellspmv

/-! ## Counting-pass machinery -/

theorem aget_eq_getD {α : Type} {xs : List α} {i : Int} (d : α) (h0 : 0 ≤ i)
    (h1 : i.toNat < xs.length) : aget xs i = .ok (xs.getD i.toNat d) := by
  rw [aget_eq_ok h0 h1]
  simp [List.getD_eq_getElem, List.get_eq_getElem, h1]

theorem aget_map_range {α : Type} (f : Nat → α) (n : Nat) {q : Int} (h0 : 0 ≤ q)
    (hq : q.toNat < n) : aget ((List.range n).map f) q = .ok (f q.toNat) := by
  rw [aget_eq_ok h0 (by simpa using hq)]
  simp [List.get_eq_getElem]

theorem bump_spec {xs : List Int} {p : Int} (h0 : 0 ≤ p) (h1 : p.toNat < xs.length) :
    ∃ ys, bump xs p = .ok ys ∧ ys.length = xs.length ∧
      ∀ q : Int, aget ys q = if q = p then (aget xs q).map (· + 1) else aget xs q := by
  have hg := aget_eq_ok h0 h1
  have hs := aset_eq_ok (xs.get ⟨p.toNat, h1⟩ + 1) h0 h1
  refine ⟨xs.set p.toNat (xs.get ⟨p.toNat, h1⟩ + 1), ?_, by simp, ?_⟩
  · simp only [bump, hg, cm_bind_ok]
    exact hs
  · intro q
    have := aget_aset hs q
    rw [this]
    by_cases hqp : q = p
    · subst hqp
      rw [if_pos rfl, if_pos rfl, hg]
      rfl
    · rw [if_neg hqp, if_neg hqp]

theorem bumpfold_spec : ∀ (ps : List Int) (xs : List Int),
    (∀ p ∈ ps, 0 ≤ p ∧ p.toNat < xs.length) →
    ∃ ys, efold bump xs ps = .ok ys ∧ ys.length = xs.length ∧
      ∀ q : Int, aget ys q = (aget xs q).map (· + (ps.count q : Int)) := by
  intro ps
  induction ps with
  | nil =>
    intro xs _
    refine ⟨xs, rfl, rfl, ?_⟩
    intro q
    cases h : aget xs q <;> simp [Except.map]
  | cons p tl ih =>
    intro xs hps
    obtain ⟨hp0, hp1⟩ := hps p (List.mem_cons_self p tl)
    obtain ⟨ys, hys, hlen, hpt⟩ := bump_spec hp0 hp1
    obtain ⟨zs, hzs, hzlen, hzpt⟩ := ih ys (fun q hq => by
      obtain ⟨h0, h1⟩ := hps q (List.mem_cons_of_mem p hq)
      exact ⟨h0, hlen ▸ h1⟩)
    refine ⟨zs, ?_, hzlen.trans hlen, ?_⟩
    · rw [efold_cons_ok tl hys, hzs]
    · intro q
      rw [hzpt q, hpt q]
      by_cases hqp : q = p
      · subst hqp
        rw [if_pos rfl]
        have hc : ((q :: tl).count q : Int) = (tl.count q : Int) + 1 := by
          rw [List.count_cons_self]
          push_cast
          ring
        rw [hc]
        cases aget xs q with
        | ok v =>
          simp only [Except.map]
          congr 1
          ring
        | error e => rfl
      · rw [if_neg hqp]
        have hc : ((p :: tl).count q : Int) = (tl.count q : Int) := by
          rw [List.count_cons]
          simp [Ne.symm hqp]
        rw [hc]

end Ellspmv

namespace Ellspmv

theorem efold_entrywise {σ E β : Type} {f : σ → E → CM σ} {g : σ → β → CM σ} {w : E → List β}
    (hf : ∀ s e, f s e = efold g s (w e)) :
    ∀ (es : List E) (s : σ), efold f s es = efold g s ((es.map w).flatten) := by
  intro es
  induction es with
  | nil => intro s; rfl
  | cons e es ih =>
    intro s
    rw [List.map_cons, List.flatten_cons, efold_append]
    show (match f s e with
      | .ok s2 => efold f s2 es
      | .error e => .error e) = _
    rw [hf s e]
    cases efold g s (w e) with
    | ok s2 => exact ih s2
    | error e => rfl

@[simp] theorem psumFrom_nil (acc : Int) : psumFrom acc [] = [] := rfl

@[simp] theorem psumFrom_cons (acc c : Int) (cs : List Int) :
    psumFrom acc (c :: cs) = (acc + c) :: psumFrom (acc + c) cs := rfl

@[simp] theorem psumFrom_length (acc : Int) (cs : List Int) :
    (psumFrom acc cs).length = cs.length := by
  induction cs generalizing acc with
  | nil => rfl
  | cons c cs ih => simp [ih]

theorem psumFrom_getD : ∀ (cs : List Int) (acc : Int) (t : Nat), t < cs.length →
    (psumFrom acc cs).getD t 0 = acc + ((cs.take (t + 1)).sum) := by
  intro cs
  induction cs with
  | nil => intro acc t h; simp at h
  | cons c cs ih =>
    intro acc t h
    cases t with
    | zero => simp
    | succ t =>
      have ht : t < cs.length := by simpa using h
      simp only [psumFrom_cons, List.getD_cons_succ, List.take_succ_cons, List.sum_cons]
      rw [ih (acc + c) t ht]
      ring

theorem drop_set_gt {α : Type} (xs : List α) (n m : Nat) (w : α) (h : n < m) :
    (xs.set n w).drop m = xs.drop m := by
  apply List.ext_getElem (by simp)
  intro j h1 h2
  rw [List.getElem_drop, List.getElem_drop]
  rw [List.getElem_set_ne (by omega)]

theorem take_set_ge {α : Type} (xs : List α) (n m : Nat) (w : α) (h : m ≤ n) :
    (xs.set n w).take m = xs.take m := by
  apply List.ext_getElem (by simp)
  intro j h1 h2
  simp only [List.length_take, List.length_set, lt_min_iff] at h1
  rw [List.getElem_take, List.getElem_take]
  rw [List.getElem_set_ne (by omega)]

/-- Characterization of the in-place prefix-sum/min/max loop
`for (i = 1; i <= num_rows; i++) { ...min/max...; rowptr[i] += rowptr[i-1]; }`
shared by `csr_from_coo_size` and `ell_from_coo_size` (the latter ignores the
minimum).  Stated for the suffix of the loop starting at index `s`. -/
theorem scanfold_spec {f : Int × Int × List Int → Nat → CM (Int × Int × List Int)}
    (hf : ∀ m M rp (i : Nat), f (m, M, rp) i = do
      let v ← aget rp (i : Int)
      let vprev ← aget rp ((i : Int) - 1)
      let rp2 ← aset rp (i : Int) (v + vprev)
      pure (if m ≤ v then m else v, if M ≥ v then M else v, rp2)) :
    ∀ (cnt s : Nat) (xs : List Int) (m M : Int), 1 ≤ s → s + cnt = xs.length →
    efold f (m, M, xs) (List.range' s cnt) =
      .ok ((xs.drop s).foldl (fun acc v => if acc ≤ v then acc else v) m,
           (xs.drop s).foldl (fun acc v => if acc ≥ v then acc else v) M,
           xs.take s ++ psumFrom (xs.getD (s - 1) 0) (xs.drop s)) := by
  intro cnt
  induction cnt with
  | zero =>
    intro s xs m M hs hlen
    have : xs.drop s = [] := by
      apply List.drop_eq_nil_of_le
      omega
    rw [this]
    simp only [List.range', efold_nil, psumFrom_nil, List.foldl_nil, List.append_nil]
    rw [List.take_of_length_le (by omega)]
  | succ cnt ih =>
    intro s xs m M hs hlen
    have hslt : s < xs.length := by omega
    have hs1 : (s : Int).toNat = s := by omega
    have hsp : ((s : Int) - 1).toNat = s - 1 := by omega
    have hsp_lt : s - 1 < xs.length := by omega
    have hget_s : aget xs (s : Int) = .ok (xs.getD s 0) := by
      rw [aget_eq_getD 0 (by positivity) (by rw [hs1]; exact hslt), hs1]
    have hget_sp : aget xs ((s : Int) - 1) = .ok (xs.getD (s - 1) 0) := by
      rw [aget_eq_getD 0 (by omega) (by rw [hsp]; exact hsp_lt), hsp]
    have hset : aset xs (s : Int) (xs.getD s 0 + xs.getD (s - 1) 0) =
        .ok (xs.set s (xs.getD s 0 + xs.getD (s - 1) 0)) := by
      rw [aset_eq_ok _ (by positivity) (by rw [hs1]; exact hslt), hs1]
    set v := xs.getD s 0 with hv
    set vprev := xs.getD (s - 1) 0 with hvprev
    set xs' := xs.set s (v + vprev) with hxs'
    have hstep : f (m, M, xs) s = .ok (if m ≤ v then m else v, if M ≥ v then M else v, xs') := by
      rw [hf]
      rw [hget_s, cm_bind_ok, hget_sp, cm_bind_ok, hset, cm_bind_ok, cm_pure_eq]
    rw [List.range'_succ, efold_cons_ok _ hstep]
    rw [ih (s + 1) xs' _ _ (by omega) (by simp [hxs']; omega)]
    have hdrop' : xs'.drop (s + 1) = xs.drop (s + 1) := drop_set_gt xs s (s + 1) _ (by omega)
    have hdrop : xs.drop s = v :: xs.drop (s + 1) := by
      rw [List.drop_eq_getElem_cons hslt]
      congr 1
      rw [hv, List.getD_eq_getElem _ _ hslt]
    have htake' : xs'.take (s + 1) = xs.take s ++ [v + vprev] := by
      rw [hxs', List.take_succ]
      rw [take_set_ge xs s s _ (le_refl s)]
      congr 1
      have hlt' : s < xs'.length := by simp [hxs']; exact hslt
      rw [List.getElem?_eq_getElem (by simpa [hxs'] using hslt)]
      simp [hxs', List.getElem_set]
    have hgetD' : xs'.getD ((s + 1) - 1) 0 = v + vprev := by
      simp only [Nat.add_sub_cancel]
      rw [hxs', List.getD_eq_getElem _ _ (by simpa using hslt)]
      simp [List.getElem_set]
    rw [hdrop, hdrop', htake', hgetD']
    simp only [List.foldl_cons, psumFrom_cons, List.append_assoc, List.singleton_append]
    rw [add_comm vprev v]

end Ellspmv

namespace Ellspmv

theorem countfold_eq_map_range {f : List Int → (Int × Int × ℚ) → CM (List Int)}
    {w : (Int × Int × ℚ) → List Int}
    (hf : ∀ rp e, f rp e = efold bump rp (w e)) (es : List (Int × Int × ℚ)) (n : Nat)
    (hb : ∀ p ∈ (es.map w).flatten, 0 ≤ p ∧ p.toNat < n + 1) :
    efold f (List.replicate (n + 1) 0) es =
      .ok ((List.range (n + 1)).map
        (fun (q : Nat) => (((es.map w).flatten).count (q : Int) : Int))) := by
  rw [efold_entrywise hf]
  obtain ⟨ys, hys, hlen, hpt⟩ := bumpfold_spec ((es.map w).flatten)
      (List.replicate (n + 1) 0) (by simpa using hb)
  rw [hys]
  congr 1
  apply list_ext_aget
  · simp [hlen]
  · intro j
    rw [hpt j]
    by_cases hj : 0 ≤ j ∧ j.toNat < n + 1
    · rw [aget_replicate 0 (n + 1) hj.1 hj.2, aget_map_range _ (n + 1) hj.1 hj.2]
      simp only [Except.map]
      congr 1
      rw [Int.toNat_of_nonneg hj.1]
      ring
    · rw [aget_fault _ (by simpa using hj), aget_fault _ (by simpa using hj)]
      rfl

theorem prefCount_succ (bumps : List Int) (q : Nat) :
    prefCount bumps (q + 1) = prefCount bumps q + (bumps.count ((q : Int) + 1) : Int) := by
  unfold prefCount
  rw [List.range_succ, List.map_append, List.sum_append]
  simp

theorem prefCount_zero (bumps : List Int) :
    prefCount bumps 0 = (bumps.count (0 : Int) : Int) := by
  unfold prefCount
  norm_num [List.range_succ]

theorem prefCount_mono (bumps : List Int) (q : Nat) :
    prefCount bumps q ≤ prefCount bumps (q + 1) := by
  rw [prefCount_succ]
  exact le_add_of_nonneg_right (by positivity)

theorem prefCount_nonneg (bumps : List Int) (q : Nat) : 0 ≤ prefCount bumps q := by
  unfold prefCount
  apply List.sum_nonneg
  intro x hx
  obtain ⟨r, _, rfl⟩ := List.mem_map.mp hx
  positivity

theorem prefCount_le_of_le (bumps : List Int) {q q' : Nat} (h : q ≤ q') :
    prefCount bumps q ≤ prefCount bumps q' := by
  induction q' with
  | zero => simp_all
  | succ q' ih =>
    rcases Nat.lt_or_ge q (q' + 1) with hlt | hge
    · exact le_trans (ih (by omega)) (prefCount_mono bumps q')
    · have : q = q' + 1 := by omega
      subst this
      rfl

theorem foldl_ifmin_le (l : List Int) : ∀ (m : Int),
    (List.foldl (fun acc v => if acc ≤ v then acc else v) m l ≤ m) ∧
    (∀ c ∈ l, List.foldl (fun acc v => if acc ≤ v then acc else v) m l ≤ c) := by
  induction l with
  | nil => intro m; simp
  | cons c l ih =>
    intro m
    simp only [List.foldl_cons]
    constructor
    · refine le_trans (ih _).1 ?_
      split <;> omega
    · intro d hd
      rcases List.mem_cons.mp hd with rfl | hd'
      · refine le_trans (ih _).1 ?_
        split <;> omega
      · exact (ih _).2 d hd'

theorem foldl_ifmin_mem (l : List Int) : ∀ (m : Int),
    List.foldl (fun acc v => if acc ≤ v then acc else v) m l = m ∨
    List.foldl (fun acc v => if acc ≤ v then acc else v) m l ∈ l := by
  induction l with
  | nil => intro m; left; rfl
  | cons c l ih =>
    intro m
    simp only [List.foldl_cons]
    by_cases h : m ≤ c
    · rw [if_pos h]
      rcases ih m with h1 | h1
      · left; exact h1
      · right; exact List.mem_cons_of_mem c h1
    · rw [if_neg h]
      rcases ih c with h1 | h1
      · right; rw [h1]; exact List.mem_cons_self c l
      · right; exact List.mem_cons_of_mem c h1

theorem foldl_ifmax_ge (l : List Int) : ∀ (M : Int),
    (M ≤ List.foldl (fun acc v => if acc ≥ v then acc else v) M l) ∧
    (∀ c ∈ l, c ≤ List.foldl (fun acc v => if acc ≥ v then acc else v) M l) := by
  induction l with
  | nil => intro M; simp
  | cons c l ih =>
    intro M
    simp only [List.foldl_cons]
    constructor
    · refine le_trans ?_ (ih _).1
      split <;> omega
    · intro d hd
      rcases List.mem_cons.mp hd with rfl | hd'
      · refine le_trans ?_ (ih _).1
        split <;> omega
      · exact (ih _).2 d hd'

theorem foldl_ifmax_mem (l : List Int) : ∀ (M : Int),
    List.foldl (fun acc v => if acc ≥ v then acc else v) M l = M ∨
    List.foldl (fun acc v => if acc ≥ v then acc else v) M l ∈ l := by
  induction l with
  | nil => intro M; left; rfl
  | cons c l ih =>
    intro M
    simp only [List.foldl_cons]
    by_cases h : M ≥ c
    · rw [if_pos h]
      rcases ih M with h1 | h1
      · left; exact h1
      · right; exact List.mem_cons_of_mem c h1
    · rw [if_neg h]
      rcases ih c with h1 | h1
      · right; rw [h1]; exact List.mem_cons_self c l
      · right; exact List.mem_cons_of_mem c h1

end Ellspmv

namespace Ellspmv

theorem prefCount_eq_sum (bumps : List Int) : ∀ (m : Nat),
    prefCount bumps m = (bumps.count (0 : Int) : Int) + (cntRows m bumps).sum := by
  intro m
  induction m with
  | zero =>
    rw [prefCount_zero]
    simp [cntRows]
  | succ m ih =>
    rw [prefCount_succ, ih]
    unfold cntRows
    rw [List.range_succ, List.map_append, List.sum_append]
    simp only [List.map_cons, List.map_nil, List.sum_cons, List.sum_nil]
    ring

theorem cntRows_take (bumps : List Int) {m n : Nat} (h : m ≤ n) :
    (cntRows n bumps).take m = cntRows m bumps := by
  unfold cntRows
  rw [← List.map_take, List.take_range, min_eq_left h]

theorem mapRange_drop_one (n : Nat) (bumps : List Int) :
    (((List.range (n + 1)).map
      (fun (q : Nat) => (bumps.count (q : Int) : Int))).drop 1) = cntRows n bumps := by
  rw [List.range_succ_eq_map, List.map_cons, List.drop_succ_cons, List.drop_zero, List.map_map]
  unfold cntRows
  apply List.map_congr_left
  intro i _
  simp only [Function.comp_apply, Nat.succ_eq_add_one]
  have hc : ((i + 1 : Nat) : Int) = (i : Int) + 1 := by push_cast; ring
  rw [hc]

/-- The part of `csr_from_coo_size` after the counting pass, applied to the
literal count array: the prefix scan, the min/max accumulation, and the
assembly of the result record. -/
theorem size_tail (n nc : Nat) (sep : Bool) (hn : 0 < n) (bumps : List Int)
    (hb : ∀ p ∈ bumps, 1 ≤ p ∧ p ≤ (n : Int)) :
    (do
      let rowptr : List Int :=
        (List.range (n + 1)).map (fun (q : Nat) => (bumps.count (q : Int) : Int))
      let rowmin0 ← if 0 < n then aget rowptr 1 else pure 0
      let st ← efold (fun (st : Int × Int × List Int) (i : Nat) => do
          let (rowmin, rowmax, rp) := st
          let v ← aget rp (i : Int)
          let vprev ← aget rp ((i : Int) - 1)
          let rp ← aset rp (i : Int) (v + vprev)
          pure (if rowmin ≤ v then rowmin else v, if rowmax ≥ v then rowmax else v, rp))
        (rowmin0, 0, rowptr) ((List.range n).map (fun i => i + 1))
      let (rowmin, rowmax, rowptr) := st
      let csrsize ← aget rowptr (n : Int)
      pure {
        rowptr := rowptr
        csrsize := csrsize
        rowsizemin := if n = nc ∧ sep = true then rowmin + 1 else rowmin
        rowsizemax := if n = nc ∧ sep = true then rowmax + 1 else rowmax
        diagsize := if n = nc ∧ sep = true then (n : Int) else 0 } : CM CsrSize) =
    .ok {
      rowptr := 0 :: psumFrom 0 (cntRows n bumps)
      csrsize := prefCount bumps n
      rowsizemin :=
        if n = nc ∧ sep = true then
          (cntRows n bumps).foldl (fun acc v => if acc ≤ v then acc else v)
            ((bumps.count ((0 : Int) + 1) : Int)) + 1
        else (cntRows n bumps).foldl (fun acc v => if acc ≤ v then acc else v)
            ((bumps.count ((0 : Int) + 1) : Int))
      rowsizemax :=
        if n = nc ∧ sep = true then
          (cntRows n bumps).foldl (fun acc v => if acc ≥ v then acc else v) 0 + 1
        else (cntRows n bumps).foldl (fun acc v => if acc ≥ v then acc else v) 0
      diagsize := if n = nc ∧ sep = true then (n : Int) else 0 } := by
  have hcount0 : (bumps.count (0 : Int) : Int) = 0 := by
    have : bumps.count (0 : Int) = 0 := by
      rw [List.count_eq_zero]
      intro hmem
      have := hb 0 hmem
      omega
    rw [this]
    rfl
  set R : List Int :=
    (List.range (n + 1)).map (fun (q : Nat) => (bumps.count (q : Int) : Int)) with hR
  have hRlen : R.length = n + 1 := by simp [hR]
  have hget1 : aget R 1 = .ok (bumps.count ((1 : Nat) : Int) : Int) := by
    rw [hR]
    exact aget_map_range _ (n + 1) (by norm_num) (by omega)
  have hrange : (List.range n).map (fun i => i + 1) = List.range' 1 n := by
    rw [List.range'_eq_map_range]
    apply List.map_congr_left
    intro i _
    omega
  have hdrop : R.drop 1 = cntRows n bumps := mapRange_drop_one n bumps
  have htake : R.take 1 = [(bumps.count ((0 : Nat) : Int) : Int)] := by
    rw [hR, List.range_succ_eq_map, List.map_cons]
    rfl
  have hgetD0 : R.getD 0 0 = (bumps.count ((0 : Nat) : Int) : Int) := by
    rw [hR, List.range_succ_eq_map, List.map_cons]
    rfl
  rw [if_pos hn, hget1]
  simp only [cm_bind_ok]
  rw [hrange]
  rw [scanfold_spec (fun _ _ _ _ => rfl) n 1 R _ _ (le_refl 1) (by omega)]
  simp only [cm_bind_ok]
  rw [hdrop, htake, hgetD0]
  have hseed : ((bumps.count ((0 : Nat) : Int) : Int)) = 0 := by
    simpa using hcount0
  rw [hseed]
  have hP : ([(0 : Int)] ++ psumFrom 0 (cntRows n bumps) : List Int) =
      0 :: psumFrom 0 (cntRows n bumps) := by simp
  have hPlen : (0 :: psumFrom 0 (cntRows n bumps) : List Int).length = n + 1 := by
    simp [cntRows]
  have hgetn : aget ([(0 : Int)] ++ psumFrom 0 (cntRows n bumps)) (n : Int) =
      .ok (prefCount bumps n) := by
    rw [hP]
    have htn : ((n : Int)).toNat = n := by omega
    rw [aget_eq_getD 0 (by positivity) (by rw [htn, hPlen]; omega)]
    congr 1
    rw [htn]
    cases n with
    | zero => omega
    | succ m =>
      rw [List.getD_cons_succ]
      rw [psumFrom_getD _ _ m (by simp [cntRows])]
      rw [prefCount_eq_sum bumps (m + 1), hcount0]
      rw [List.take_of_length_le (by simp [cntRows])]
  rw [hgetn]
  simp only [cm_bind_ok]
  rw [hP]
  have hcast : ((1 : Nat) : Int) = (0 : Int) + 1 := by norm_num
  rw [hcast]
  rfl

end Ellspmv

namespace Ellspmv

theorem efold_single {σ α : Type} (f : σ → α → CM σ) (s : σ) (x : α) :
    efold f s [x] = f s x := by
  cases h : f s x <;> simp [efold, h]

theorem efold_pair {σ α : Type} (f : σ → α → CM σ) (s : σ) (x y : α) :
    efold f s [x, y] = (do
      let s2 ← f s x
      f s2 y) := by
  cases h : f s x
  · simp [efold, h]
  · rw [efold_cons_ok _ h, efold_single]
    simp [h]

theorem flatten_bumps_bound {E : Type} {w : E → List Int} {es : List E}
    {n : Nat} (h : ∀ e ∈ es, ∀ p ∈ w e, 1 ≤ p ∧ p ≤ (n : Int)) :
    ∀ p ∈ (es.map w).flatten, 1 ≤ p ∧ p ≤ (n : Int) := by
  intro p hp
  rw [List.mem_flatten] at hp
  obtain ⟨l, hl, hpl⟩ := hp
  obtain ⟨e, he, rfl⟩ := List.mem_map.mp hl
  exact h e he p hpl

/-- `csr_from_coo_size`, general branch (any input that is not square
symmetric and not square with separation). -/
theorem csr_size_general_spec (symmetry : Mtxsymmetry) (n nc : Nat)
    (rowidx colidx : List Int) (a : List ℚ) (sep : Bool) (hn : 0 < n)
    (hc1 : ¬(n = nc ∧ symmetry = Mtxsymmetry.symmetric ∧ sep = true))
    (hc2 : ¬(n = nc ∧ symmetry = Mtxsymmetry.symmetric ∧ sep = false))
    (hc3 : ¬(n = nc ∧ sep = true))
    (hb : ∀ e ∈ zip3 rowidx colidx a, ∀ p ∈ allBumps e, 1 ≤ p ∧ p ≤ (n : Int)) :
    csr_from_coo_size symmetry n nc rowidx colidx a sep =
      .ok {
        rowptr := 0 :: psumFrom 0
          (cntRows n (((zip3 rowidx colidx a).map allBumps).flatten))
        csrsize := prefCount (((zip3 rowidx colidx a).map allBumps).flatten) n
        rowsizemin :=
          (cntRows n (((zip3 rowidx colidx a).map allBumps).flatten)).foldl
            (fun acc v => if acc ≤ v then acc else v)
            (((((zip3 rowidx colidx a).map allBumps).flatten).count ((0 : Int) + 1) : Int))
        rowsizemax :=
          (cntRows n (((zip3 rowidx colidx a).map allBumps).flatten)).foldl
            (fun acc v => if acc ≥ v then acc else v) 0
        diagsize := 0 } := by
  have hbf := flatten_bumps_bound hb
  have hf : ∀ rp e, (fun (rp : List Int) (e : Int × Int × ℚ) => bump rp e.1) rp e =
      efold bump rp (allBumps e) := by
    intro rp e
    rw [allBumps, efold_single]
  unfold csr_from_coo_size
  rw [if_neg hc1, if_neg hc2, if_neg hc3]
  rw [countfold_eq_map_range hf (zip3 rowidx colidx a) n
    (by intro p hp; have := hbf p hp; omega)]
  simp only [cm_bind_ok]
  have := size_tail n nc sep hn (((zip3 rowidx colidx a).map allBumps).flatten) hbf
  rw [this]
  have hsep : ¬(n = nc ∧ sep = true) := hc3
  rw [if_neg hsep, if_neg hsep, if_neg hsep]

end Ellspmv

namespace Ellspmv

/-- `csr_from_coo_size`, square symmetric branch with diagonal separation. -/
theorem csr_size_symsep_spec (n : Nat) (rowidx colidx : List Int) (a : List ℚ) (hn : 0 < n)
    (hb : ∀ e ∈ zip3 rowidx colidx a, ∀ p ∈ symSepBumps e, 1 ≤ p ∧ p ≤ (n : Int)) :
    csr_from_coo_size Mtxsymmetry.symmetric n n rowidx colidx a true =
      .ok {
        rowptr := 0 :: psumFrom 0
          (cntRows n (((zip3 rowidx colidx a).map symSepBumps).flatten))
        csrsize := prefCount (((zip3 rowidx colidx a).map symSepBumps).flatten) n
        rowsizemin :=
          (cntRows n (((zip3 rowidx colidx a).map symSepBumps).flatten)).foldl
            (fun acc v => if acc ≤ v then acc else v)
            (((((zip3 rowidx colidx a).map symSepBumps).flatten).count ((0 : Int) + 1) : Int)) + 1
        rowsizemax :=
          (cntRows n (((zip3 rowidx colidx a).map symSepBumps).flatten)).foldl
            (fun acc v => if acc ≥ v then acc else v) 0 + 1
        diagsize := (n : Int) } := by
  have hbf := flatten_bumps_bound hb
  have hcond : n = n ∧ Mtxsymmetry.symmetric = Mtxsymmetry.symmetric ∧ true = true :=
    ⟨rfl, rfl, rfl⟩
  have hf : ∀ rp e, (fun (rp : List Int) (e : Int × Int × ℚ) =>
      if e.1 ≠ e.2.1 then do
        let rp ← bump rp e.1
        bump rp e.2.1
      else pure rp) rp e = efold bump rp (symSepBumps e) := by
    intro rp e
    show (if e.1 ≠ e.2.1 then do
        let rp ← bump rp e.1
        bump rp e.2.1
      else pure rp) = efold bump rp (symSepBumps e)
    unfold symSepBumps
    by_cases hne : e.1 ≠ e.2.1
    · rw [if_pos hne, if_pos hne, efold_pair]
    · rw [if_neg hne, if_neg hne, efold_nil, cm_pure_eq]
  unfold csr_from_coo_size
  rw [if_pos hcond]
  rw [countfold_eq_map_range hf (zip3 rowidx colidx a) n
    (by intro p hp; have := hbf p hp; omega)]
  rw [cm_bind_ok]
  have hsep : n = n ∧ (true : Bool) = true := ⟨rfl, rfl⟩
  refine Eq.trans
    (size_tail n n true hn (((zip3 rowidx colidx a).map symSepBumps).flatten) hbf) ?_
  rw [if_pos hsep, if_pos hsep, if_pos hsep]

/-- `csr_from_coo_size`, square symmetric branch without diagonal separation. -/
theorem csr_size_symnosep_spec (n : Nat) (rowidx colidx : List Int) (a : List ℚ) (hn : 0 < n)
    (hb : ∀ e ∈ zip3 rowidx colidx a, ∀ p ∈ symNoSepBumps e, 1 ≤ p ∧ p ≤ (n : Int)) :
    csr_from_coo_size Mtxsymmetry.symmetric n n rowidx colidx a false =
      .ok {
        rowptr := 0 :: psumFrom 0
          (cntRows n (((zip3 rowidx colidx a).map symNoSepBumps).flatten))
        csrsize := prefCount (((zip3 rowidx colidx a).map symNoSepBumps).flatten) n
        rowsizemin :=
          (cntRows n (((zip3 rowidx colidx a).map symNoSepBumps).flatten)).foldl
            (fun acc v => if acc ≤ v then acc else v)
            (((((zip3 rowidx colidx a).map symNoSepBumps).flatten).count ((0 : Int) + 1) : Int))
        rowsizemax :=
          (cntRows n (((zip3 rowidx colidx a).map symNoSepBumps).flatten)).foldl
            (fun acc v => if acc ≥ v then acc else v) 0
        diagsize := 0 } := by
  have hbf := flatten_bumps_bound hb
  have hc1 : ¬(n = n ∧ Mtxsymmetry.symmetric = Mtxsymmetry.symmetric ∧ (false : Bool) = true) := by
    simp
  have hcond : n = n ∧ Mtxsymmetry.symmetric = Mtxsymmetry.symmetric ∧ (false : Bool) = false :=
    ⟨rfl, rfl, rfl⟩
  have hf : ∀ rp e, (fun (rp : List Int) (e : Int × Int × ℚ) =>
      if e.1 ≠ e.2.1 then do
        let rp ← bump rp e.1
        bump rp e.2.1
      else bump rp e.1) rp e = efold bump rp (symNoSepBumps e) := by
    intro rp e
    show (if e.1 ≠ e.2.1 then do
        let rp ← bump rp e.1
        bump rp e.2.1
      else bump rp e.1) = efold bump rp (symNoSepBumps e)
    unfold symNoSepBumps
    by_cases hne : e.1 ≠ e.2.1
    · rw [if_pos hne, if_pos hne, efold_pair]
    · rw [if_neg hne, if_neg hne, efold_single]
  unfold csr_from_coo_size
  rw [if_neg hc1, if_pos hcond]
  rw [countfold_eq_map_range hf (zip3 rowidx colidx a) n
    (by intro p hp; have := hbf p hp; omega)]
  rw [cm_bind_ok]
  have hsep : ¬(n = n ∧ (false : Bool) = true) := by simp
  refine Eq.trans
    (size_tail n n false hn (((zip3 rowidx colidx a).map symNoSepBumps).flatten) hbf) ?_
  rw [if_neg hsep, if_neg hsep, if_neg hsep]

/-- `csr_from_coo_size`, square non-symmetric branch with diagonal
separation. -/
theorem csr_size_sep_spec (n : Nat) (rowidx colidx : List Int) (a : List ℚ) (hn : 0 < n)
    (hb : ∀ e ∈ zip3 rowidx colidx a, ∀ p ∈ sepBumps e, 1 ≤ p ∧ p ≤ (n : Int)) :
    csr_from_coo_size Mtxsymmetry.general n n rowidx colidx a true =
      .ok {
        rowptr := 0 :: psumFrom 0
          (cntRows n (((zip3 rowidx colidx a).map sepBumps).flatten))
        csrsize := prefCount (((zip3 rowidx colidx a).map sepBumps).flatten) n
        rowsizemin :=
          (cntRows n (((zip3 rowidx colidx a).map sepBumps).flatten)).foldl
            (fun acc v => if acc ≤ v then acc else v)
            (((((zip3 rowidx colidx a).map sepBumps).flatten).count ((0 : Int) + 1) : Int)) + 1
        rowsizemax :=
          (cntRows n (((zip3 rowidx colidx a).map sepBumps).flatten)).foldl
            (fun acc v => if acc ≥ v then acc else v) 0 + 1
        diagsize := (n : Int) } := by
  have hbf := flatten_bumps_bound hb
  have hc1 : ¬(n = n ∧ Mtxsymmetry.general = Mtxsymmetry.symmetric ∧ (true : Bool) = true) := by
    simp
  have hc2 : ¬(n = n ∧ Mtxsymmetry.general = Mtxsymmetry.symmetric ∧ (true : Bool) = false) := by
    simp
  have hcond : n = n ∧ (true : Bool) = true := ⟨rfl, rfl⟩
  have hf : ∀ rp e, (fun (rp : List Int) (e : Int × Int × ℚ) =>
      if e.1 ≠ e.2.1 then bump rp e.1 else pure rp) rp e = efold bump rp (sepBumps e) := by
    intro rp e
    show (if e.1 ≠ e.2.1 then bump rp e.1 else pure rp) = efold bump rp (sepBumps e)
    unfold sepBumps
    by_cases hne : e.1 ≠ e.2.1
    · rw [if_pos hne, if_pos hne, efold_single]
    · rw [if_neg hne, if_neg hne, efold_nil, cm_pure_eq]
  unfold csr_from_coo_size
  rw [if_neg hc1, if_neg hc2, if_pos hcond]
  rw [countfold_eq_map_range hf (zip3 rowidx colidx a) n
    (by intro p hp; have := hbf p hp; omega)]
  rw [cm_bind_ok]
  refine Eq.trans
    (size_tail n n true hn (((zip3 rowidx colidx a).map sepBumps).flatten) hbf) ?_
  rw [if_pos hcond, if_pos hcond, if_pos hcond]

end Ellspmv

namespace Ellspmv

theorem sum_indicator (b : Int) : ∀ (m : Nat),
    ((List.range m).map (fun (r : Nat) => if (r : Int) = b then (1 : Int) else 0)).sum =
      if 0 ≤ b ∧ b < (m : Int) then 1 else 0 := by
  intro m
  induction m with
  | zero =>
    simp only [List.range_zero, List.map_nil, List.sum_nil]
    rw [if_neg (by omega)]
  | succ m ih =>
    rw [List.range_succ, List.map_append, List.sum_append, ih]
    simp only [List.map_cons, List.map_nil, List.sum_cons, List.sum_nil, add_zero]
    by_cases hm : (m : Int) = b
    · rw [if_pos hm]
      rw [if_neg (by omega), if_pos (by omega)]
      ring
    · rw [if_neg hm]
      by_cases hb : 0 ≤ b ∧ b < (m : Int)
      · rw [if_pos hb, if_pos (by omega)]
        ring
      · rw [if_neg hb, if_neg (by omega)]
        ring

theorem prefCount_cons (b : Int) (bs : List Int) (q : Nat) :
    prefCount (b :: bs) q = prefCount bs q + (if 0 ≤ b ∧ b < (q : Int) + 1 then 1 else 0) := by
  unfold prefCount
  have hsplit : ∀ (r : Nat), (((b :: bs).count (r : Int) : Int)) =
      (bs.count (r : Int) : Int) + (if (r : Int) = b then 1 else 0) := by
    intro r
    rw [List.count_cons]
    by_cases hrb : (r : Int) = b
    · rw [if_pos hrb]
      simp [hrb]
    · rw [if_neg hrb]
      have hrb' : ¬ b = (r : Int) := fun h => hrb h.symm
      simp [hrb, hrb']
  calc ((List.range (q + 1)).map (fun (r : Nat) => (((b :: bs).count (r : Int) : Int)))).sum
      = ((List.range (q + 1)).map (fun (r : Nat) =>
          (bs.count (r : Int) : Int) + (if (r : Int) = b then 1 else 0))).sum := by
        congr 1
        apply List.map_congr_left
        intro r _
        exact hsplit r
    _ = ((List.range (q + 1)).map (fun (r : Nat) => (bs.count (r : Int) : Int))).sum +
        ((List.range (q + 1)).map (fun (r : Nat) => if (r : Int) = b then (1 : Int) else 0)).sum := by
        rw [← List.sum_map_add]
    _ = _ := by
        rw [sum_indicator b (q + 1)]
        congr 2

theorem prefCount_total : ∀ (bumps : List Int) (n : Nat),
    (∀ p ∈ bumps, 1 ≤ p ∧ p ≤ (n : Int)) → prefCount bumps n = (bumps.length : Int) := by
  intro bumps
  induction bumps with
  | nil =>
    intro n _
    unfold prefCount
    simp
  | cons b bs ih =>
    intro n hb
    rw [prefCount_cons]
    have hbb := hb b (List.mem_cons_self b bs)
    rw [ih n (fun p hp => hb p (List.mem_cons_of_mem b hp))]
    rw [if_pos (by omega)]
    simp only [List.length_cons]
    push_cast
    ring

theorem count_flatten_cons {w : (Int × Int × ℚ) → List Int} (e : Int × Int × ℚ)
    (es : List (Int × Int × ℚ)) (r : Int) :
    (((e :: es).map w).flatten).count r = (w e).count r + ((es.map w).flatten).count r := by
  rw [List.map_cons, List.flatten_cons, List.count_append]

theorem length_flatten_cons {w : (Int × Int × ℚ) → List Int} (e : Int × Int × ℚ)
    (es : List (Int × Int × ℚ)) :
    (((e :: es).map w).flatten).length = (w e).length + ((es.map w).flatten).length := by
  rw [List.map_cons, List.flatten_cons, List.length_append]

theorem count_one (x r : Int) : ([x].count r) = if r = x then 1 else 0 := by
  rw [List.count_cons, List.count_nil]
  simp only [beq_iff_eq, zero_add]
  by_cases h : x = r
  · rw [if_pos h, if_pos h.symm]
  · rw [if_neg h, if_neg (fun hh => h hh.symm)]

theorem count_two (x y r : Int) :
    ([x, y].count r) = (if r = x then 1 else 0) + (if r = y then 1 else 0) := by
  rw [List.count_cons, count_one]
  simp only [beq_iff_eq]
  by_cases h : x = r
  · rw [if_pos h, if_pos h.symm]
    ring
  · rw [if_neg h, if_neg (show ¬ r = x from fun hh => h hh.symm)]
    ring

theorem count_flatten_sepBumps : ∀ (es : List (Int × Int × ℚ)) (r : Int),
    ((es.map sepBumps).flatten).count r =
      (es.filter (fun e => e.1 = r ∧ e.1 ≠ e.2.1)).length := by
  intro es
  induction es with
  | nil => intro r; rfl
  | cons e es ih =>
    intro r
    rw [count_flatten_cons, ih]
    unfold sepBumps
    by_cases hne : e.1 ≠ e.2.1
    · rw [if_pos hne]
      by_cases her : e.1 = r
      · rw [List.filter_cons_of_pos (by simp only [decide_eq_true_eq]; exact ⟨her, hne⟩)]
        rw [count_one, if_pos her.symm]
        simp only [List.length_cons]
        omega
      · rw [List.filter_cons_of_neg (by simp only [decide_eq_true_eq]; exact fun h => her h.1)]
        rw [count_one, if_neg (fun h => her h.symm)]
        omega
    · rw [if_neg hne]
      rw [List.filter_cons_of_neg (by simp only [decide_eq_true_eq]; exact fun h => hne h.2)]
      simp

theorem count_flatten_symSepBumps : ∀ (es : List (Int × Int × ℚ)) (r : Int),
    ((es.map symSepBumps).flatten).count r =
      (es.filter (fun e => e.1 ≠ e.2.1 ∧ (e.1 = r ∨ e.2.1 = r))).length := by
  intro es
  induction es with
  | nil => intro r; rfl
  | cons e es ih =>
    intro r
    rw [count_flatten_cons, ih]
    unfold symSepBumps
    by_cases hne : e.1 ≠ e.2.1
    · rw [if_pos hne, count_two]
      by_cases h1 : e.1 = r
      · have h2 : ¬ r = e.2.1 := by
          intro hc
          exact hne (by rw [h1, ← hc])
        rw [List.filter_cons_of_pos
          (by simp only [decide_eq_true_eq]; exact ⟨hne, Or.inl h1⟩)]
        rw [if_pos h1.symm, if_neg h2]
        simp only [List.length_cons]
        omega
      · by_cases h2 : e.2.1 = r
        · rw [List.filter_cons_of_pos
            (by simp only [decide_eq_true_eq]; exact ⟨hne, Or.inr h2⟩)]
          rw [if_neg (fun h => h1 h.symm), if_pos h2.symm]
          simp only [List.length_cons]
          omega
        · rw [List.filter_cons_of_neg (by
            simp only [decide_eq_true_eq]
            exact fun h => h.2.elim (fun ha => h1 ha) (fun hb => h2 hb))]
          rw [if_neg (fun h => h1 h.symm), if_neg (fun h => h2 h.symm)]
          omega
    · rw [if_neg hne]
      rw [List.filter_cons_of_neg (by simp only [decide_eq_true_eq]; exact fun h => hne h.1)]
      simp

theorem count_flatten_allBumps : ∀ (es : List (Int × Int × ℚ)) (r : Int),
    ((es.map allBumps).flatten).count r = (es.filter (fun e => e.1 = r)).length := by
  intro es
  induction es with
  | nil => intro r; rfl
  | cons e es ih =>
    intro r
    rw [count_flatten_cons, ih]
    unfold allBumps
    rw [count_one]
    by_cases her : e.1 = r
    · rw [List.filter_cons_of_pos (by simp only [decide_eq_true_eq]; exact her),
        if_pos her.symm]
      simp only [List.length_cons]
      omega
    · rw [List.filter_cons_of_neg (by simp only [decide_eq_true_eq]; exact her),
        if_neg (fun h => her h.symm)]
      omega

theorem length_flatten_symSepBumps : ∀ (es : List (Int × Int × ℚ)),
    (((es.map symSepBumps).flatten).length : Int) =
      2 * ((es.filter (fun e => e.1 ≠ e.2.1)).length : Int) := by
  intro es
  induction es with
  | nil => rfl
  | cons e es ih =>
    rw [length_flatten_cons]
    by_cases hne : e.1 ≠ e.2.1
    · have hlen : (symSepBumps e).length = 2 := by
        unfold symSepBumps
        rw [if_pos hne]
        rfl
      rw [hlen, List.filter_cons_of_pos (by simp only [decide_eq_true_eq]; exact hne)]
      simp only [List.length_cons]
      push_cast
      omega
    · have hlen : (symSepBumps e).length = 0 := by
        unfold symSepBumps
        rw [if_neg hne]
        rfl
      rw [hlen, List.filter_cons_of_neg (by simp only [decide_eq_true_eq]; exact hne)]
      push_cast
      omega

theorem length_flatten_symNoSepBumps : ∀ (es : List (Int × Int × ℚ)),
    (((es.map symNoSepBumps).flatten).length : Int) =
      2 * ((es.filter (fun e => e.1 ≠ e.2.1)).length : Int) +
      ((es.filter (fun e => e.1 = e.2.1)).length : Int) := by
  intro es
  induction es with
  | nil => rfl
  | cons e es ih =>
    rw [length_flatten_cons]
    by_cases hne : e.1 ≠ e.2.1
    · have hlen : (symNoSepBumps e).length = 2 := by
        unfold symNoSepBumps
        rw [if_pos hne]
        rfl
      rw [hlen, List.filter_cons_of_pos (by simp only [decide_eq_true_eq]; exact hne),
        List.filter_cons_of_neg (by simp only [decide_eq_true_eq]; exact hne)]
      simp only [List.length_cons]
      push_cast
      omega
    · have hlen : (symNoSepBumps e).length = 1 := by
        unfold symNoSepBumps
        rw [if_neg hne]
        rfl
      rw [hlen, List.filter_cons_of_neg (by simp only [decide_eq_true_eq]; exact hne),
        List.filter_cons_of_pos (by
          simp only [decide_eq_true_eq]
          exact not_not.mp hne)]
      simp only [List.length_cons]
      push_cast
      omega

end Ellspmv

namespace Ellspmv

theorem mem_cntRows (n : Nat) (bumps : List Int) {r : Nat} (hr : r < n) :
    ((bumps.count ((r : Int) + 1) : Int)) ∈ cntRows n bumps := by
  unfold cntRows
  exact List.mem_map.mpr ⟨r, List.mem_range.mpr hr, rfl⟩

theorem cnt_min_char (n : Nat) (hn : 0 < n) (bumps : List Int) :
    (∃ r : Nat, r < n ∧
      (cntRows n bumps).foldl (fun acc v => if acc ≤ v then acc else v)
        ((bumps.count ((0 : Int) + 1) : Int)) = (bumps.count ((r : Int) + 1) : Int)) ∧
    (∀ r : Nat, r < n →
      (cntRows n bumps).foldl (fun acc v => if acc ≤ v then acc else v)
        ((bumps.count ((0 : Int) + 1) : Int)) ≤ (bumps.count ((r : Int) + 1) : Int)) := by
  constructor
  · rcases foldl_ifmin_mem (cntRows n bumps) ((bumps.count ((0 : Int) + 1) : Int)) with h | h
    · refine ⟨0, hn, ?_⟩
      rw [h]
      norm_num
    · obtain ⟨r, hr, heq⟩ := List.mem_map.mp h
      exact ⟨r, List.mem_range.mp hr, heq.symm⟩
  · intro r hr
    exact (foldl_ifmin_le (cntRows n bumps) _).2 _ (mem_cntRows n bumps hr)

theorem cnt_max_char (n : Nat) (hn : 0 < n) (bumps : List Int) :
    (∃ r : Nat, r < n ∧
      (cntRows n bumps).foldl (fun acc v => if acc ≥ v then acc else v) 0 =
        (bumps.count ((r : Int) + 1) : Int)) ∧
    (∀ r : Nat, r < n →
      (bumps.count ((r : Int) + 1) : Int) ≤
        (cntRows n bumps).foldl (fun acc v => if acc ≥ v then acc else v) 0) := by
  have hbound : ∀ r : Nat, r < n →
      (bumps.count ((r : Int) + 1) : Int) ≤
        (cntRows n bumps).foldl (fun acc v => if acc ≥ v then acc else v) 0 := by
    intro r hr
    exact (foldl_ifmax_ge (cntRows n bumps) _).2 _ (mem_cntRows n bumps hr)
  refine ⟨?_, hbound⟩
  rcases foldl_ifmax_mem (cntRows n bumps) 0 with h | h
  · refine ⟨0, hn, ?_⟩
    have h0 := hbound 0 hn
    rw [h] at h0 ⊢
    have h1 : (0 : Int) ≤ (bumps.count (((0 : Nat) : Int) + 1) : Int) := by positivity
    omega
  · obtain ⟨r, hr, heq⟩ := List.mem_map.mp h
    exact ⟨r, List.mem_range.mp hr, heq.symm⟩

theorem symSepBumps_bound {n : Nat} {rowidx colidx : List Int} {a : List ℚ}
    (hwf : COOWF n n rowidx colidx a) :
    ∀ e ∈ zip3 rowidx colidx a, ∀ p ∈ symSepBumps e, 1 ≤ p ∧ p ≤ (n : Int) := by
  intro e he p hp
  have hbe := hwf.2.2 e he
  unfold symSepBumps at hp
  by_cases hne : e.1 ≠ e.2.1
  · rw [if_pos hne] at hp
    simp only [List.mem_cons, List.not_mem_nil, or_false] at hp
    rcases hp with rfl | rfl <;> omega
  · rw [if_neg hne] at hp
    exact absurd hp (List.not_mem_nil p)

theorem symNoSepBumps_bound {n : Nat} {rowidx colidx : List Int} {a : List ℚ}
    (hwf : COOWF n n rowidx colidx a) :
    ∀ e ∈ zip3 rowidx colidx a, ∀ p ∈ symNoSepBumps e, 1 ≤ p ∧ p ≤ (n : Int) := by
  intro e he p hp
  have hbe := hwf.2.2 e he
  unfold symNoSepBumps at hp
  by_cases hne : e.1 ≠ e.2.1
  · rw [if_pos hne] at hp
    simp only [List.mem_cons, List.not_mem_nil, or_false] at hp
    rcases hp with rfl | rfl <;> omega
  · rw [if_neg hne] at hp
    simp only [List.mem_cons, List.not_mem_nil, or_false] at hp
    subst hp
    omega

theorem sepBumps_bound {n : Nat} {rowidx colidx : List Int} {a : List ℚ}
    (hwf : COOWF n n rowidx colidx a) :
    ∀ e ∈ zip3 rowidx colidx a, ∀ p ∈ sepBumps e, 1 ≤ p ∧ p ≤ (n : Int) := by
  intro e he p hp
  have hbe := hwf.2.2 e he
  unfold sepBumps at hp
  by_cases hne : e.1 ≠ e.2.1
  · rw [if_pos hne] at hp
    simp only [List.mem_cons, List.not_mem_nil, or_false] at hp
    subst hp
    omega
  · rw [if_neg hne] at hp
    exact absurd hp (List.not_mem_nil p)

theorem allBumps_bound {n nc : Nat} {rowidx colidx : List Int} {a : List ℚ}
    (hwf : COOWF n nc rowidx colidx a) :
    ∀ e ∈ zip3 rowidx colidx a, ∀ p ∈ allBumps e, 1 ≤ p ∧ p ≤ (n : Int) := by
  intro e he p hp
  have hbe := hwf.2.2 e he
  unfold allBumps at hp
  simp only [List.mem_cons, List.not_mem_nil, or_false] at hp
  subst hp
  omega

end Ellspmv

namespace Ellspmv

/-- C3: for every well-formed symmetric square COO matrix (with at least one
row), `csr_from_coo_size` returns `csrsize` equal to twice the number of
stored off-diagonal entries, plus the number of stored diagonal entries when
`separate_diagonal` is false and plus 0 when it is true; in the separated
case `diagsize` equals `num_rows`. -/
theorem C3_symmetry_expansion_size (n : Nat) (rowidx colidx : List Int) (a : List ℚ)
    (sep : Bool) (hn : 0 < n) (hwf : COOWF n n rowidx colidx a) :
    ∃ sz : CsrSize,
      csr_from_coo_size Mtxsymmetry.symmetric n n rowidx colidx a sep = .ok sz ∧
      sz.csrsize =
        2 * (((zip3 rowidx colidx a).filter (fun e => e.1 ≠ e.2.1)).length : Int) +
          (if sep then 0 else
            (((zip3 rowidx colidx a).filter (fun e => e.1 = e.2.1)).length : Int)) ∧
      sz.diagsize = (if sep then (n : Int) else 0) := by
  cases sep with
  | true =>
    have hb := symSepBumps_bound hwf
    refine ⟨_, csr_size_symsep_spec n rowidx colidx a hn hb, ?_, ?_⟩
    · show prefCount (((zip3 rowidx colidx a).map symSepBumps).flatten) n = _
      rw [prefCount_total _ n (flatten_bumps_bound hb), length_flatten_symSepBumps]
      rw [if_pos rfl]
      ring
    · show (n : Int) = _
      rw [if_pos rfl]
  | false =>
    have hb := symNoSepBumps_bound hwf
    refine ⟨_, csr_size_symnosep_spec n rowidx colidx a hn hb, ?_, ?_⟩
    · show prefCount (((zip3 rowidx colidx a).map symNoSepBumps).flatten) n = _
      rw [prefCount_total _ n (flatten_bumps_bound hb), length_flatten_symNoSepBumps]
      rw [if_neg (by simp)]
    · show (0 : Int) = _
      rw [if_neg (by simp)]

theorem C3_symmetry_expansion_size_witness :
    ∃ sz : CsrSize,
      csr_from_coo_size Mtxsymmetry.symmetric 2 2 [2, 1] [1, 1] [3, 7] true = .ok sz ∧
      sz.csrsize =
        2 * (((zip3 [2, 1] [1, 1] [3, 7]).filter (fun e => e.1 ≠ e.2.1)).length : Int) +
          (if true then 0 else
            (((zip3 [2, 1] [1, 1] [3, 7]).filter (fun e => e.1 = e.2.1)).length : Int)) ∧
      sz.diagsize = (if true then ((2 : Nat) : Int) else 0) :=
  C3_symmetry_expansion_size 2 [2, 1] [1, 1] [3, 7] true (by decide)
    ⟨rfl, rfl, by decide⟩

end Ellspmv

namespace Ellspmv

/-- C9 (amended): for every well-formed square COO matrix (with at least one
row) converted with `separate_diagonal = true`, `csr_from_coo_size` returns
`rowsizemin` and `rowsizemax` equal to ONE PLUS the minimum resp. maximum,
over all rows, of the number of nonzeros destined for that row after diagonal
entries are excluded (stated as: each value is attained at some row and
bounds every row). -/
theorem C9_rowsize_minmax_amended (symmetry : Mtxsymmetry) (n : Nat)
    (rowidx colidx : List Int) (a : List ℚ) (hn : 0 < n)
    (hwf : COOWF n n rowidx colidx a) :
    ∃ sz : CsrSize,
      csr_from_coo_size symmetry n n rowidx colidx a true = .ok sz ∧
      (∃ r : Nat, r < n ∧
        sz.rowsizemin =
          (exclRowCount symmetry (zip3 rowidx colidx a) ((r : Int) + 1) : Int) + 1) ∧
      (∀ r : Nat, r < n →
        sz.rowsizemin ≤
          (exclRowCount symmetry (zip3 rowidx colidx a) ((r : Int) + 1) : Int) + 1) ∧
      (∃ r : Nat, r < n ∧
        sz.rowsizemax =
          (exclRowCount symmetry (zip3 rowidx colidx a) ((r : Int) + 1) : Int) + 1) ∧
      (∀ r : Nat, r < n →
        (exclRowCount symmetry (zip3 rowidx colidx a) ((r : Int) + 1) : Int) + 1 ≤
          sz.rowsizemax) := by
  cases symmetry with
  | general =>
    have hb := sepBumps_bound hwf
    have hcc : ∀ ri : Int,
        (((zip3 rowidx colidx a).map sepBumps).flatten).count ri =
          exclRowCount Mtxsymmetry.general (zip3 rowidx colidx a) ri := by
      intro ri
      exact count_flatten_sepBumps (zip3 rowidx colidx a) ri
    obtain ⟨⟨r0, hr0, hmin_eq⟩, hmin_le⟩ :=
      cnt_min_char n hn (((zip3 rowidx colidx a).map sepBumps).flatten)
    obtain ⟨⟨r1, hr1, hmax_eq⟩, hmax_ge⟩ :=
      cnt_max_char n hn (((zip3 rowidx colidx a).map sepBumps).flatten)
    refine ⟨_, csr_size_sep_spec n rowidx colidx a hn hb, ⟨r0, hr0, ?_⟩, ?_, ⟨r1, hr1, ?_⟩, ?_⟩
    · show (cntRows n (((zip3 rowidx colidx a).map sepBumps).flatten)).foldl
        (fun acc v => if acc ≤ v then acc else v) _ + 1 = _
      rw [hmin_eq, hcc]
    · intro r hr
      have h := hmin_le r hr
      show (cntRows n (((zip3 rowidx colidx a).map sepBumps).flatten)).foldl
        (fun acc v => if acc ≤ v then acc else v) _ + 1 ≤ _
      rw [← hcc ((r : Int) + 1)]
      omega
    · show (cntRows n (((zip3 rowidx colidx a).map sepBumps).flatten)).foldl
        (fun acc v => if acc ≥ v then acc else v) 0 + 1 = _
      rw [hmax_eq, hcc]
    · intro r hr
      have h := hmax_ge r hr
      show _ ≤ (cntRows n (((zip3 rowidx colidx a).map sepBumps).flatten)).foldl
        (fun acc v => if acc ≥ v then acc else v) 0 + 1
      rw [← hcc ((r : Int) + 1)]
      omega
  | symmetric =>
    have hb := symSepBumps_bound hwf
    have hcc : ∀ ri : Int,
        (((zip3 rowidx colidx a).map symSepBumps).flatten).count ri =
          exclRowCount Mtxsymmetry.symmetric (zip3 rowidx colidx a) ri := by
      intro ri
      exact count_flatten_symSepBumps (zip3 rowidx colidx a) ri
    obtain ⟨⟨r0, hr0, hmin_eq⟩, hmin_le⟩ :=
      cnt_min_char n hn (((zip3 rowidx colidx a).map symSepBumps).flatten)
    obtain ⟨⟨r1, hr1, hmax_eq⟩, hmax_ge⟩ :=
      cnt_max_char n hn (((zip3 rowidx colidx a).map symSepBumps).flatten)
    refine ⟨_, csr_size_symsep_spec n rowidx colidx a hn hb, ⟨r0, hr0, ?_⟩, ?_, ⟨r1, hr1, ?_⟩, ?_⟩
    · show (cntRows n (((zip3 rowidx colidx a).map symSepBumps).flatten)).foldl
        (fun acc v => if acc ≤ v then acc else v) _ + 1 = _
      rw [hmin_eq, hcc]
    · intro r hr
      have h := hmin_le r hr
      show (cntRows n (((zip3 rowidx colidx a).map symSepBumps).flatten)).foldl
        (fun acc v => if acc ≤ v then acc else v) _ + 1 ≤ _
      rw [← hcc ((r : Int) + 1)]
      omega
    · show (cntRows n (((zip3 rowidx colidx a).map symSepBumps).flatten)).foldl
        (fun acc v => if acc ≥ v then acc else v) 0 + 1 = _
      rw [hmax_eq, hcc]
    · intro r hr
      have h := hmax_ge r hr
      show _ ≤ (cntRows n (((zip3 rowidx colidx a).map symSepBumps).flatten)).foldl
        (fun acc v => if acc ≥ v then acc else v) 0 + 1
      rw [← hcc ((r : Int) + 1)]
      omega

theorem C9_rowsize_minmax_amended_witness :
    ∃ sz : CsrSize,
      csr_from_coo_size Mtxsymmetry.general 2 2 [1, 2, 2] [2, 1, 2] [5, 6, 7] true = .ok sz ∧
      (∃ r : Nat, r < 2 ∧
        sz.rowsizemin =
          (exclRowCount Mtxsymmetry.general (zip3 [1, 2, 2] [2, 1, 2] [5, 6, 7])
            ((r : Int) + 1) : Int) + 1) ∧
      (∀ r : Nat, r < 2 →
        sz.rowsizemin ≤
          (exclRowCount Mtxsymmetry.general (zip3 [1, 2, 2] [2, 1, 2] [5, 6, 7])
            ((r : Int) + 1) : Int) + 1) ∧
      (∃ r : Nat, r < 2 ∧
        sz.rowsizemax =
          (exclRowCount Mtxsymmetry.general (zip3 [1, 2, 2] [2, 1, 2] [5, 6, 7])
            ((r : Int) + 1) : Int) + 1) ∧
      (∀ r : Nat, r < 2 →
        (exclRowCount Mtxsymmetry.general (zip3 [1, 2, 2] [2, 1, 2] [5, 6, 7])
          ((r : Int) + 1) : Int) + 1 ≤ sz.rowsizemax) :=
  C9_rowsize_minmax_amended Mtxsymmetry.general 2 [1, 2, 2] [2, 1, 2] [5, 6, 7]
    (by decide) ⟨rfl, rfl, by decide⟩

end Ellspmv

namespace Ellspmv

theorem take_one_sum (counts : List Int) : (counts.take 1).sum = counts.getD 0 0 := by
  cases counts <;> simp

/-- Characterization of the cumulative-boundary loop of the
`--rows-per-thread` planning block: after processing threads
`s, s+1, ..., s+m-1`, the last written `endrows` entry holds the sum of the
first `s+m` requested per-thread row counts. -/
theorem rpt_fold_spec (nthreads : Nat) (counts : List Int) :
    ∀ (m s : Nat) (S E : List Int), 1 ≤ s → s + m ≤ nthreads →
      S.length = nthreads → E.length = nthreads →
      E.getD (s - 1) 0 = (counts.take s).sum →
      ∃ S' E',
        efold (fun (st : List Int × List Int) (p : Nat) => do
            let (startrows, endrows) := st
            let prev ← aget endrows ((p : Int) - 1)
            let startrows ← aset startrows (p : Int) prev
            let endrows ←
              if p < counts.length then aset endrows (p : Int) (prev + counts.getD p 0)
              else aset endrows (p : Int) prev
            pure (startrows, endrows))
          (S, E) (List.range' s m) = .ok (S', E') ∧
        S'.length = nthreads ∧ E'.length = nthreads ∧
        E'.getD (s + m - 1) 0 = (counts.take (s + m)).sum := by
  intro m
  induction m with
  | zero =>
    intro s S E hs1 hsm hSl hEl hED
    exact ⟨S, E, rfl, hSl, hEl, hED⟩
  | succ m ih =>
    intro s S E hs1 hsm hSl hEl hED
    have h0p : (0 : Int) ≤ (s : Int) - 1 := by omega
    have htn : ((s : Int) - 1).toNat = s - 1 := by omega
    have hlt : ((s : Int) - 1).toNat < E.length := by omega
    have hprev : aget E ((s : Int) - 1) = .ok ((counts.take s).sum) := by
      rw [aget_eq_getD 0 h0p hlt, htn, hED]
    have hts : ((s : Int)).toNat = s := by omega
    have hltS : ((s : Int)).toNat < S.length := by omega
    have hltE : ((s : Int)).toNat < E.length := by omega
    have hsetS : aset S (s : Int) ((counts.take s).sum) =
        .ok (S.set s ((counts.take s).sum)) := by
      rw [aset_eq_ok _ (by positivity) hltS, hts]
    have hstep : (fun (st : List Int × List Int) (p : Nat) => do
            let (startrows, endrows) := st
            let prev ← aget endrows ((p : Int) - 1)
            let startrows ← aset startrows (p : Int) prev
            let endrows ←
              if p < counts.length then aset endrows (p : Int) (prev + counts.getD p 0)
              else aset endrows (p : Int) prev
            pure (startrows, endrows)) (S, E) s =
        .ok (S.set s ((counts.take s).sum), E.set s ((counts.take (s + 1)).sum)) := by
      show (do
            let prev ← aget E ((s : Int) - 1)
            let startrows ← aset S (s : Int) prev
            let endrows ←
              if s < counts.length then aset E (s : Int) (prev + counts.getD s 0)
              else aset E (s : Int) prev
            pure (startrows, endrows)) =
        .ok (S.set s ((counts.take s).sum), E.set s ((counts.take (s + 1)).sum))
      rw [hprev]
      rw [cm_bind_ok]
      show (do
            let startrows ← aset S (s : Int) ((counts.take s).sum)
            let endrows ←
              if s < counts.length then
                aset E (s : Int) ((counts.take s).sum + counts.getD s 0)
              else aset E (s : Int) ((counts.take s).sum)
            pure (startrows, endrows)) = _
      rw [hsetS, cm_bind_ok]
      by_cases hsl : s < counts.length
      · have hsum : (counts.take s).sum + counts.getD s 0 = (counts.take (s + 1)).sum := by
          rw [List.getD_eq_getElem _ _ hsl, List.sum_take_succ _ _ hsl]
        rw [if_pos hsl, hsum, aset_eq_ok _ (by positivity) hltE, hts, cm_bind_ok]
        rfl
      · have hsum : (counts.take s).sum = (counts.take (s + 1)).sum := by
          rw [List.take_of_length_le (by omega), List.take_of_length_le (by omega)]
        rw [if_neg hsl, aset_eq_ok _ (by positivity) hltE, hts, cm_bind_ok, hsum]
        rfl
    obtain ⟨S', E', hfold, hSl', hEl', hED'⟩ :=
      ih (s + 1) (S.set s ((counts.take s).sum)) (E.set s ((counts.take (s + 1)).sum))
        (by omega) (by omega) (by rw [List.length_set]; exact hSl)
        (by rw [List.length_set]; exact hEl)
        (by
          have hidx : s + 1 - 1 = s := by omega
          rw [hidx, List.getD_eq_getElem _ _ (by rw [List.length_set]; omega)]
          rw [List.getElem_set]
          rw [if_pos rfl])
    refine ⟨S', E', ?_, hSl', hEl', ?_⟩
    · rw [List.range'_succ]
      refine Eq.trans (efold_cons_ok _ ?_) hfold
      exact hstep
    · have hidx : s + (m + 1) - 1 = s + 1 + m - 1 := by omega
      have hidx2 : s + (m + 1) = s + 1 + m := by omega
      rw [hidx, hidx2]
      exact hED'

end Ellspmv

namespace Ellspmv

/-- C8: with an explicit `--rows-per-thread` list, the planning block of
`csrspmv`'s `main` aborts with the fatal error `EINVAL` exactly when the
cumulative sum of the per-thread row counts (of the threads that receive
one) exceeds `num_rows`; when the sum does not exceed `num_rows` it does not
abort, it sets the undersum warning exactly when the sum is smaller than
`num_rows`, and it sets the mismatch warning exactly when the list length
differs from the thread count. -/
theorem C8_rows_per_thread_check (nthreads num_rows : Nat) (counts : List Int)
    (hnt : 0 < nthreads) :
    ∃ part : RowPartition,
      rowsPerThreadPartition nthreads num_rows counts = .ok part ∧
      (part.fatal = some EINVAL ↔ (num_rows : Int) < (counts.take nthreads).sum) ∧
      (part.fatal = none ↔ (counts.take nthreads).sum ≤ (num_rows : Int)) ∧
      (part.fatal = none →
        (part.warn_undersum = true ↔ (counts.take nthreads).sum < (num_rows : Int))) ∧
      (part.warn_mismatch = true ↔ counts.length ≠ nthreads) := by
  have hS0 : aset (List.replicate nthreads (0 : Int)) 0 0 =
      .ok ((List.replicate nthreads (0 : Int)).set 0 0) :=
    aset_eq_ok _ (le_refl 0) (by simpa using hnt)
  have hE0 : aset (List.replicate nthreads (0 : Int)) 0 (counts.getD 0 0) =
      .ok ((List.replicate nthreads (0 : Int)).set 0 (counts.getD 0 0)) :=
    aset_eq_ok _ (le_refl 0) (by simpa using hnt)
  have hrange : (List.range (nthreads - 1)).map (fun p => p + 1) =
      List.range' 1 (nthreads - 1) := by
    rw [List.range'_eq_map_range]
    apply List.map_congr_left
    intro i _
    omega
  obtain ⟨S', E', hfold, hSl, hEl, hED⟩ :=
    rpt_fold_spec nthreads counts (nthreads - 1) 1
      ((List.replicate nthreads (0 : Int)).set 0 0)
      ((List.replicate nthreads (0 : Int)).set 0 (counts.getD 0 0))
      (le_refl 1) (by omega) (by simp) (by simp)
      (by
        rw [List.getD_eq_getElem _ _ (by simpa using hnt), List.getElem_set, if_pos rfl,
          take_one_sum])
  have hone : 1 + (nthreads - 1) = nthreads := by omega
  rw [hone] at hED
  have hlast : aget E' ((nthreads : Int) - 1) = .ok ((counts.take nthreads).sum) := by
    have h0p : (0 : Int) ≤ (nthreads : Int) - 1 := by omega
    have htn : ((nthreads : Int) - 1).toNat = nthreads - 1 := by omega
    rw [aget_eq_getD 0 h0p (by omega), htn, hED]
  have hrun : rowsPerThreadPartition nthreads num_rows counts =
      (if 0 < nthreads ∧ (counts.take nthreads).sum > ((num_rows : Nat) : Int) then
        (.ok { startrows := S', endrows := E',
               warn_mismatch := (counts.length ≠ nthreads : Bool),
               warn_undersum := false, fatal := some EINVAL } : CM RowPartition)
      else
        .ok { startrows := S', endrows := E',
              warn_mismatch := (counts.length ≠ nthreads : Bool),
              warn_undersum :=
                (0 < nthreads ∧ (counts.take nthreads).sum < ((num_rows : Nat) : Int) : Bool),
              fatal := none }) := by
    unfold rowsPerThreadPartition
    rw [if_pos hnt, hS0, cm_bind_ok]
    show ((do
      let endrows ← if 0 < nthreads then
          aset (List.replicate nthreads (0 : Int)) 0 (counts.getD 0 0)
        else pure (List.replicate nthreads (0 : Int))
      let st ← efold (fun (st : List Int × List Int) (p : Nat) => do
          let (startrows, endrows) := st
          let prev ← aget endrows ((p : Int) - 1)
          let startrows ← aset startrows (p : Int) prev
          let endrows ←
            if p < counts.length then aset endrows (p : Int) (prev + counts.getD p 0)
            else aset endrows (p : Int) prev
          pure (startrows, endrows))
        ((List.replicate nthreads (0 : Int)).set 0 0, endrows)
        ((List.range (nthreads - 1)).map (fun p => p + 1))
      let (startrows, endrows) := st
      let warn_mismatch := counts.length ≠ nthreads
      let last ← if 0 < nthreads then aget endrows ((nthreads : Int) - 1) else pure 0
      if 0 < nthreads ∧ last > ((num_rows : Nat) : Int) then
        pure { startrows := startrows, endrows := endrows, warn_mismatch := warn_mismatch,
               warn_undersum := false, fatal := some EINVAL }
      else
        pure { startrows := startrows, endrows := endrows, warn_mismatch := warn_mismatch,
               warn_undersum := 0 < nthreads ∧ last < ((num_rows : Nat) : Int),
               fatal := none }) : CM RowPartition) = _
    rw [if_pos hnt, hE0, cm_bind_ok]
    show ((do
      let st ← efold (fun (st : List Int × List Int) (p : Nat) => do
          let (startrows, endrows) := st
          let prev ← aget endrows ((p : Int) - 1)
          let startrows ← aset startrows (p : Int) prev
          let endrows ←
            if p < counts.length then aset endrows (p : Int) (prev + counts.getD p 0)
            else aset endrows (p : Int) prev
          pure (startrows, endrows))
        ((List.replicate nthreads (0 : Int)).set 0 0,
          (List.replicate nthreads (0 : Int)).set 0 (counts.getD 0 0))
        ((List.range (nthreads - 1)).map (fun p => p + 1))
      let (startrows, endrows) := st
      let warn_mismatch := counts.length ≠ nthreads
      let last ← if 0 < nthreads then aget endrows ((nthreads : Int) - 1) else pure 0
      if 0 < nthreads ∧ last > ((num_rows : Nat) : Int) then
        pure { startrows := startrows, endrows := endrows, warn_mismatch := warn_mismatch,
               warn_undersum := false, fatal := some EINVAL }
      else
        pure { startrows := startrows, endrows := endrows, warn_mismatch := warn_mismatch,
               warn_undersum := 0 < nthreads ∧ last < ((num_rows : Nat) : Int),
               fatal := none }) : CM RowPartition) = _
    rw [hrange, hfold, cm_bind_ok]
    show ((do
      let last ← if 0 < nthreads then aget E' ((nthreads : Int) - 1) else pure 0
      if 0 < nthreads ∧ last > ((num_rows : Nat) : Int) then
        pure { startrows := S', endrows := E',
               warn_mismatch := (counts.length ≠ nthreads : Bool),
               warn_undersum := false, fatal := some EINVAL }
      else
        pure { startrows := S', endrows := E',
               warn_mismatch := (counts.length ≠ nthreads : Bool),
               warn_undersum := (0 < nthreads ∧ last < ((num_rows : Nat) : Int) : Bool),
               fatal := none }) : CM RowPartition) = _
    rw [if_pos hnt, hlast, cm_bind_ok]
    rfl
  by_cases hgt : ((num_rows : Nat) : Int) < (counts.take nthreads).sum
  · rw [if_pos ⟨hnt, hgt⟩] at hrun
    refine ⟨_, hrun, ?_, ?_, ?_, ?_⟩
    · exact ⟨fun _ => hgt, fun _ => rfl⟩
    · exact ⟨fun h => absurd h (by simp), fun h => absurd hgt (not_lt.mpr h)⟩
    · intro h
      exact absurd h (by simp)
    · show (decide (counts.length ≠ nthreads)) = true ↔ counts.length ≠ nthreads
      exact decide_eq_true_iff
  · rw [if_neg (fun hc => hgt hc.2)] at hrun
    refine ⟨_, hrun, ?_, ?_, ?_, ?_⟩
    · exact ⟨fun h => absurd h (by simp), fun h => absurd h hgt⟩
    · exact ⟨fun _ => not_lt.mp hgt, fun _ => rfl⟩
    · intro _
      show (decide (0 < nthreads ∧ (counts.take nthreads).sum < ((num_rows : Nat) : Int)))
          = true ↔ _
      rw [decide_eq_true_iff]
      exact ⟨fun h => h.2, fun h => ⟨hnt, h⟩⟩
    · show (decide (counts.length ≠ nthreads)) = true ↔ counts.length ≠ nthreads
      exact decide_eq_true_iff

theorem C8_rows_per_thread_check_witness :
    ∃ part : RowPartition,
      rowsPerThreadPartition 2 3 [2, 2] = .ok part ∧
      (part.fatal = some EINVAL ↔ ((3 : Nat) : Int) < (([2, 2] : List Int).take 2).sum) ∧
      (part.fatal = none ↔ (([2, 2] : List Int).take 2).sum ≤ ((3 : Nat) : Int)) ∧
      (part.fatal = none →
        (part.warn_undersum = true ↔ (([2, 2] : List Int).take 2).sum < ((3 : Nat) : Int))) ∧
      (part.warn_mismatch = true ↔ ([2, 2] : List Int).length ≠ 2) :=
  C8_rows_per_thread_check 2 3 [2, 2] (by decide)

end Ellspmv

namespace Ellspmv

theorem efold_entrywise_mem {σ E β : Type} {f : σ → E → CM σ} {g : σ → β → CM σ}
    {w : E → List β} :
    ∀ (es : List E), (∀ s, ∀ e ∈ es, f s e = efold g s (w e)) →
    ∀ (s : σ), efold f s es = efold g s ((es.map w).flatten) := by
  intro es
  induction es with
  | nil => intro _ s; rfl
  | cons e es ih =>
    intro hf s
    rw [List.map_cons, List.flatten_cons, efold_append]
    show (match f s e with
      | .ok s2 => efold f s2 es
      | .error e => .error e) = _
    rw [hf s e (List.mem_cons_self e es)]
    cases efold g s (w e) with
    | ok s2 => exact ih (fun s e he => hf s e (List.mem_cons_of_mem _ he)) s2
    | error e => rfl

/-- Splitting a fold over a four-component state into a fold over the first
three components and a fold over the fourth, when each step acts on them
independently. -/
theorem efold_split4 {E : Type}
    {f : (List Int × List Int × List ℚ × List ℚ) → E → CM (List Int × List Int × List ℚ × List ℚ)}
    {g : (List Int × List Int × List ℚ) → E → CM (List Int × List Int × List ℚ)}
    {h : List ℚ → E → CM (List ℚ)} :
    ∀ (es : List E),
    (∀ p q u d, ∀ e ∈ es, f (p, q, u, d) e = (do
        let s ← g (p, q, u) e
        let d2 ← h d e
        pure (s.1, s.2.1, s.2.2, d2))) →
    ∀ p q u d p2 q2 u2 d2,
      efold g (p, q, u) es = .ok (p2, q2, u2) → efold h d es = .ok d2 →
      efold f (p, q, u, d) es = .ok (p2, q2, u2, d2) := by
  intro es
  induction es with
  | nil =>
    intro _ p q u d p2 q2 u2 d2 hg hh
    cases hg
    cases hh
    rfl
  | cons e es ih =>
    intro hf p q u d p2 q2 u2 d2 hg hh
    cases hge : g (p, q, u) e with
    | error err => rw [efold_cons_error _ hge] at hg; exact absurd hg (by simp)
    | ok s1 =>
      rw [efold_cons_ok _ hge] at hg
      cases hhe : h d e with
      | error err => rw [efold_cons_error _ hhe] at hh; exact absurd hh (by simp)
      | ok d1 =>
        rw [efold_cons_ok _ hhe] at hh
        have hstep : f (p, q, u, d) e = .ok (s1.1, s1.2.1, s1.2.2, d1) := by
          rw [hf p q u d e (List.mem_cons_self e es), hge, cm_bind_ok, hhe, cm_bind_ok]
          rfl
        rw [efold_cons_ok _ hstep]
        exact ih (fun p q u d e he => hf p q u d e (List.mem_cons_of_mem _ he))
          s1.1 s1.2.1 s1.2.2 d1 p2 q2 u2 d2 hg hh

theorem take_succ_getD {α : Type} (xs : List α) (k : Nat) (d : α) (h : k < xs.length) :
    xs.take (k + 1) = xs.take k ++ [xs.getD k d] := by
  rw [List.take_succ, List.getElem?_eq_getElem h, List.getD_eq_getElem _ _ h]
  rfl

theorem drop_set_eq_cons {α : Type} (xs : List α) (m : Nat) (v : α) (h : m < xs.length) :
    (xs.set m v).drop m = v :: xs.drop (m + 1) := by
  apply List.ext_getElem
  · simp
    omega
  · intro j h1 h2
    rw [List.getElem_drop]
    cases j with
    | zero =>
      rw [List.getElem_set]
      simp
    | succ t =>
      simp only [List.getElem_cons_succ, List.getElem_drop]
      rw [List.getElem_set_ne (by omega)]
      congr 1
      omega

/-- The downward-shift loop of `csr_from_coo`:
processing `i = k, k-1, ..., 1`, each step copies entry `i-1` to entry `i`. -/
theorem shiftfold_spec :
    ∀ (k : Nat) (xs : List Int), k < xs.length →
    efold (fun rp (i : Nat) => do
        let v ← aget rp ((i : Int) - 1)
        aset rp (i : Int) v) xs (((List.range k).map (fun i => i + 1)).reverse) =
    .ok (xs.take 1 ++ xs.take k ++ xs.drop (k + 1)) := by
  intro k
  induction k with
  | zero =>
    intro xs h
    show (Except.ok xs : CM (List Int)) = _
    cases xs with
    | nil => simp at h
    | cons x t => simp
  | succ k ih =>
    intro xs h
    have hrev : (((List.range (k + 1)).map (fun i => i + 1)).reverse) =
        (k + 1) :: (((List.range k).map (fun i => i + 1)).reverse) := by
      rw [List.range_succ, List.map_append, List.reverse_append]
      rfl
    rw [hrev]
    have h0p : (0 : Int) ≤ ((k + 1 : Nat) : Int) - 1 := by omega
    have htn : (((k + 1 : Nat) : Int) - 1).toNat = k := by omega
    have hget : aget xs (((k + 1 : Nat) : Int) - 1) = .ok (xs.getD k 0) := by
      rw [aget_eq_getD 0 h0p (by omega), htn]
    have hts : (((k + 1 : Nat) : Int)).toNat = k + 1 := by omega
    have hset : aset xs ((k + 1 : Nat) : Int) (xs.getD k 0) =
        .ok (xs.set (k + 1) (xs.getD k 0)) := by
      rw [aset_eq_ok _ (by positivity) (by omega), hts]
    have hstep : (fun rp (i : Nat) => do
        let v ← aget rp ((i : Int) - 1)
        aset rp (i : Int) v) xs (k + 1) = .ok (xs.set (k + 1) (xs.getD k 0)) := by
      show (do
        let v ← aget xs (((k + 1 : Nat) : Int) - 1)
        aset xs ((k + 1 : Nat) : Int) v) = _
      rw [hget, cm_bind_ok, hset]
    rw [efold_cons_ok _ hstep, ih _ (by rw [List.length_set]; omega)]
    have htake1 : (xs.set (k + 1) (xs.getD k 0)).take 1 = xs.take 1 :=
      take_set_ge _ _ _ _ (by omega)
    have htakek : (xs.set (k + 1) (xs.getD k 0)).take k = xs.take k :=
      take_set_ge _ _ _ _ (by omega)
    have hdrop : (xs.set (k + 1) (xs.getD k 0)).drop (k + 1) =
        (xs.getD k 0) :: xs.drop (k + 2) :=
      drop_set_eq_cons _ _ _ (by omega)
    rw [htake1, htakek, hdrop]
    rw [take_succ_getD xs k 0 (by omega)]
    simp [List.append_assoc]

/-- `csrShift` computed: the in-place downward shift of the cursor-mutated
row-pointer array produces `0 :: (first num_rows entries)`. -/
theorem csrShift_spec (n : Nat) (rp : List Int) (h : rp.length = n + 1) :
    csrShift n rp = .ok (0 :: rp.take n) := by
  unfold csrShift
  rw [shiftfold_spec n rp (by omega), cm_bind_ok]
  have hdrop : rp.drop (n + 1) = [] := List.drop_of_length_le (by omega)
  have htake1 : rp.take 1 = [rp.getD 0 0] := by
    cases rp with
    | nil => simp at h
    | cons x t => simp
  rw [hdrop, htake1, List.append_nil]
  have hset : aset ([rp.getD 0 0] ++ rp.take n) 0 0 =
      .ok (([rp.getD 0 0] ++ rp.take n).set 0 0) :=
    aset_eq_ok _ (le_refl 0) (by simp)
  rw [hset]
  rfl

/-- The plain fill loops `for (i = s; i < e; i++) v[i] = c;`. -/
theorem fillfold_spec {α : Type} (c : α) :
    ∀ (m s : Nat) (v : List α), s + m ≤ v.length →
    efold (fun v i => aset v i c) v (intRange (s : Int) ((s + m : Nat) : Int)) =
    .ok (v.take s ++ List.replicate m c ++ v.drop (s + m)) := by
  intro m
  induction m with
  | zero =>
    intro s v h
    rw [intRange_eq_nil (by omega)]
    show (Except.ok v : CM (List α)) = _
    rw [List.replicate_zero, List.append_nil, Nat.add_zero, List.take_append_drop]
  | succ m ih =>
    intro s v h
    rw [intRange_eq_cons (by omega)]
    have hts : ((s : Nat) : Int).toNat = s := by omega
    have hset : aset v (s : Int) c = .ok (v.set s c) := by
      rw [aset_eq_ok _ (by positivity) (by omega), hts]
    rw [efold_cons_ok _ hset]
    have hnext : ((s : Int) + 1) = (((s + 1 : Nat)) : Int) := by push_cast; ring
    have hend : ((s + (m + 1) : Nat) : Int) = (((s + 1) + m : Nat) : Int) := by push_cast; ring
    rw [hnext, hend, ih (s + 1) (v.set s c) (by rw [List.length_set]; omega)]
    have htake : (v.set s c).take (s + 1) = v.take s ++ [c] := by
      rw [take_succ_getD (v.set s c) s c (by rw [List.length_set]; omega),
        take_set_ge _ _ _ _ (le_refl s)]
      congr 1
      rw [List.getD_eq_getElem _ _ (by rw [List.length_set]; omega), List.getElem_set]
      simp
    rw [htake, drop_set_gt _ _ _ _ (by omega)]
    have hidx : s + 1 + m = s + (m + 1) := by omega
    rw [hidx]
    simp [List.append_assoc, List.replicate_succ]

/-- Entry `q` of the unshifted size-pass row-pointer array `0 :: psums`. -/
theorem rowptr0_getD (n : Nat) (bumps : List Int) (hb0 : bumps.count (0 : Int) = 0) :
    ∀ q, q ≤ n → (0 :: psumFrom 0 (cntRows n bumps)).getD q 0 = prefCount bumps q := by
  intro q hq
  cases q with
  | zero =>
    rw [List.getD_cons_zero, prefCount_zero, hb0]
    rfl
  | succ t =>
    rw [List.getD_cons_succ, psumFrom_getD _ _ t (by simp [cntRows]; omega)]
    rw [cntRows_take bumps (show t + 1 ≤ n by omega)]
    rw [prefCount_eq_sum bumps (t + 1), hb0]
    push_cast
    ring

end Ellspmv

namespace Ellspmv

/-- Characterization of the cursor-directed scatter shared by the CSR and
ELLPACK fill passes: folding `scatStep base` over a write list advances each
row's cursor by the number of writes to that row, lays each row's writes out
contiguously from `base r + cur0[r]` in write order, and leaves every
position outside the written regions unchanged — provided the regions fit in
the buffers and are pairwise disjoint. -/
theorem scatfold_spec (base : Nat → Int) :
    ∀ (ws : List (Nat × Int × ℚ)) (cur0 bufc0 : List Int) (bufa0 : List ℚ),
    (∀ w ∈ ws, w.1 < cur0.length) →
    bufa0.length = bufc0.length →
    (∀ r, r < cur0.length →
      0 ≤ base r + cur0.getD r 0 ∧
      base r + cur0.getD r 0 + ((ws.filter (fun x => x.1 = r)).length : Int) ≤
        (bufc0.length : Int)) →
    (∀ r r', r < cur0.length → r' < cur0.length → r ≠ r' →
      base r + cur0.getD r 0 + ((ws.filter (fun x => x.1 = r)).length : Int) ≤
        base r' + cur0.getD r' 0 ∨
      base r' + cur0.getD r' 0 + ((ws.filter (fun x => x.1 = r')).length : Int) ≤
        base r + cur0.getD r 0) →
    ∃ cur2 bufc2 bufa2,
      efold (scatStep base) (cur0, bufc0, bufa0) ws = .ok (cur2, bufc2, bufa2) ∧
      cur2.length = cur0.length ∧ bufc2.length = bufc0.length ∧
      bufa2.length = bufa0.length ∧
      (∀ r, r < cur0.length → cur2.getD r 0 =
        cur0.getD r 0 + ((ws.filter (fun x => x.1 = r)).length : Int)) ∧
      (∀ r, r < cur0.length →
        lsub bufc2 bufa2 (base r + cur0.getD r 0)
          ((ws.filter (fun x => x.1 = r)).map (fun x => x.2))) ∧
      (∀ j : Int,
        (∀ r, r < cur0.length → ¬(base r + cur0.getD r 0 ≤ j ∧
          j < base r + cur0.getD r 0 + ((ws.filter (fun x => x.1 = r)).length : Int))) →
        aget bufc2 j = aget bufc0 j ∧ aget bufa2 j = aget bufa0 j) := by
  intro ws
  induction ws with
  | nil =>
    intro cur0 bufc0 bufa0 _ _ _ _
    refine ⟨cur0, bufc0, bufa0, rfl, rfl, rfl, rfl, ?_, ?_, ?_⟩
    · intro r _
      simp
    · intro r _
      intro t ht
      simp at ht
    · intro j _
      exact ⟨rfl, rfl⟩
  | cons w ws ih =>
    intro cur0 bufc0 bufa0 hrow hab hbnd hdisj
    have hr0 : w.1 < cur0.length := hrow w (List.mem_cons_self w ws)
    have hfilr0 : (w :: ws).filter (fun x => x.1 = w.1) =
        w :: ws.filter (fun x => x.1 = w.1) :=
      List.filter_cons_of_pos (by simp)
    have hfilne : ∀ r : Nat, r ≠ w.1 → (w :: ws).filter (fun x => x.1 = r) =
        ws.filter (fun x => x.1 = r) := by
      intro r hne
      exact List.filter_cons_of_neg (by
        simp only [decide_eq_true_eq]
        exact fun hh => hne hh.symm)
    have h0 : 0 ≤ base w.1 + cur0.getD w.1 0 := (hbnd w.1 hr0).1
    have hend0 : base w.1 + cur0.getD w.1 0 +
        (((w :: ws).filter (fun x => x.1 = w.1)).length : Int) ≤ (bufc0.length : Int) :=
      (hbnd w.1 hr0).2
    rw [hfilr0, List.length_cons] at hend0
    have hposlt : base w.1 + cur0.getD w.1 0 < (bufc0.length : Int) := by
      have : (0 : Int) ≤ ((ws.filter (fun x => x.1 = w.1)).length : Int) := by positivity
      omega
    have hts : ((w.1 : Nat) : Int).toNat = w.1 := by omega
    have hgetc : aget cur0 (w.1 : Int) = .ok (cur0.getD w.1 0) := by
      rw [aget_eq_getD 0 (by positivity) (by omega), hts]
    have hsetc : aset bufc0 (base w.1 + cur0.getD w.1 0) w.2.1 =
        .ok (bufc0.set (base w.1 + cur0.getD w.1 0).toNat w.2.1) :=
      aset_eq_ok _ h0 (by omega)
    have hseta : aset bufa0 (base w.1 + cur0.getD w.1 0) w.2.2 =
        .ok (bufa0.set (base w.1 + cur0.getD w.1 0).toNat w.2.2) :=
      aset_eq_ok _ h0 (by omega)
    have hsetcur : aset cur0 (w.1 : Int) (cur0.getD w.1 0 + 1) =
        .ok (cur0.set w.1 (cur0.getD w.1 0 + 1)) := by
      rw [aset_eq_ok _ (by positivity) (by omega), hts]
    set cur1 : List Int := cur0.set w.1 (cur0.getD w.1 0 + 1) with hcur1
    set bufc1 : List Int := bufc0.set (base w.1 + cur0.getD w.1 0).toNat w.2.1 with hbufc1
    set bufa1 : List ℚ := bufa0.set (base w.1 + cur0.getD w.1 0).toNat w.2.2 with hbufa1
    have hstep : scatStep base (cur0, bufc0, bufa0) w = .ok (cur1, bufc1, bufa1) := by
      show (do
        let c ← aget cur0 (w.1 : Int)
        let bufc ← aset bufc0 (base w.1 + c) w.2.1
        let bufa ← aset bufa0 (base w.1 + c) w.2.2
        let cur ← aset cur0 (w.1 : Int) (c + 1)
        pure (cur, bufc, bufa)) = _
      rw [hgetc]
      simp only [cm_bind_ok]
      rw [hsetc]
      simp only [cm_bind_ok]
      rw [hseta]
      simp only [cm_bind_ok]
      rw [hsetcur]
      simp only [cm_bind_ok]
      rfl
    have hc1len : cur1.length = cur0.length := by
      rw [hcur1, List.length_set]
    have hcur1getD : ∀ r, r < cur0.length →
        cur1.getD r 0 = if r = w.1 then cur0.getD w.1 0 + 1 else cur0.getD r 0 := by
      intro r hr
      rw [hcur1, List.getD_eq_getElem _ _ (by rw [List.length_set]; omega),
        List.getElem_set]
      by_cases h : r = w.1
      · subst h
        rw [if_pos rfl, if_pos rfl]
      · rw [if_neg (fun hh => h hh.symm), if_neg h]
        exact (List.getD_eq_getElem _ _ (by omega)).symm
    obtain ⟨cur2, bufc2, bufa2, hfold, hl1, hl2, hl3, hcur, hsub, huntouched⟩ :=
      ih cur1 bufc1 bufa1
        (by
          intro x hx
          rw [hc1len]
          exact hrow x (List.mem_cons_of_mem _ hx))
        (by rw [hbufa1, hbufc1, List.length_set, List.length_set]; exact hab)
        (by
          intro r hr
          rw [hc1len] at hr
          rw [hcur1getD r hr, hbufc1, List.length_set]
          by_cases h : r = w.1
          · subst h
            rw [if_pos rfl]
            constructor
            · omega
            · omega
          · rw [if_neg h]
            have := hbnd r hr
            rw [hfilne r h] at this
            exact this)
        (by
          intro r r' hr hr' hne
          rw [hc1len] at hr hr'
          rw [hcur1getD r hr, hcur1getD r' hr']
          have horig := hdisj r r' hr hr' hne
          by_cases h : r = w.1
          · subst h
            rw [if_pos rfl, if_neg (fun hh => hne hh.symm)]
            rw [hfilr0, List.length_cons, hfilne r' (fun hh => hne hh.symm)] at horig
            rcases horig with h1 | h1
            · left
              push_cast at h1 ⊢
              omega
            · right
              push_cast at h1 ⊢
              omega
          · by_cases h' : r' = w.1
            · subst h'
              rw [if_neg h, if_pos rfl]
              rw [hfilr0, List.length_cons, hfilne r h] at horig
              rcases horig with h1 | h1
              · left
                push_cast at h1 ⊢
                omega
              · right
                push_cast at h1 ⊢
                omega
            · rw [if_neg h, if_neg h']
              rw [hfilne r h, hfilne r' h'] at horig
              exact horig)
    have hnotin1 : ∀ r, r < cur1.length →
        ¬(base r + cur1.getD r 0 ≤ base w.1 + cur0.getD w.1 0 ∧
          base w.1 + cur0.getD w.1 0 <
            base r + cur1.getD r 0 + ((ws.filter (fun x => x.1 = r)).length : Int)) := by
      intro r hr
      rw [hc1len] at hr
      rw [hcur1getD r hr]
      by_cases h : r = w.1
      · subst h
        rw [if_pos rfl]
        intro hc
        omega
      · rw [if_neg h]
        have horig := hdisj w.1 r hr0 hr (fun hh => h hh.symm)
        rw [hfilr0, List.length_cons, hfilne r h] at horig
        intro hc
        rcases horig with h1 | h1
        · push_cast at h1
          omega
        · push_cast at h1
          omega
    refine ⟨cur2, bufc2, bufa2, Eq.trans (efold_cons_ok ws hstep) hfold, ?_, ?_, ?_, ?_, ?_, ?_⟩
    · rw [hl1, hc1len]
    · rw [hl2, hbufc1, List.length_set]
    · rw [hl3, hbufa1, List.length_set]
    · intro r hr
      have hr1 : r < cur1.length := by rw [hc1len]; exact hr
      have := hcur r hr1
      rw [hcur1getD r hr] at this
      by_cases h : r = w.1
      · subst h
        rw [if_pos rfl] at this
        rw [this, hfilr0, List.length_cons]
        push_cast
        ring
      · rw [if_neg h] at this
        rw [this, hfilne r h]
    · intro r hr
      have hr1 : r < cur1.length := by rw [hc1len]; exact hr
      by_cases h : r = w.1
      · subst h
        rw [hfilr0, List.map_cons]
        intro t ht
        cases t with
        | zero =>
          have hj := huntouched (base w.1 + cur0.getD w.1 0) hnotin1
          have hc : aget bufc2 (base w.1 + cur0.getD w.1 0) = .ok w.2.1 := by
            rw [hj.1, hbufc1]
            have := aget_aset hsetc (base w.1 + cur0.getD w.1 0)
            rw [this, if_pos rfl]
          have ha : aget bufa2 (base w.1 + cur0.getD w.1 0) = .ok w.2.2 := by
            rw [hj.2, hbufa1]
            have := aget_aset hseta (base w.1 + cur0.getD w.1 0)
            rw [this, if_pos rfl]
          have hz : base w.1 + cur0.getD w.1 0 + ((0 : Nat) : Int) =
              base w.1 + cur0.getD w.1 0 := by push_cast; ring
          rw [hz]
          exact ⟨hc, ha⟩
        | succ t =>
          have hsegt : t < ((ws.filter (fun x => x.1 = w.1)).map (fun x => x.2)).length := by
            simp only [List.length_map]
            simp only [List.length_cons, List.length_map] at ht
            omega
          have := hsub w.1 hr1 t hsegt
          rw [hcur1getD w.1 hr0, if_pos rfl] at this
          have hidx : base w.1 + cur0.getD w.1 0 + ((t + 1 : Nat) : Int) =
              base w.1 + (cur0.getD w.1 0 + 1) + (t : Int) := by push_cast; ring
          rw [hidx]
          exact this
      · rw [hfilne r h]
        have := hsub r hr1
        rw [hcur1getD r hr, if_neg h] at this
        exact this
    · intro j hj
      have hj1 : ∀ r, r < cur1.length → ¬(base r + cur1.getD r 0 ≤ j ∧
          j < base r + cur1.getD r 0 + ((ws.filter (fun x => x.1 = r)).length : Int)) := by
        intro r hr
        rw [hc1len] at hr
        rw [hcur1getD r hr]
        have horig := hj r hr
        by_cases h : r = w.1
        · subst h
          rw [if_pos rfl]
          rw [hfilr0, List.length_cons] at horig
          intro hc
          apply horig
          push_cast
          constructor
          · omega
          · omega
        · rw [if_neg h]
          rw [hfilne r h] at horig
          exact horig
      have hres := huntouched j hj1
      have hjne : j ≠ base w.1 + cur0.getD w.1 0 := by
        intro hh
        apply hj w.1 hr0
        rw [hfilr0, List.length_cons]
        subst hh
        push_cast
        constructor
        · omega
        · have : (0 : Int) ≤ ((ws.filter (fun x => x.1 = w.1)).length : Int) := by positivity
          omega
      constructor
      · rw [hres.1, hbufc1]
        have := aget_aset hsetc j
        rw [this, if_neg hjne]
      · rw [hres.2, hbufa1]
        have := aget_aset hseta j
        rw [this, if_neg hjne]

end Ellspmv

namespace Ellspmv

theorem cm_bind_assoc {α β γ : Type} (x : CM α) (f : α → CM β) (g : β → CM γ) :
    (x >>= f) >>= g = x >>= fun a => f a >>= g := by
  cases x <;> rfl

theorem efold_pure_ok {σ E : Type} : ∀ (es : List E) (d : σ),
    efold (fun d (_ : E) => (pure d : CM σ)) d es = .ok d := by
  intro es
  induction es with
  | nil => intro d; rfl
  | cons e es ih =>
    intro d
    rw [efold_cons_ok es (show (pure d : CM σ) = .ok d from rfl)]
    exact ih d

/-- The diagonal-accumulation fold of the separating branches succeeds and
preserves the length of `ad` whenever every diagonal entry's row is in
bounds. -/
theorem diagfold_ok : ∀ (es : List (Int × Int × ℚ)) (d : List ℚ),
    (∀ e ∈ es, e.1 = e.2.1 → 1 ≤ e.1 ∧ e.1 - 1 < (d.length : Int)) →
    ∃ d2, efold (fun d (e : Int × Int × ℚ) =>
        if e.1 = e.2.1 then diagStep d e else pure d) d es = .ok d2 ∧
      d2.length = d.length := by
  intro es
  induction es with
  | nil => intro d _; exact ⟨d, rfl, rfl⟩
  | cons e es ih =>
    intro d hb
    by_cases hdiag : e.1 = e.2.1
    · have hbe := hb e (List.mem_cons_self e es) hdiag
      have h0 : (0 : Int) ≤ e.1 - 1 := by omega
      have hlt : (e.1 - 1).toNat < d.length := by omega
      have hget : aget d (e.1 - 1) = .ok (d.getD (e.1 - 1).toNat 0) :=
        aget_eq_getD 0 h0 hlt
      have hset : aset d (e.1 - 1) (d.getD (e.1 - 1).toNat 0 + e.2.2) =
          .ok (d.set (e.1 - 1).toNat (d.getD (e.1 - 1).toNat 0 + e.2.2)) :=
        aset_eq_ok _ h0 hlt
      have hstep : (fun d (e : Int × Int × ℚ) =>
          if e.1 = e.2.1 then diagStep d e else pure d) d e =
          .ok (d.set (e.1 - 1).toNat (d.getD (e.1 - 1).toNat 0 + e.2.2)) := by
        show (if e.1 = e.2.1 then diagStep d e else pure d) = _
        rw [if_pos hdiag]
        unfold diagStep
        rw [hget, cm_bind_ok, hset]
      obtain ⟨d2, hfold, hlen⟩ := ih (d.set (e.1 - 1).toNat (d.getD (e.1 - 1).toNat 0 + e.2.2))
        (by
          intro x hx hdx
          have := hb x (List.mem_cons_of_mem _ hx) hdx
          rw [List.length_set]
          exact this)
      refine ⟨d2, ?_, ?_⟩
      · rw [efold_cons_ok _ hstep]
        exact hfold
      · rw [hlen, List.length_set]
    · have hstep : (fun d (e : Int × Int × ℚ) =>
          if e.1 = e.2.1 then diagStep d e else pure d) d e = .ok d := by
        show (if e.1 = e.2.1 then diagStep d e else pure d) = _
        rw [if_neg hdiag]
        rfl
      obtain ⟨d2, hfold, hlen⟩ := ih d (fun x hx => hb x (List.mem_cons_of_mem _ hx))
      refine ⟨d2, ?_, hlen⟩
      rw [efold_cons_ok _ hstep]
      exact hfold

theorem filter_row_eq_count_mapped : ∀ (l : List (Nat × Int × ℚ)) (r : Nat),
    (l.filter (fun x => x.1 = r)).length =
      (l.map (fun x => ((x.1 : Nat) : Int) + 1)).count ((r : Int) + 1) := by
  intro l
  induction l with
  | nil => intro r; rfl
  | cons x l ih =>
    intro r
    rw [List.map_cons, List.count_cons, ← ih r]
    by_cases h : x.1 = r
    · rw [List.filter_cons_of_pos (by simp only [decide_eq_true_eq]; exact h),
        List.length_cons]
      have : (((x.1 : Nat) : Int) + 1 == (r : Int) + 1) = true := by
        rw [beq_iff_eq]
        omega
      rw [this]
      rfl
    · rw [List.filter_cons_of_neg (by simp only [decide_eq_true_eq]; exact h)]
      have : (((x.1 : Nat) : Int) + 1 == (r : Int) + 1) = false := by
        rw [beq_eq_false_iff_ne]
        intro hc
        exact h (by omega)
      rw [this]
      rfl

theorem wcount_of_rows {E : Type} :
    ∀ (es : List E) (Wf : E → List (Nat × Int × ℚ)) (Bf : E → List Int),
    (∀ e ∈ es, (Wf e).map (fun x => ((x.1 : Nat) : Int) + 1) = Bf e) →
    ∀ (r : Nat),
    (((es.map Wf).flatten).filter (fun x => x.1 = r)).length =
      ((es.map Bf).flatten).count ((r : Int) + 1) := by
  intro es
  induction es with
  | nil => intro _ _ _ r; rfl
  | cons e es ih =>
    intro Wf Bf h r
    rw [List.map_cons, List.map_cons, List.flatten_cons, List.flatten_cons,
      List.filter_append, List.length_append, List.count_append]
    rw [ih Wf Bf (fun x hx => h x (List.mem_cons_of_mem _ hx)) r]
    rw [← h e (List.mem_cons_self e es)]
    rw [filter_row_eq_count_mapped]

theorem symWrites_rows_sep (e : Int × Int × ℚ) (h1 : 1 ≤ e.1) (h2 : 1 ≤ e.2.1) :
    (symWrites true e).map (fun x => ((x.1 : Nat) : Int) + 1) = symSepBumps e := by
  unfold symWrites symSepBumps
  by_cases hne : e.1 ≠ e.2.1
  · rw [if_pos hne, if_pos hne]
    show [((((e.1 - 1).toNat : Nat) : Int) + 1), (((e.2.1 - 1).toNat : Nat) : Int) + 1] = _
    rw [show (((e.1 - 1).toNat : Nat) : Int) + 1 = e.1 by omega,
      show (((e.2.1 - 1).toNat : Nat) : Int) + 1 = e.2.1 by omega]
  · rw [if_neg hne, if_neg hne]
    rfl

theorem symWrites_rows_nosep (e : Int × Int × ℚ) (h1 : 1 ≤ e.1) (h2 : 1 ≤ e.2.1) :
    (symWrites false e).map (fun x => ((x.1 : Nat) : Int) + 1) = symNoSepBumps e := by
  unfold symWrites symNoSepBumps
  by_cases hne : e.1 ≠ e.2.1
  · rw [if_pos hne, if_pos hne]
    show [((((e.1 - 1).toNat : Nat) : Int) + 1), (((e.2.1 - 1).toNat : Nat) : Int) + 1] = _
    rw [show (((e.1 - 1).toNat : Nat) : Int) + 1 = e.1 by omega,
      show (((e.2.1 - 1).toNat : Nat) : Int) + 1 = e.2.1 by omega]
  · rw [if_neg hne, if_neg hne, if_pos rfl]
    show [(((e.1 - 1).toNat : Nat) : Int) + 1] = _
    rw [show (((e.1 - 1).toNat : Nat) : Int) + 1 = e.1 by omega]

theorem sepWrites_rows (e : Int × Int × ℚ) (h1 : 1 ≤ e.1) :
    (sepWrites e).map (fun x => ((x.1 : Nat) : Int) + 1) = sepBumps e := by
  unfold sepWrites sepBumps
  by_cases hd : e.1 = e.2.1
  · rw [if_pos hd, if_neg (by omega)]
    rfl
  · rw [if_neg hd, if_pos (by omega)]
    show [(((e.1 - 1).toNat : Nat) : Int) + 1] = _
    rw [show (((e.1 - 1).toNat : Nat) : Int) + 1 = e.1 by omega]

theorem allWrites_rows (e : Int × Int × ℚ) (h1 : 1 ≤ e.1) :
    (allWrites e).map (fun x => ((x.1 : Nat) : Int) + 1) = allBumps e := by
  unfold allWrites allBumps
  show [(((e.1 - 1).toNat : Nat) : Int) + 1] = _
  rw [show (((e.1 - 1).toNat : Nat) : Int) + 1 = e.1 by omega]

/-- Every offset below the total prefix count lies in the region of exactly
one row. -/
theorem prefCount_localize (bumps : List Int) (hb0 : prefCount bumps 0 = 0) :
    ∀ (n : Nat) (k : Int), 0 ≤ k → k < prefCount bumps n →
    ∃ r, r < n ∧ prefCount bumps r ≤ k ∧ k < prefCount bumps (r + 1) := by
  intro n
  induction n with
  | zero =>
    intro k h0 hk
    rw [hb0] at hk
    omega
  | succ m ih =>
    intro k h0 hk
    by_cases hkm : k < prefCount bumps m
    · obtain ⟨r, hr, h1, h2⟩ := ih k h0 hkm
      exact ⟨r, by omega, h1, h2⟩
    · exact ⟨m, by omega, by omega, hk⟩

end Ellspmv

namespace Ellspmv

theorem efold_cons_bind {σ α : Type} (f : σ → α → CM σ) (s : σ) (x : α) (xs : List α) :
    efold f s (x :: xs) = (f s x >>= fun s2 => efold f s2 xs) := by
  cases h : f s x <;> simp [efold, h]

/-- One step of the square-symmetric separated-diagonal branch of
`csr_from_coo` splits into the generic scatter of its writes and the guarded
diagonal accumulation. -/
theorem symsep_step_split (p q : List Int) (u d : List ℚ) (e : Int × Int × ℚ)
    (h1 : 1 ≤ e.1) (h2 : 1 ≤ e.2.1) :
    csrSymSepStep (p, q, u, d) e =
    (do
      let s ← efold (scatStep (fun _ => 0)) (p, q, u) (symWrites true e)
      let d2 ← (if e.1 = e.2.1 then diagStep d e else pure d)
      pure (s.1, s.2.1, s.2.2, d2)) := by
  obtain ⟨ri, ci, av⟩ := e
  have h1' : 1 ≤ ri := h1
  have h2' : 1 ≤ ci := h2
  have ht1 : (((ri - 1).toNat : Nat) : Int) = ri - 1 := by omega
  have ht2 : (((ci - 1).toNat : Nat) : Int) = ci - 1 := by omega
  have ht1' : ((ri.toNat - 1 : Nat) : Int) = ri - 1 := by omega
  have ht2' : ((ci.toNat - 1 : Nat) : Int) = ci - 1 := by omega
  by_cases hd : ri = ci
  · simp [csrSymSepStep, symWrites, scatStep, diagStep, efold_cons_bind, hd, cm_bind_assoc,
      ht1, ht2, ht1', ht2']
  · simp [csrSymSepStep, symWrites, scatStep, diagStep, efold_cons_bind, hd, cm_bind_assoc,
      ht1, ht2, ht1', ht2']

end Ellspmv

namespace Ellspmv

/-- One step of the square-symmetric non-separated branch of `csr_from_coo`
splits into the generic scatter of its writes (the diagonal array is never
touched). -/
theorem symnosep_step_split (p q : List Int) (u d : List ℚ) (e : Int × Int × ℚ)
    (h1 : 1 ≤ e.1) (h2 : 1 ≤ e.2.1) :
    csrSymNoSepStep (p, q, u, d) e =
    (do
      let s ← efold (scatStep (fun _ => 0)) (p, q, u) (symWrites false e)
      let d2 ← (pure d : CM (List ℚ))
      pure (s.1, s.2.1, s.2.2, d2)) := by
  obtain ⟨ri, ci, av⟩ := e
  have h1' : 1 ≤ ri := h1
  have h2' : 1 ≤ ci := h2
  have ht1 : (((ri - 1).toNat : Nat) : Int) = ri - 1 := by omega
  have ht2 : (((ci - 1).toNat : Nat) : Int) = ci - 1 := by omega
  have ht1' : ((ri.toNat - 1 : Nat) : Int) = ri - 1 := by omega
  have ht2' : ((ci.toNat - 1 : Nat) : Int) = ci - 1 := by omega
  by_cases hd : ri = ci
  · simp [csrSymNoSepStep, symWrites, scatStep, efold_cons_bind, hd, cm_bind_assoc,
      ht1, ht2, ht1', ht2', sub_left_inj]
  · simp [csrSymNoSepStep, symWrites, scatStep, efold_cons_bind, hd, cm_bind_assoc,
      ht1, ht2, ht1', ht2', sub_left_inj]

/-- One step of the square general separated-diagonal branch of
`csr_from_coo` splits into the generic scatter of its writes and the guarded
diagonal accumulation. -/
theorem sep_step_split (p q : List Int) (u d : List ℚ) (e : Int × Int × ℚ)
    (h1 : 1 ≤ e.1) (h2 : 1 ≤ e.2.1) :
    csrSepStep (p, q, u, d) e =
    (do
      let s ← efold (scatStep (fun _ => 0)) (p, q, u) (sepWrites e)
      let d2 ← (if e.1 = e.2.1 then diagStep d e else pure d)
      pure (s.1, s.2.1, s.2.2, d2)) := by
  obtain ⟨ri, ci, av⟩ := e
  have h1' : 1 ≤ ri := h1
  have h2' : 1 ≤ ci := h2
  have ht1 : (((ri - 1).toNat : Nat) : Int) = ri - 1 := by omega
  have ht2 : (((ci - 1).toNat : Nat) : Int) = ci - 1 := by omega
  have ht1' : ((ri.toNat - 1 : Nat) : Int) = ri - 1 := by omega
  have ht2' : ((ci.toNat - 1 : Nat) : Int) = ci - 1 := by omega
  by_cases hd : ri = ci
  · simp [csrSepStep, sepWrites, scatStep, diagStep, efold_cons_bind, hd, cm_bind_assoc,
      ht1, ht2, ht1', ht2', sub_left_inj]
  · simp [csrSepStep, sepWrites, scatStep, diagStep, efold_cons_bind, hd, cm_bind_assoc,
      ht1, ht2, ht1', ht2', sub_left_inj]

/-- One step of the `ell_from_coo` scatter without diagonal separation splits
into the generic scatter (with per-row base offsets). -/
theorem ell_step_split (rowsize : Int) (p q : List Int) (u d : List ℚ) (e : Int × Int × ℚ)
    (h1 : 1 ≤ e.1) :
    ellScatterStep false rowsize (p, q, u, d) e =
    (do
      let s ← efold (scatStep (fun r => (r : Int) * rowsize)) (p, q, u) (allWrites e)
      let d2 ← (pure d : CM (List ℚ))
      pure (s.1, s.2.1, s.2.2, d2)) := by
  obtain ⟨ri, ci, av⟩ := e
  have h1' : 1 ≤ ri := h1
  have ht1 : (((ri - 1).toNat : Nat) : Int) = ri - 1 := by omega
  have ht1' : ((ri.toNat - 1 : Nat) : Int) = ri - 1 := by omega
  simp [ellScatterStep, allWrites, scatStep, efold_cons_bind, cm_bind_assoc, ht1, ht1']

end Ellspmv


namespace Ellspmv

/-- The scatter of a cursor branch of `csr_from_coo`, run from the size-pass
row pointers and freshly zeroed buffers: it succeeds, advances each cursor to
the next row's start (so that the final shift restores the size-pass
pointers), and lays out each row's writes contiguously in write order. -/
theorem csr_scatter_core {E : Type} (n : Nat) (es : List E)
    (Wf : E → List (Nat × Int × ℚ)) (Bf : E → List Int)
    (hrows : ∀ e ∈ es, (Wf e).map (fun x => ((x.1 : Nat) : Int) + 1) = Bf e)
    (hbp : ∀ e ∈ es, ∀ b ∈ Bf e, 1 ≤ b ∧ b ≤ (n : Int)) :
    ∃ cur2 bufc2 bufa2,
      efold (scatStep (fun _ => 0))
        (0 :: psumFrom 0 (cntRows n ((es.map Bf).flatten)),
          List.replicate (prefCount ((es.map Bf).flatten) n).toNat (0 : Int),
          List.replicate (prefCount ((es.map Bf).flatten) n).toNat (0 : ℚ))
        ((es.map Wf).flatten) = .ok (cur2, bufc2, bufa2) ∧
      cur2.length = n + 1 ∧
      bufc2.length = (prefCount ((es.map Bf).flatten) n).toNat ∧
      bufa2.length = (prefCount ((es.map Bf).flatten) n).toNat ∧
      cur2.take n = psumFrom 0 (cntRows n ((es.map Bf).flatten)) ∧
      (∀ r, r < n →
        lsub bufc2 bufa2 (prefCount ((es.map Bf).flatten) r)
          ((((es.map Wf).flatten).filter (fun x => x.1 = r)).map (fun x => x.2))) := by
  set bumps : List Int := (es.map Bf).flatten with hbumps
  set ws : List (Nat × Int × ℚ) := (es.map Wf).flatten with hws
  have hbf : ∀ b ∈ bumps, 1 ≤ b ∧ b ≤ (n : Int) := flatten_bumps_bound hbp
  have hcount0 : bumps.count (0 : Int) = 0 := by
    rw [List.count_eq_zero]
    intro hmem
    have := hbf 0 hmem
    omega
  have hW : ∀ r : Nat, (ws.filter (fun x => x.1 = r)).length = bumps.count ((r : Int) + 1) :=
    wcount_of_rows es Wf Bf hrows
  have hWn : (ws.filter (fun x => x.1 = n)).length = 0 := by
    rw [hW n, List.count_eq_zero]
    intro hmem
    have := hbf _ hmem
    omega
  have hrowlt : ∀ w ∈ ws, w.1 < n := by
    intro w hw
    rw [hws, List.mem_flatten] at hw
    obtain ⟨l, hl, hwl⟩ := hw
    obtain ⟨e, he, rfl⟩ := List.mem_map.mp hl
    have hmapmem : ((w.1 : Nat) : Int) + 1 ∈ Bf e := by
      rw [← hrows e he]
      exact List.mem_map.mpr ⟨w, hwl, rfl⟩
    have := hbp e he _ hmapmem
    omega
  set rp0 : List Int := 0 :: psumFrom 0 (cntRows n bumps) with hrp0
  have hrp0len : rp0.length = n + 1 := by
    rw [hrp0]
    simp [cntRows]
  have hrp0getD : ∀ q, q ≤ n → rp0.getD q 0 = prefCount bumps q :=
    rowptr0_getD n bumps hcount0
  set L : Nat := (prefCount bumps n).toNat with hL
  have hLcast : ((L : Nat) : Int) = prefCount bumps n := by
    rw [hL]
    exact Int.toNat_of_nonneg (prefCount_nonneg bumps n)
  have hend : ∀ r, r ≤ n →
      rp0.getD r 0 + ((ws.filter (fun x => x.1 = r)).length : Int) ≤ prefCount bumps n := by
    intro r hr
    rw [hrp0getD r hr]
    by_cases hcase : r < n
    · rw [hW r]
      have hsucc := prefCount_succ bumps r
      have hmono := prefCount_le_of_le bumps (show r + 1 ≤ n by omega)
      omega
    · have hrn' : r = n := by omega
      subst hrn'
      rw [hWn]
      simp
  have hbnd : ∀ r, r < rp0.length →
      0 ≤ 0 + rp0.getD r 0 ∧
      0 + rp0.getD r 0 + ((ws.filter (fun x => x.1 = r)).length : Int) ≤
        ((List.replicate L (0 : Int)).length : Int) := by
    intro r hr
    rw [hrp0len] at hr
    have hrn : r ≤ n := by omega
    rw [List.length_replicate, hLcast]
    have h1 := prefCount_nonneg bumps r
    have h2 := hend r hrn
    rw [hrp0getD r hrn] at h2 ⊢
    omega
  have hdisj : ∀ r r', r < rp0.length → r' < rp0.length → r ≠ r' →
      0 + rp0.getD r 0 + ((ws.filter (fun x => x.1 = r)).length : Int) ≤
        0 + rp0.getD r' 0 ∨
      0 + rp0.getD r' 0 + ((ws.filter (fun x => x.1 = r')).length : Int) ≤
        0 + rp0.getD r 0 := by
    intro r r' hr hr' hne
    rw [hrp0len] at hr hr'
    rcases Nat.lt_or_ge r r' with hlt | hge
    · left
      rw [hrp0getD r (by omega), hrp0getD r' (by omega), hW r]
      have hsucc := prefCount_succ bumps r
      have hmono := prefCount_le_of_le bumps (show r + 1 ≤ r' by omega)
      omega
    · right
      have hlt' : r' < r := by omega
      rw [hrp0getD r (by omega), hrp0getD r' (by omega), hW r']
      have hsucc := prefCount_succ bumps r'
      have hmono := prefCount_le_of_le bumps (show r' + 1 ≤ r by omega)
      omega
  obtain ⟨cur2, bufc2, bufa2, hfold, hl1, hl2, hl3, hcur, hsub, _⟩ :=
    scatfold_spec (fun _ => 0) ws rp0 (List.replicate L (0 : Int))
      (List.replicate L (0 : ℚ))
      (by
        intro w hw
        rw [hrp0len]
        have := hrowlt w hw
        omega)
      (by simp)
      hbnd hdisj
  refine ⟨cur2, bufc2, bufa2, hfold, ?_, ?_, ?_, ?_, ?_⟩
  · rw [hl1, hrp0len]
  · rw [hl2, List.length_replicate]
  · rw [hl3, List.length_replicate]
  · apply List.ext_get
    · rw [List.length_take, hl1, hrp0len]
      simp [cntRows]
    · intro t h1 h2
      have htn : t < n := by
        have h1c := h1
        rw [List.length_take, hl1, hrp0len] at h1c
        omega
      have hcget : cur2.getD t 0 = rp0.getD t 0 +
          ((ws.filter (fun x => x.1 = t)).length : Int) :=
        hcur t (by rw [hrp0len]; omega)
      have hg1 : (cur2.take n).get ⟨t, h1⟩ = (cur2.take n).getD t 0 :=
        (List.getD_eq_getElem _ _ h1).symm
      have hg2 : (cur2.take n).getD t 0 = cur2.getD t 0 := by
        rw [List.getD_eq_getElem _ _ h1, List.getElem_take,
          List.getD_eq_getElem _ _ (by rw [hl1, hrp0len]; omega)]
      have hg3 : (psumFrom 0 (cntRows n bumps)).get ⟨t, h2⟩ =
          (psumFrom 0 (cntRows n bumps)).getD t 0 :=
        (List.getD_eq_getElem _ _ h2).symm
      rw [hg1, hg2, hg3, hcget, hrp0getD t (by omega), hW t]
      have hpsum : (psumFrom 0 (cntRows n bumps)).getD t 0 =
          0 + ((cntRows n bumps).take (t + 1)).sum :=
        psumFrom_getD _ _ t (by simp [cntRows]; omega)
      rw [hpsum, cntRows_take bumps (show t + 1 ≤ n by omega)]
      have hsum := prefCount_eq_sum bumps (t + 1)
      have hsucc := prefCount_succ bumps t
      rw [hcount0] at hsum
      push_cast at hsum
      omega
  · intro r hr
    have := hsub r (by rw [hrp0len]; omega)
    rw [hrp0getD r (by omega)] at this
    rw [zero_add] at this
    exact this

end Ellspmv

namespace Ellspmv

/-- The square-symmetric separated-diagonal branch of `csr_from_coo`, run on
the size-pass outputs: it succeeds, the shift restores the size-pass row
pointers, and each row's slice holds that row's writes in order. -/
theorem csr_fill_symsep_spec (n : Nat) (rowidx colidx : List Int) (a : List ℚ)
    (csrsize rmin rmax : Int) (cad0 : List ℚ) (hcad0 : n ≤ cad0.length)
    (hwf : COOWF n n rowidx colidx a) :
    ∃ ccol ca cad,
      csr_from_coo Mtxsymmetry.symmetric n n rowidx colidx a
        (0 :: psumFrom 0 (cntRows n (((zip3 rowidx colidx a).map symSepBumps).flatten)))
        csrsize rmin rmax
        (List.replicate
          (prefCount (((zip3 rowidx colidx a).map symSepBumps).flatten) n).toNat 0)
        (List.replicate
          (prefCount (((zip3 rowidx colidx a).map symSepBumps).flatten) n).toNat 0)
        cad0 true false =
      .ok { rowptr :=
              0 :: psumFrom 0 (cntRows n (((zip3 rowidx colidx a).map symSepBumps).flatten)),
            colidx := ccol, a := ca, ad := cad } ∧
      ccol.length = (prefCount (((zip3 rowidx colidx a).map symSepBumps).flatten) n).toNat ∧
      ca.length = (prefCount (((zip3 rowidx colidx a).map symSepBumps).flatten) n).toNat ∧
      cad.length = cad0.length ∧
      (∀ r, r < n →
        lsub ccol ca (prefCount (((zip3 rowidx colidx a).map symSepBumps).flatten) r)
          (((((zip3 rowidx colidx a).map (symWrites true)).flatten).filter
            (fun x => x.1 = r)).map (fun x => x.2))) := by
  obtain ⟨cur2, bufc2, bufa2, hscat, hc2len, hb2len, ha2len, htake, hsub⟩ :=
    csr_scatter_core n (zip3 rowidx colidx a) (symWrites true) symSepBumps
      (fun e he => symWrites_rows_sep e (hwf.2.2 e he).1 (hwf.2.2 e he).2.2.1)
      (symSepBumps_bound hwf)
  obtain ⟨cad2, hdiag, hcadlen⟩ := diagfold_ok (zip3 rowidx colidx a) cad0
    (by
      intro e he _
      have := hwf.2.2 e he
      constructor
      · omega
      · omega)
  have hgfold : efold (fun s (e : Int × Int × ℚ) =>
      efold (scatStep (fun _ => 0)) s (symWrites true e))
      ((0 : Int) :: psumFrom 0 (cntRows n (((zip3 rowidx colidx a).map symSepBumps).flatten)),
        List.replicate
          (prefCount (((zip3 rowidx colidx a).map symSepBumps).flatten) n).toNat (0 : Int),
        List.replicate
          (prefCount (((zip3 rowidx colidx a).map symSepBumps).flatten) n).toNat (0 : ℚ))
      (zip3 rowidx colidx a) = .ok (cur2, bufc2, bufa2) := by
    rw [efold_entrywise_mem (zip3 rowidx colidx a) (fun s e he => rfl)]
    exact hscat
  have hsplit := efold_split4 (zip3 rowidx colidx a)
    (fun p q u d e he => symsep_step_split p q u d e (hwf.2.2 e he).1 (hwf.2.2 e he).2.2.1)
    _ _ _ _ _ _ _ _ hgfold hdiag
  have hrun : csr_from_coo Mtxsymmetry.symmetric n n rowidx colidx a
      (0 :: psumFrom 0 (cntRows n (((zip3 rowidx colidx a).map symSepBumps).flatten)))
      csrsize rmin rmax
      (List.replicate
        (prefCount (((zip3 rowidx colidx a).map symSepBumps).flatten) n).toNat 0)
      (List.replicate
        (prefCount (((zip3 rowidx colidx a).map symSepBumps).flatten) n).toNat 0)
      cad0 true false =
      .ok { rowptr := (0 : Int) :: cur2.take n,
            colidx := bufc2, a := bufa2, ad := cad2 } := by
    unfold csr_from_coo
    rw [if_pos ⟨rfl, rfl, rfl⟩]
    rw [hsplit]
    simp only [cm_bind_ok]
    rw [csrShift_spec n cur2 hc2len]
    simp only [cm_bind_ok, cm_pure_eq]
    rw [if_neg (show ¬((false : Bool) = true) by simp)]
  refine ⟨bufc2, bufa2, cad2, ?_, hb2len, ha2len, hcadlen, hsub⟩
  rw [hrun, htake]

end Ellspmv

namespace Ellspmv

/-- The square-symmetric non-separated branch of `csr_from_coo`, run on the
size-pass outputs. -/
theorem csr_fill_symnosep_spec (n : Nat) (rowidx colidx : List Int) (a : List ℚ)
    (csrsize rmin rmax : Int) (cad0 : List ℚ)
    (hwf : COOWF n n rowidx colidx a) :
    ∃ ccol ca,
      csr_from_coo Mtxsymmetry.symmetric n n rowidx colidx a
        (0 :: psumFrom 0 (cntRows n (((zip3 rowidx colidx a).map symNoSepBumps).flatten)))
        csrsize rmin rmax
        (List.replicate
          (prefCount (((zip3 rowidx colidx a).map symNoSepBumps).flatten) n).toNat 0)
        (List.replicate
          (prefCount (((zip3 rowidx colidx a).map symNoSepBumps).flatten) n).toNat 0)
        cad0 false false =
      .ok { rowptr :=
              0 :: psumFrom 0
                (cntRows n (((zip3 rowidx colidx a).map symNoSepBumps).flatten)),
            colidx := ccol, a := ca, ad := cad0 } ∧
      ccol.length =
        (prefCount (((zip3 rowidx colidx a).map symNoSepBumps).flatten) n).toNat ∧
      ca.length =
        (prefCount (((zip3 rowidx colidx a).map symNoSepBumps).flatten) n).toNat ∧
      (∀ r, r < n →
        lsub ccol ca (prefCount (((zip3 rowidx colidx a).map symNoSepBumps).flatten) r)
          (((((zip3 rowidx colidx a).map (symWrites false)).flatten).filter
            (fun x => x.1 = r)).map (fun x => x.2))) := by
  obtain ⟨cur2, bufc2, bufa2, hscat, hc2len, hb2len, ha2len, htake, hsub⟩ :=
    csr_scatter_core n (zip3 rowidx colidx a) (symWrites false) symNoSepBumps
      (fun e he => symWrites_rows_nosep e (hwf.2.2 e he).1 (hwf.2.2 e he).2.2.1)
      (symNoSepBumps_bound hwf)
  have hgfold : efold (fun s (e : Int × Int × ℚ) =>
      efold (scatStep (fun _ => 0)) s (symWrites false e))
      ((0 : Int) :: psumFrom 0
          (cntRows n (((zip3 rowidx colidx a).map symNoSepBumps).flatten)),
        List.replicate
          (prefCount (((zip3 rowidx colidx a).map symNoSepBumps).flatten) n).toNat (0 : Int),
        List.replicate
          (prefCount (((zip3 rowidx colidx a).map symNoSepBumps).flatten) n).toNat (0 : ℚ))
      (zip3 rowidx colidx a) = .ok (cur2, bufc2, bufa2) := by
    rw [efold_entrywise_mem (zip3 rowidx colidx a) (fun s e he => rfl)]
    exact hscat
  have hsplit := efold_split4 (zip3 rowidx colidx a)
    (fun p q u d e he => symnosep_step_split p q u d e (hwf.2.2 e he).1 (hwf.2.2 e he).2.2.1)
    _ _ _ _ _ _ _ _ hgfold (efold_pure_ok (zip3 rowidx colidx a) cad0)
  have hrun : csr_from_coo Mtxsymmetry.symmetric n n rowidx colidx a
      (0 :: psumFrom 0 (cntRows n (((zip3 rowidx colidx a).map symNoSepBumps).flatten)))
      csrsize rmin rmax
      (List.replicate
        (prefCount (((zip3 rowidx colidx a).map symNoSepBumps).flatten) n).toNat 0)
      (List.replicate
        (prefCount (((zip3 rowidx colidx a).map symNoSepBumps).flatten) n).toNat 0)
      cad0 false false =
      .ok { rowptr := (0 : Int) :: cur2.take n,
            colidx := bufc2, a := bufa2, ad := cad0 } := by
    unfold csr_from_coo
    rw [if_neg (by simp), if_pos ⟨rfl, rfl, rfl⟩]
    rw [hsplit]
    simp only [cm_bind_ok]
    rw [csrShift_spec n cur2 hc2len]
    simp only [cm_bind_ok, cm_pure_eq]
    rw [if_neg (show ¬((false : Bool) = true) by simp)]
  refine ⟨bufc2, bufa2, ?_, hb2len, ha2len, hsub⟩
  rw [hrun, htake]

/-- The square general separated-diagonal branch of `csr_from_coo`, run on
the size-pass outputs. -/
theorem csr_fill_sep_spec (n : Nat) (rowidx colidx : List Int) (a : List ℚ)
    (csrsize rmin rmax : Int) (cad0 : List ℚ) (hcad0 : n ≤ cad0.length)
    (hwf : COOWF n n rowidx colidx a) :
    ∃ ccol ca cad,
      csr_from_coo Mtxsymmetry.general n n rowidx colidx a
        (0 :: psumFrom 0 (cntRows n (((zip3 rowidx colidx a).map sepBumps).flatten)))
        csrsize rmin rmax
        (List.replicate
          (prefCount (((zip3 rowidx colidx a).map sepBumps).flatten) n).toNat 0)
        (List.replicate
          (prefCount (((zip3 rowidx colidx a).map sepBumps).flatten) n).toNat 0)
        cad0 true false =
      .ok { rowptr :=
              0 :: psumFrom 0 (cntRows n (((zip3 rowidx colidx a).map sepBumps).flatten)),
            colidx := ccol, a := ca, ad := cad } ∧
      ccol.length = (prefCount (((zip3 rowidx colidx a).map sepBumps).flatten) n).toNat ∧
      ca.length = (prefCount (((zip3 rowidx colidx a).map sepBumps).flatten) n).toNat ∧
      cad.length = cad0.length ∧
      (∀ r, r < n →
        lsub ccol ca (prefCount (((zip3 rowidx colidx a).map sepBumps).flatten) r)
          (((((zip3 rowidx colidx a).map sepWrites).flatten).filter
            (fun x => x.1 = r)).map (fun x => x.2))) := by
  obtain ⟨cur2, bufc2, bufa2, hscat, hc2len, hb2len, ha2len, htake, hsub⟩ :=
    csr_scatter_core n (zip3 rowidx colidx a) sepWrites sepBumps
      (fun e he => sepWrites_rows e (hwf.2.2 e he).1)
      (sepBumps_bound hwf)
  obtain ⟨cad2, hdiag, hcadlen⟩ := diagfold_ok (zip3 rowidx colidx a) cad0
    (by
      intro e he _
      have := hwf.2.2 e he
      constructor
      · omega
      · omega)
  have hgfold : efold (fun s (e : Int × Int × ℚ) =>
      efold (scatStep (fun _ => 0)) s (sepWrites e))
      ((0 : Int) :: psumFrom 0 (cntRows n (((zip3 rowidx colidx a).map sepBumps).flatten)),
        List.replicate
          (prefCount (((zip3 rowidx colidx a).map sepBumps).flatten) n).toNat (0 : Int),
        List.replicate
          (prefCount (((zip3 rowidx colidx a).map sepBumps).flatten) n).toNat (0 : ℚ))
      (zip3 rowidx colidx a) = .ok (cur2, bufc2, bufa2) := by
    rw [efold_entrywise_mem (zip3 rowidx colidx a) (fun s e he => rfl)]
    exact hscat
  have hsplit := efold_split4 (zip3 rowidx colidx a)
    (fun p q u d e he => sep_step_split p q u d e (hwf.2.2 e he).1 (hwf.2.2 e he).2.2.1)
    _ _ _ _ _ _ _ _ hgfold hdiag
  have hrun : csr_from_coo Mtxsymmetry.general n n rowidx colidx a
      (0 :: psumFrom 0 (cntRows n (((zip3 rowidx colidx a).map sepBumps).flatten)))
      csrsize rmin rmax
      (List.replicate
        (prefCount (((zip3 rowidx colidx a).map sepBumps).flatten) n).toNat 0)
      (List.replicate
        (prefCount (((zip3 rowidx colidx a).map sepBumps).flatten) n).toNat 0)
      cad0 true false =
      .ok { rowptr := (0 : Int) :: cur2.take n,
            colidx := bufc2, a := bufa2, ad := cad2 } := by
    unfold csr_from_coo
    rw [if_neg (by simp), if_neg (by simp), if_pos ⟨rfl, rfl⟩]
    rw [hsplit]
    simp only [cm_bind_ok]
    rw [csrShift_spec n cur2 hc2len]
    simp only [cm_bind_ok, cm_pure_eq]
    rw [if_neg (show ¬((false : Bool) = true) by simp)]
  refine ⟨bufc2, bufa2, cad2, ?_, hb2len, ha2len, hcadlen, hsub⟩
  rw [hrun, htake]

end Ellspmv

namespace Ellspmv

theorem flatten_singleton {α β : Type} (f : α → List β) :
    ∀ (l : List α), (∀ x ∈ l, ∃ y, f x = [y]) →
    ((l.map f).flatten).length = l.length := by
  intro l
  induction l with
  | nil => intro _; rfl
  | cons x l ih =>
    intro h
    obtain ⟨y, hy⟩ := h x (List.mem_cons_self x l)
    rw [List.map_cons, List.flatten_cons, List.length_append, hy,
      ih (fun z hz => h z (List.mem_cons_of_mem _ hz))]
    simp
    omega

theorem flatten_map_singleton {α β : Type} (f : α → β) (l : List α) :
    ((l.map (fun x => [f x])).flatten) = l.map f := by
  induction l with
  | nil => rfl
  | cons x l ih =>
    rw [List.map_cons, List.flatten_cons, ih, List.map_cons]
    rfl

theorem mem_enumFrom_getD {α : Type} (d : α) :
    ∀ (es : List α) (i : Nat) (ke : Nat × α), ke ∈ List.enumFrom i es →
    i ≤ ke.1 ∧ ke.1 - i < es.length ∧ ke.2 = es.getD (ke.1 - i) d := by
  intro es
  induction es with
  | nil =>
    intro i ke h
    simp [List.enumFrom] at h
  | cons e es ih =>
    intro i ke h
    rw [show List.enumFrom i (e :: es) = (i, e) :: List.enumFrom (i + 1) es from rfl] at h
    rcases List.mem_cons.mp h with rfl | h'
    · refine ⟨le_refl i, by simp, ?_⟩
      simp
    · obtain ⟨h1, h2, h3⟩ := ih (i + 1) ke h'
      refine ⟨by omega, by simp; omega, ?_⟩
      have hidx : ke.1 - i = (ke.1 - (i + 1)) + 1 := by omega
      rw [hidx, List.getD_cons_succ]
      exact h3

theorem enumFrom_filter_snd {α : Type} (p : α → Bool) :
    ∀ (es : List α) (i : Nat),
    ((List.enumFrom i es).filter (fun ke => p ke.2)).map (fun ke => ke.2) = es.filter p := by
  intro es
  induction es with
  | nil => intro i; rfl
  | cons e es ih =>
    intro i
    rw [show List.enumFrom i (e :: es) = (i, e) :: List.enumFrom (i + 1) es from rfl]
    by_cases hp : p e = true
    · rw [List.filter_cons_of_pos (by simpa using hp), List.filter_cons_of_pos hp,
        List.map_cons, ih (i + 1)]
    · rw [List.filter_cons_of_neg (by simpa using hp), List.filter_cons_of_neg hp,
        ih (i + 1)]

theorem zip3_length : ∀ (rs cs : List Int) (as2 : List ℚ),
    rs.length = as2.length → cs.length = as2.length →
    (zip3 rs cs as2).length = as2.length := by
  intro rs
  induction rs with
  | nil =>
    intro cs as2 h1 _
    cases as2 with
    | nil => rfl
    | cons a t => simp at h1
  | cons r rs ih =>
    intro cs as2 h1 h2
    cases as2 with
    | nil => simp at h1
    | cons a t =>
      cases cs with
      | nil => simp at h2
      | cons c cs =>
        show (zip3 (r :: rs) (c :: cs) (a :: t)).length = t.length + 1
        rw [show zip3 (r :: rs) (c :: cs) (a :: t) = (r, c, a) :: zip3 rs cs t from rfl]
        rw [List.length_cons, ih cs t (by simpa using h1) (by simpa using h2)]

theorem zip3_getD : ∀ (rs cs : List Int) (as2 : List ℚ) (k : Nat),
    k < (zip3 rs cs as2).length →
    (zip3 rs cs as2).getD k (0, 0, 0) = (rs.getD k 0, cs.getD k 0, as2.getD k 0) := by
  intro rs
  induction rs with
  | nil =>
    intro cs as2 k h
    simp [zip3] at h
  | cons r rs ih =>
    intro cs as2 k h
    cases cs with
    | nil => simp [zip3] at h
    | cons c cs =>
      cases as2 with
      | nil => simp [zip3] at h
      | cons a t =>
        rw [show zip3 (r :: rs) (c :: cs) (a :: t) = (r, c, a) :: zip3 rs cs t from rfl] at h ⊢
        cases k with
        | zero => rfl
        | succ k =>
          rw [List.getD_cons_succ, List.getD_cons_succ, List.getD_cons_succ,
            List.getD_cons_succ]
          exact ih cs t k (by simpa using h)

end Ellspmv

namespace Ellspmv

/-- Projecting the three-buffer scatter onto its first two components: the
permutation scatter of the general branch is the same run without the value
buffer. -/
theorem scat_project (base : Nat → Int) :
    ∀ (ws : List (Nat × Int × ℚ)) (cur bufc : List Int) (bufa : List ℚ)
      (cur2 bufc2 : List Int) (bufa2 : List ℚ),
    efold (scatStep base) (cur, bufc, bufa) ws = .ok (cur2, bufc2, bufa2) →
    bufa.length = bufc.length →
    efold (fun (st : List Int × List Int) (w : Nat × Int × ℚ) => do
        let (cur, bufc) := st
        let c ← aget cur (w.1 : Int)
        let bufc ← aset bufc (base w.1 + c) w.2.1
        let cur ← aset cur (w.1 : Int) (c + 1)
        pure (cur, bufc)) (cur, bufc) ws = .ok (cur2, bufc2) := by
  intro ws
  induction ws with
  | nil =>
    intro cur bufc bufa cur2 bufc2 bufa2 h _
    cases h
    rfl
  | cons w ws ih =>
    intro cur bufc bufa cur2 bufc2 bufa2 h hab
    cases hget : aget cur (w.1 : Int) with
    | error err =>
      exfalso
      have hstep : scatStep base (cur, bufc, bufa) w = .error err := by
        show (do
          let c ← aget cur (w.1 : Int)
          let bufc2 ← aset bufc (base w.1 + c) w.2.1
          let bufa2 ← aset bufa (base w.1 + c) w.2.2
          let cur2 ← aset cur (w.1 : Int) (c + 1)
          pure (cur2, bufc2, bufa2)) = _
        rw [hget]
        rfl
      rw [efold_cons_error _ hstep] at h
      exact absurd h (by simp)
    | ok c =>
      cases hsetc : aset bufc (base w.1 + c) w.2.1 with
      | error err =>
        exfalso
        have hstep : scatStep base (cur, bufc, bufa) w = .error err := by
          show (do
            let c ← aget cur (w.1 : Int)
            let bufc2 ← aset bufc (base w.1 + c) w.2.1
            let bufa2 ← aset bufa (base w.1 + c) w.2.2
            let cur2 ← aset cur (w.1 : Int) (c + 1)
            pure (cur2, bufc2, bufa2)) = _
          rw [hget]
          simp only [cm_bind_ok]
          rw [hsetc]
          rfl
        rw [efold_cons_error _ hstep] at h
        exact absurd h (by simp)
      | ok bufc1 =>
        obtain ⟨hc0, hclt, rfl⟩ := aset_ok_elim hsetc
        have hseta : aset bufa (base w.1 + c) w.2.2 =
            .ok (bufa.set (base w.1 + c).toNat w.2.2) :=
          aset_eq_ok _ hc0 (by omega)
        cases hsetcur : aset cur (w.1 : Int) (c + 1) with
        | error err =>
          exfalso
          have hstep : scatStep base (cur, bufc, bufa) w = .error err := by
            show (do
              let c ← aget cur (w.1 : Int)
              let bufc2 ← aset bufc (base w.1 + c) w.2.1
              let bufa2 ← aset bufa (base w.1 + c) w.2.2
              let cur2 ← aset cur (w.1 : Int) (c + 1)
              pure (cur2, bufc2, bufa2)) = _
            rw [hget]
            simp only [cm_bind_ok]
            rw [hsetc]
            simp only [cm_bind_ok]
            rw [hseta]
            simp only [cm_bind_ok]
            rw [hsetcur]
            rfl
          rw [efold_cons_error _ hstep] at h
          exact absurd h (by simp)
        | ok cur1 =>
          have hstep3 : scatStep base (cur, bufc, bufa) w =
              .ok (cur1, bufc.set (base w.1 + c).toNat w.2.1,
                bufa.set (base w.1 + c).toNat w.2.2) := by
            show (do
              let c ← aget cur (w.1 : Int)
              let bufc2 ← aset bufc (base w.1 + c) w.2.1
              let bufa2 ← aset bufa (base w.1 + c) w.2.2
              let cur2 ← aset cur (w.1 : Int) (c + 1)
              pure (cur2, bufc2, bufa2)) = _
            rw [hget]
            simp only [cm_bind_ok]
            rw [hsetc]
            simp only [cm_bind_ok]
            rw [hseta]
            simp only [cm_bind_ok]
            rw [hsetcur]
            rfl
          have hstep2 : (fun (st : List Int × List Int) (w : Nat × Int × ℚ) => do
              let (cur, bufc) := st
              let c ← aget cur (w.1 : Int)
              let bufc ← aset bufc (base w.1 + c) w.2.1
              let cur ← aset cur (w.1 : Int) (c + 1)
              pure (cur, bufc)) (cur, bufc) w =
              .ok (cur1, bufc.set (base w.1 + c).toNat w.2.1) := by
            show (do
              let c ← aget cur (w.1 : Int)
              let bufc2 ← aset bufc (base w.1 + c) w.2.1
              let cur2 ← aset cur (w.1 : Int) (c + 1)
              pure (cur2, bufc2)) = _
            rw [hget]
            simp only [cm_bind_ok]
            rw [hsetc]
            simp only [cm_bind_ok]
            rw [hsetcur]
            rfl
          rw [efold_cons_ok _ hstep3] at h
          refine Eq.trans (efold_cons_ok ws ?_)
            (ih _ _ _ _ _ _ h (by rw [List.length_set, List.length_set]; exact hab))
          exact hstep2

end Ellspmv

namespace Ellspmv

/-- One step of the permutation scatter is the projected generic scatter of
its single write. -/
theorem perm_step_eq (p q : List Int) (ke : Nat × (Int × Int × ℚ)) (h1 : 1 ≤ ke.2.1) :
    csrPermStep (p, q) ke =
    efold (fun (st : List Int × List Int) (w : Nat × Int × ℚ) => do
        let (cur, bufc) := st
        let c ← aget cur (w.1 : Int)
        let bufc ← aset bufc ((fun _ : Nat => (0 : Int)) w.1 + c) w.2.1
        let cur ← aset cur (w.1 : Int) (c + 1)
        pure (cur, bufc)) (p, q) (genWrites ke) := by
  obtain ⟨k, ri, ci, av⟩ := ke
  have h1' : 1 ≤ ri := h1
  have ht1 : (((ri - 1).toNat : Nat) : Int) = ri - 1 := by omega
  have ht1' : ((ri.toNat - 1 : Nat) : Int) = ri - 1 := by omega
  simp [csrPermStep, genWrites, efold_cons_bind, cm_bind_assoc, ht1, ht1']

/-- The gather loop of the general branch: every position in `[s, s+cnt)`
receives the column (minus one) and value of the entry its permutation slot
points to; other positions are untouched. -/
theorem gatherfold_spec (perm colidx : List Int) (a : List ℚ) :
    ∀ (cnt s : Nat) (ccol : List Int) (ca : List ℚ),
    s + cnt ≤ ccol.length → ca.length = ccol.length →
    (∀ k, s ≤ k → k < s + cnt → k < perm.length ∧ 0 ≤ perm.getD k 0 ∧
      (perm.getD k 0).toNat < colidx.length ∧ (perm.getD k 0).toNat < a.length) →
    ∃ ccolF caF,
      efold (csrGatherStep perm colidx a) (ccol, ca) (List.range' s cnt) = .ok (ccolF, caF) ∧
      ccolF.length = ccol.length ∧ caF.length = ca.length ∧
      (∀ k, k < ccol.length →
        ccolF.getD k 0 = if s ≤ k ∧ k < s + cnt then
          colidx.getD (perm.getD k 0).toNat 0 - 1 else ccol.getD k 0) ∧
      (∀ k, k < ca.length →
        caF.getD k 0 = if s ≤ k ∧ k < s + cnt then
          a.getD (perm.getD k 0).toNat 0 else ca.getD k 0) := by
  intro cnt
  induction cnt with
  | zero =>
    intro s ccol ca hlen hab hk
    refine ⟨ccol, ca, rfl, rfl, rfl, ?_, ?_⟩
    · intro k hklen
      rw [if_neg (by omega)]
    · intro k hklen
      rw [if_neg (by omega)]
  | succ cnt ih =>
    intro s ccol ca hlen hab hk
    have hks := hk s (le_refl s) (by omega)
    have hgetp : aget perm ((s : Nat) : Int) = .ok (perm.getD s 0) := by
      rw [aget_eq_getD 0 (by positivity) (by rw [show ((s : Nat) : Int).toNat = s by omega]; exact hks.1)]
      rw [show ((s : Nat) : Int).toNat = s by omega]
    have hgetc : aget colidx (perm.getD s 0) = .ok (colidx.getD (perm.getD s 0).toNat 0) :=
      aget_eq_getD 0 hks.2.1 hks.2.2.1
    have hgeta : aget a (perm.getD s 0) = .ok (a.getD (perm.getD s 0).toNat 0) :=
      aget_eq_getD 0 hks.2.1 hks.2.2.2
    have hsetc : aset ccol ((s : Nat) : Int) (colidx.getD (perm.getD s 0).toNat 0 - 1) =
        .ok (ccol.set s (colidx.getD (perm.getD s 0).toNat 0 - 1)) := by
      rw [aset_eq_ok _ (by positivity) (by rw [show ((s : Nat) : Int).toNat = s by omega]; omega)]
      rw [show ((s : Nat) : Int).toNat = s by omega]
    have hseta : aset ca ((s : Nat) : Int) (a.getD (perm.getD s 0).toNat 0) =
        .ok (ca.set s (a.getD (perm.getD s 0).toNat 0)) := by
      rw [aset_eq_ok _ (by positivity) (by rw [show ((s : Nat) : Int).toNat = s by omega]; omega)]
      rw [show ((s : Nat) : Int).toNat = s by omega]
    have hstep : csrGatherStep perm colidx a (ccol, ca) s =
        .ok (ccol.set s (colidx.getD (perm.getD s 0).toNat 0 - 1),
          ca.set s (a.getD (perm.getD s 0).toNat 0)) := by
      show (do
        let pk ← aget perm ((s : Nat) : Int)
        let cj ← aget colidx pk
        let av ← aget a pk
        let ccol2 ← aset ccol ((s : Nat) : Int) (cj - 1)
        let ca2 ← aset ca ((s : Nat) : Int) av
        pure (ccol2, ca2)) = _
      rw [hgetp]
      simp only [cm_bind_ok]
      rw [hgetc]
      simp only [cm_bind_ok]
      rw [hgeta]
      simp only [cm_bind_ok]
      rw [hsetc]
      simp only [cm_bind_ok]
      rw [hseta]
      simp only [cm_bind_ok]
      rfl
    obtain ⟨ccolF, caF, hfold, hl1, hl2, hc, hA⟩ :=
      ih (s + 1) (ccol.set s (colidx.getD (perm.getD s 0).toNat 0 - 1))
        (ca.set s (a.getD (perm.getD s 0).toNat 0))
        (by rw [List.length_set]; omega)
        (by rw [List.length_set, List.length_set]; exact hab)
        (by
          intro k hk1 hk2
          exact hk k (by omega) (by omega))
    refine ⟨ccolF, caF, ?_, ?_, ?_, ?_, ?_⟩
    · rw [List.range'_succ]
      refine Eq.trans (efold_cons_ok _ ?_) hfold
      exact hstep
    · rw [hl1, List.length_set]
    · rw [hl2, List.length_set]
    · intro k hklen
      rw [hc k (by rw [List.length_set]; omega)]
      by_cases hkeq : k = s
      · subst hkeq
        rw [if_neg (by omega), if_pos (by omega)]
        rw [List.getD_eq_getElem _ _ (by rw [List.length_set]; omega), List.getElem_set,
          if_pos rfl]
      · by_cases hkin : s + 1 ≤ k ∧ k < s + 1 + cnt
        · rw [if_pos hkin, if_pos (by omega)]
        · rw [if_neg hkin, if_neg (by omega)]
          rw [List.getD_eq_getElem _ _ (by rw [List.length_set]; omega), List.getElem_set,
            if_neg (by omega)]
          exact (List.getD_eq_getElem _ _ (by omega)).symm
    · intro k hklen
      rw [hA k (by rw [List.length_set]; omega)]
      by_cases hkeq : k = s
      · subst hkeq
        rw [if_neg (by omega), if_pos (by omega)]
        rw [List.getD_eq_getElem _ _ (by rw [List.length_set]; omega), List.getElem_set,
          if_pos rfl]
      · by_cases hkin : s + 1 ≤ k ∧ k < s + 1 + cnt
        · rw [if_pos hkin, if_pos (by omega)]
        · rw [if_neg hkin, if_neg (by omega)]
          rw [List.getD_eq_getElem _ _ (by rw [List.length_set]; omega), List.getElem_set,
            if_neg (by omega)]
          exact (List.getD_eq_getElem _ _ (by omega)).symm

end Ellspmv

namespace Ellspmv

theorem get_eq_getD {α : Type} (l : List α) (d : α) (t : Nat) (h : t < l.length) :
    l.get ⟨t, h⟩ = l.getD t d := by
  rw [List.getD_eq_getElem l d h]
  rfl

theorem get_map_getD {α β : Type} (f : α → β) (l : List α) (d : α) (t : Nat)
    (h : t < (l.map f).length) :
    (l.map f).get ⟨t, h⟩ = f (l.getD t d) := by
  have hl : t < l.length := by simpa using h
  rw [List.getD_eq_getElem l d hl]
  rw [List.get_eq_getElem, List.getElem_map]

theorem getD_map_getD {α β : Type} (f : α → β) (l : List α) (d : α) (d2 : β) (t : Nat)
    (h : t < l.length) : (l.map f).getD t d2 = f (l.getD t d) := by
  rw [List.getD_eq_getElem _ _ (by simpa using h), List.getElem_map,
    List.getD_eq_getElem _ _ h]

theorem gw_filter_map (r : Nat) :
    ∀ (l : List (Nat × (Int × Int × ℚ))), (∀ ke ∈ l, 1 ≤ ke.2.1) →
    (((l.map genWrites).flatten.filter (fun x => x.1 = r)).map (fun x => x.2)) =
      (l.filter (fun ke => ke.2.1 = (r : Int) + 1)).map
        (fun ke => (((ke.1 : Nat) : Int), (0 : ℚ))) := by
  intro l
  induction l with
  | nil => intro _; rfl
  | cons ke l ih =>
    intro hb
    have hbke := hb ke (List.mem_cons_self ke l)
    rw [List.map_cons, List.flatten_cons]
    show ((genWrites ke ++ (l.map genWrites).flatten).filter
      (fun x => x.1 = r)).map (fun x => x.2) = _
    rw [List.filter_append, List.map_append,
      ih (fun x hx => hb x (List.mem_cons_of_mem _ hx))]
    by_cases hrow : ke.2.1 = (r : Int) + 1
    · rw [List.filter_cons_of_pos (by simp only [decide_eq_true_eq]; exact hrow)]
      have : (genWrites ke).filter (fun x => x.1 = r) = genWrites ke := by
        unfold genWrites
        rw [List.filter_cons_of_pos (by simp only [decide_eq_true_eq]; omega)]
        rfl
      rw [this]
      rfl
    · rw [List.filter_cons_of_neg (by simp only [decide_eq_true_eq]; exact hrow)]
      have : (genWrites ke).filter (fun x => x.1 = r) = [] := by
        unfold genWrites
        rw [List.filter_cons_of_neg (by simp only [decide_eq_true_eq]; omega)]
        rfl
      rw [this]
      rfl

/-- The general (permutation bucket-scatter plus gather) branch of
`csr_from_coo`, run on the size-pass outputs: it succeeds with no bounds
checking of the column indices, the shift restores the size-pass row
pointers, and each row's slice holds that row's entries (0-based column and
value) in input order. -/
theorem csr_fill_general_spec (symmetry : Mtxsymmetry) (n nc : Nat)
    (rowidx colidx : List Int) (a : List ℚ) (csrsize rmin rmax : Int) (cad0 : List ℚ)
    (sep : Bool)
    (hc1 : ¬(n = nc ∧ symmetry = Mtxsymmetry.symmetric ∧ sep = true))
    (hc2 : ¬(n = nc ∧ symmetry = Mtxsymmetry.symmetric ∧ sep = false))
    (hc3 : ¬(n = nc ∧ sep = true))
    (hlr : rowidx.length = a.length) (hlc : colidx.length = a.length)
    (hrows : ∀ e ∈ zip3 rowidx colidx a, 1 ≤ e.1 ∧ e.1 ≤ (n : Int)) :
    ∃ ccol ca,
      csr_from_coo symmetry n nc rowidx colidx a
        (0 :: psumFrom 0 (cntRows n (((zip3 rowidx colidx a).map allBumps).flatten)))
        csrsize rmin rmax
        (List.replicate
          (prefCount (((zip3 rowidx colidx a).map allBumps).flatten) n).toNat 0)
        (List.replicate
          (prefCount (((zip3 rowidx colidx a).map allBumps).flatten) n).toNat 0)
        cad0 sep false =
      .ok { rowptr :=
              0 :: psumFrom 0 (cntRows n (((zip3 rowidx colidx a).map allBumps).flatten)),
            colidx := ccol, a := ca, ad := cad0 } ∧
      ccol.length = (prefCount (((zip3 rowidx colidx a).map allBumps).flatten) n).toNat ∧
      ca.length = (prefCount (((zip3 rowidx colidx a).map allBumps).flatten) n).toNat ∧
      (∀ r, r < n →
        lsub ccol ca (prefCount (((zip3 rowidx colidx a).map allBumps).flatten) r)
          (rowEntries (zip3 rowidx colidx a) ((r : Int) + 1))) := by
  set es : List (Int × Int × ℚ) := zip3 rowidx colidx a with hes
  set bumps : List Int := (es.map allBumps).flatten with hbumps
  set L : Nat := (prefCount bumps n).toNat with hL
  have hlen_es : es.length = a.length := zip3_length _ _ _ hlr hlc
  have hbumps_len : bumps.length = es.length := by
    rw [hbumps, show es.map allBumps = es.map (fun e => [e.1]) from rfl,
      flatten_map_singleton, List.length_map]
  have hbf : ∀ b ∈ bumps, 1 ≤ b ∧ b ≤ (n : Int) := by
    rw [hbumps]
    refine flatten_bumps_bound ?_
    intro e he b hb
    unfold allBumps at hb
    simp only [List.mem_cons, List.not_mem_nil, or_false] at hb
    subst hb
    exact hrows e he
  have hcount0 : bumps.count (0 : Int) = 0 := by
    rw [List.count_eq_zero]
    intro hmem
    have := hbf 0 hmem
    omega
  have htot : prefCount bumps n = (bumps.length : Int) := prefCount_total bumps n hbf
  have hnnzL : es.length = L := by
    rw [hL]
    omega
  have hmem_enum : ∀ ke ∈ es.enum, ke.1 < es.length ∧
      ke.2 = es.getD ke.1 ((0 : Int), (0 : Int), (0 : ℚ)) := by
    intro ke hke
    have := mem_enumFrom_getD ((0 : Int), (0 : Int), (0 : ℚ)) es 0 ke hke
    rw [Nat.sub_zero] at this
    exact ⟨this.2.1, this.2.2⟩
  have hmem_snd : ∀ ke ∈ es.enum, ke.2 ∈ es := by
    intro ke hke
    obtain ⟨h1, h2⟩ := hmem_enum ke hke
    rw [h2, List.getD_eq_getElem _ _ h1]
    exact List.get_mem es ke.1 h1
  have hbumps_enum : ((es.enum.map (fun ke => allBumps ke.2)).flatten) = bumps := by
    rw [show es.enum.map (fun ke => allBumps ke.2) =
      (es.enum.map Prod.snd).map allBumps by rw [List.map_map]; rfl]
    rw [List.enum_map_snd]
  have hcore := csr_scatter_core n es.enum genWrites (fun ke => allBumps ke.2)
    (by
      intro ke hke
      have hb := hrows ke.2 (hmem_snd ke hke)
      unfold genWrites allBumps
      show [(((ke.2.1 - 1).toNat : Nat) : Int) + 1] = [ke.2.1]
      rw [show (((ke.2.1 - 1).toNat : Nat) : Int) + 1 = ke.2.1 by omega])
    (by
      intro ke hke b hb
      unfold allBumps at hb
      simp only [List.mem_cons, List.not_mem_nil, or_false] at hb
      subst hb
      exact hrows ke.2 (hmem_snd ke hke))
  rw [hbumps_enum] at hcore
  obtain ⟨cur2, perm2, dummy2, hscat, hc2len, hp2len, hd2len, htake, hsubp⟩ := hcore
  have hproj := scat_project (fun _ => 0) ((es.enum.map genWrites).flatten)
    (0 :: psumFrom 0 (cntRows n bumps)) (List.replicate L 0) (List.replicate L 0)
    cur2 perm2 dummy2 hscat (by simp)
  have hpermfold : efold csrPermStep
      ((0 : Int) :: psumFrom 0 (cntRows n bumps), List.replicate L (0 : Int))
      es.enum = .ok (cur2, perm2) := by
    refine Eq.trans (efold_entrywise_mem es.enum ?_ _) hproj
    intro s ke hke
    exact perm_step_eq s.1 s.2 ke (hrows ke.2 (hmem_snd ke hke)).1
  have hseg : ∀ r : Nat,
      ((((es.enum.map genWrites).flatten).filter (fun x => x.1 = r)).map (fun x => x.2)) =
      (es.enum.filter (fun ke => ke.2.1 = (r : Int) + 1)).map
        (fun ke => (((ke.1 : Nat) : Int), (0 : ℚ))) := by
    intro r
    exact gw_filter_map r es.enum (fun ke hke => (hrows ke.2 (hmem_snd ke hke)).1)
  have hflsnd : ∀ r : Nat,
      ((es.enum.filter (fun ke => ke.2.1 = (r : Int) + 1)).map (fun ke => ke.2)) =
      es.filter (fun e => e.1 = (r : Int) + 1) :=
    fun r => enumFrom_filter_snd (fun e => e.1 = (r : Int) + 1) es 0
  -- the permutation slots of row r hold the indices of that row's entries
  have hpermval : ∀ r : Nat, r < n → ∀ t : Nat,
      t < ((es.enum.filter (fun ke => ke.2.1 = (r : Int) + 1))).length →
      aget perm2 (prefCount bumps r + (t : Int)) =
        .ok ((((es.enum.filter (fun ke => ke.2.1 = (r : Int) + 1)).getD t
          (0, (0 : Int), (0 : Int), (0 : ℚ))).1 : Int)) := by
    intro r hr t ht
    have hs := hsubp r hr
    rw [hseg r] at hs
    have ht' : t < ((es.enum.filter (fun ke => ke.2.1 = (r : Int) + 1)).map
        (fun ke => (((ke.1 : Nat) : Int), (0 : ℚ)))).length := by
      rw [List.length_map]
      exact ht
    have hv := (hs t ht').1
    rw [hv]
    congr 1
    rw [get_map_getD (fun ke => (((ke.1 : Nat) : Int), (0 : ℚ))) _
      (0, (0 : Int), (0 : Int), (0 : ℚ)) t ht']
  have hflenq : ∀ r : Nat,
      ((es.enum.filter (fun ke => ke.2.1 = (r : Int) + 1))).length =
        bumps.count ((r : Int) + 1) := by
    intro r
    have h1 := congrArg List.length (hflsnd r)
    rw [List.length_map] at h1
    rw [h1, hbumps, count_flatten_allBumps]
  have hmemfilter : ∀ (r : Nat) (t : Nat),
      t < ((es.enum.filter (fun ke => ke.2.1 = (r : Int) + 1))).length →
      ((es.enum.filter (fun ke => ke.2.1 = (r : Int) + 1)).getD t
        (0, (0 : Int), (0 : Int), (0 : ℚ))) ∈ es.enum := by
    intro r t ht
    refine @List.mem_of_mem_filter _
      (fun ke => decide (ke.2.1 = (r : Int) + 1)) _ es.enum ?_
    rw [List.getD_eq_getElem _ _ ht]
    exact List.get_mem _ t ht
  obtain ⟨ccolF, caF, hgather, hgl1, hgl2, hgc, hga⟩ :=
    gatherfold_spec perm2 colidx a L 0 (List.replicate L 0) (List.replicate L 0)
      (by simp) (by simp)
      (by
        intro k hk0 hkL
        simp only [Nat.zero_add] at hkL
        have hkI : (0 : Int) ≤ (k : Int) ∧ (k : Int) < prefCount bumps n := by
          constructor
          · positivity
          · omega
        obtain ⟨r, hr, hge, hlt⟩ := prefCount_localize bumps
          (by rw [prefCount_zero]; rw [hcount0]; rfl) n (k : Int) hkI.1 hkI.2
        set t : Nat := ((k : Int) - prefCount bumps r).toNat with htdef
        have htI : (k : Int) = prefCount bumps r + (t : Int) := by
          rw [htdef]
          omega
        have hcnt : prefCount bumps (r + 1) = prefCount bumps r +
            (bumps.count ((r : Int) + 1) : Int) := prefCount_succ bumps r
        have htlen : t < ((es.enum.filter (fun ke => ke.2.1 = (r : Int) + 1))).length := by
          rw [hflenq r]
          omega
        have hval := hpermval r hr t htlen
        rw [show prefCount bumps r + (t : Int) = ((k : Nat) : Int) by omega] at hval
        obtain ⟨_, hklt, hvv⟩ := aget_ok_elim hval
        set ke := (es.enum.filter (fun ke => ke.2.1 = (r : Int) + 1)).getD t
          (0, (0 : Int), (0 : Int), (0 : ℚ)) with hkedef
        have hkemem : ke ∈ es.enum := hmemfilter r t htlen
        have hkelt : ke.1 < es.length := (hmem_enum ke hkemem).1
        have hgetD : perm2.getD ((k : Nat)) 0 = ((ke.1 : Nat) : Int) := by
          rw [List.getD_eq_getElem _ _ (by rw [hp2len]; omega)]
          exact hvv.symm
        refine ⟨by omega, ?_, ?_, ?_⟩
        · rw [hgetD]
          positivity
        · rw [hgetD, Int.toNat_natCast]
          omega
        · rw [hgetD, Int.toNat_natCast]
          omega)
  refine ⟨ccolF, caF, ?_, ?_, ?_, ?_⟩
  · have hnnzL2 : (zip3 rowidx colidx a).length = L := hnnzL
    unfold csr_from_coo
    rw [if_neg hc1, if_neg hc2, if_neg hc3]
    show ((do
      let st ← efold csrPermStep
        ((0 : Int) :: psumFrom 0 (cntRows n bumps),
          List.replicate (zip3 rowidx colidx a).length (0 : Int))
        (zip3 rowidx colidx a).enum
      let (rp, perm) := st
      let rp ← csrShift n rp
      let st2 ← efold (csrGatherStep perm colidx a)
        (List.replicate L (0 : Int), List.replicate L (0 : ℚ))
        (List.range (zip3 rowidx colidx a).length)
      let (ccol, ca) := st2
      let st3 ← (pure (rp, ccol, ca, cad0) :
        CM (List Int × List Int × List ℚ × List ℚ))
      let (rp2, ccol2, ca2, cad2) := st3
      if (false : Bool) = true then do
        let pr ← rowsort n nc rp2 rmax ccol2 ca2
        let (ccol3, ca3) := pr
        pure { rowptr := rp2, colidx := ccol3, a := ca3, ad := cad2 }
      else pure { rowptr := rp2, colidx := ccol2, a := ca2, ad := cad2 }) : CM Csr) = _
    rw [hnnzL2]
    rw [hpermfold]
    simp only [cm_bind_ok]
    rw [csrShift_spec n cur2 hc2len]
    simp only [cm_bind_ok]
    rw [List.range_eq_range']
    rw [hgather]
    simp only [cm_bind_ok, cm_pure_eq]
    rw [if_neg (show ¬((false : Bool) = true) by simp)]
    rw [htake]
  · rw [hgl1, List.length_replicate]
  · rw [hgl2, List.length_replicate]
  · intro r hr
    intro t ht
    have htlen0 : t < (es.filter (fun e => e.1 = (r : Int) + 1)).length := by
      unfold rowEntries at ht
      rw [List.length_map] at ht
      exact ht
    have hflen2 : ((es.enum.filter (fun ke => ke.2.1 = (r : Int) + 1))).length =
        (es.filter (fun e => e.1 = (r : Int) + 1)).length := by
      have h1 := congrArg List.length (hflsnd r)
      rw [List.length_map] at h1
      exact h1
    have htlen : t < ((es.enum.filter (fun ke => ke.2.1 = (r : Int) + 1))).length := by
      omega
    set ke := (es.enum.filter (fun ke => ke.2.1 = (r : Int) + 1)).getD t
      (0, (0 : Int), (0 : Int), (0 : ℚ)) with hkedef
    have hkemem : ke ∈ es.enum := hmemfilter r t htlen
    have hkelt : ke.1 < es.length := (hmem_enum ke hkemem).1
    have hkeval : ke.2 = es.getD ke.1 ((0 : Int), (0 : Int), (0 : ℚ)) :=
      (hmem_enum ke hkemem).2
    have hkezip : ke.2 = (rowidx.getD ke.1 0, colidx.getD ke.1 0, a.getD ke.1 0) := by
      rw [hkeval, hes, zip3_getD _ _ _ _ (by rw [← hes]; exact hkelt)]
    have hfilgetD : (es.filter (fun e => e.1 = (r : Int) + 1)).getD t
        ((0 : Int), (0 : Int), (0 : ℚ)) = ke.2 := by
      rw [← hflsnd r, getD_map_getD (fun ke => ke.2) _
        (0, (0 : Int), (0 : Int), (0 : ℚ)) _ t htlen]
    have hcnt : prefCount bumps (r + 1) = prefCount bumps r +
        (bumps.count ((r : Int) + 1) : Int) := prefCount_succ bumps r
    have hflen3 := hflenq r
    have hmono := prefCount_le_of_le bumps (show r + 1 ≤ n by omega)
    have hnonneg := prefCount_nonneg bumps r
    have hposI : 0 ≤ prefCount bumps r + (t : Int) ∧
        prefCount bumps r + (t : Int) < prefCount bumps n := by
      constructor
      · positivity
      · omega
    have hposN : (prefCount bumps r + (t : Int)).toNat < L := by
      rw [hL]
      omega
    have hpermgetD : perm2.getD (prefCount bumps r + (t : Int)).toNat 0 =
        ((ke.1 : Nat) : Int) := by
      have hval := hpermval r hr t htlen
      obtain ⟨_, hklt, hvv⟩ := aget_ok_elim hval
      rw [List.getD_eq_getElem _ _ (by omega)]
      exact hvv.symm
    constructor
    · rw [aget_eq_getD 0 hposI.1 (by rw [hgl1, List.length_replicate]; omega)]
      rw [hgc _ (by rw [List.length_replicate]; omega)]
      rw [if_pos (by omega)]
      rw [hpermgetD, Int.toNat_natCast]
      rw [get_eq_getD (rowEntries es ((r : Int) + 1)) ((0 : Int), (0 : ℚ)) t ht]
      rw [show rowEntries es ((r : Int) + 1) =
        (es.filter (fun e => e.1 = (r : Int) + 1)).map
          (fun e => (e.2.1 - 1, e.2.2)) from rfl]
      rw [getD_map_getD _ _ ((0 : Int), (0 : Int), (0 : ℚ)) _ t htlen0]
      rw [hfilgetD, hkezip]
    · rw [aget_eq_getD 0 hposI.1 (by rw [hgl2, List.length_replicate]; omega)]
      rw [hga _ (by rw [List.length_replicate]; omega)]
      rw [if_pos (by omega)]
      rw [hpermgetD, Int.toNat_natCast]
      rw [get_eq_getD (rowEntries es ((r : Int) + 1)) ((0 : Int), (0 : ℚ)) t ht]
      rw [show rowEntries es ((r : Int) + 1) =
        (es.filter (fun e => e.1 = (r : Int) + 1)).map
          (fun e => (e.2.1 - 1, e.2.2)) from rfl]
      rw [getD_map_getD _ _ ((0 : Int), (0 : Int), (0 : ℚ)) _ t htlen0]
      rw [hfilgetD, hkezip]

end Ellspmv

namespace Ellspmv

/-- The row-pointer array produced by the size pass: length, zero head,
monotonicity, and total. -/
theorem rp0_invariants (n : Nat) (bumps : List Int) (hb0 : bumps.count (0 : Int) = 0) :
    (0 :: psumFrom 0 (cntRows n bumps)).length = n + 1 ∧
    (0 :: psumFrom 0 (cntRows n bumps)).getD 0 0 = 0 ∧
    (∀ q, q < n → (0 :: psumFrom 0 (cntRows n bumps)).getD q 0 ≤
      (0 :: psumFrom 0 (cntRows n bumps)).getD (q + 1) 0) ∧
    (0 :: psumFrom 0 (cntRows n bumps)).getD n 0 = prefCount bumps n := by
  refine ⟨by simp [cntRows], ?_, ?_, ?_⟩
  · rw [rowptr0_getD n bumps hb0 0 (by omega), prefCount_zero, hb0]
    rfl
  · intro q hq
    rw [rowptr0_getD n bumps hb0 q (by omega), rowptr0_getD n bumps hb0 (q + 1) (by omega)]
    exact prefCount_mono bumps q
  · exact rowptr0_getD n bumps hb0 n (le_refl n)

/-- If every row's slice of a buffer pair is characterized by `lsub` and the
slices tile the whole buffer, then a bound on the slice elements bounds every
entry of the buffer. -/
theorem lsub_range_bound (nc : Nat) (bufc : List Int) (bufa : List ℚ)
    (bumps : List Int) (n : Nat) (hb0 : bumps.count (0 : Int) = 0)
    (hlen : (bufc.length : Int) = prefCount bumps n)
    (seg : Nat → List (Int × ℚ))
    (hseglen : ∀ r, r < n → ((seg r).length : Int) = (bumps.count ((r : Int) + 1) : Int))
    (hsub : ∀ r, r < n → lsub bufc bufa (prefCount bumps r) (seg r))
    (hbound : ∀ r, r < n → ∀ p ∈ seg r, 0 ≤ p.1 ∧ p.1 < (nc : Int)) :
    ∀ k, k < bufc.length → 0 ≤ bufc.getD k 0 ∧ bufc.getD k 0 < (nc : Int) := by
  intro k hk
  have hb00 : prefCount bumps 0 = 0 := by
    rw [prefCount_zero, hb0]
    rfl
  obtain ⟨r, hr, hge, hlt⟩ := prefCount_localize bumps hb00 n (k : Int)
    (by positivity) (by omega)
  set t : Nat := ((k : Int) - prefCount bumps r).toNat with htdef
  have htI : (k : Int) = prefCount bumps r + (t : Int) := by
    rw [htdef]
    omega
  have hcnt := prefCount_succ bumps r
  have htlen : t < (seg r).length := by
    have := hseglen r hr
    omega
  have hval := (hsub r hr t htlen).1
  rw [show prefCount bumps r + (t : Int) = (k : Int) by omega] at hval
  obtain ⟨_, hklt, hvv⟩ := aget_ok_elim hval
  have hgd : bufc.getD k 0 = ((seg r).get ⟨t, htlen⟩).1 := by
    rw [List.getD_eq_getElem _ _ hk]
    exact hvv.symm
  rw [hgd]
  exact hbound r hr _ (List.get_mem _ t htlen)

theorem symWrites_col_bound (sep : Bool) (n : Nat) {rowidx colidx : List Int} {a : List ℚ}
    (hwf : COOWF n n rowidx colidx a) :
    ∀ w ∈ ((zip3 rowidx colidx a).map (symWrites sep)).flatten,
      0 ≤ w.2.1 ∧ w.2.1 < (n : Int) := by
  intro w hw
  rw [List.mem_flatten] at hw
  obtain ⟨l, hl, hwl⟩ := hw
  obtain ⟨e, he, rfl⟩ := List.mem_map.mp hl
  have hbe := hwf.2.2 e he
  unfold symWrites at hwl
  by_cases hne : e.1 ≠ e.2.1
  · rw [if_pos hne] at hwl
    simp only [List.mem_cons, List.not_mem_nil, or_false] at hwl
    rcases hwl with rfl | rfl
    · show 0 ≤ e.2.1 - 1 ∧ e.2.1 - 1 < (n : Int)
      omega
    · show 0 ≤ e.1 - 1 ∧ e.1 - 1 < (n : Int)
      omega
  · rw [if_neg hne] at hwl
    by_cases hsep : sep = false
    · rw [if_pos hsep] at hwl
      simp only [List.mem_cons, List.not_mem_nil, or_false] at hwl
      subst hwl
      show 0 ≤ e.2.1 - 1 ∧ e.2.1 - 1 < (n : Int)
      omega
    · rw [if_neg hsep] at hwl
      exact absurd hwl (List.not_mem_nil w)

theorem sepWrites_col_bound (n : Nat) {rowidx colidx : List Int} {a : List ℚ}
    (hwf : COOWF n n rowidx colidx a) :
    ∀ w ∈ ((zip3 rowidx colidx a).map sepWrites).flatten,
      0 ≤ w.2.1 ∧ w.2.1 < (n : Int) := by
  intro w hw
  rw [List.mem_flatten] at hw
  obtain ⟨l, hl, hwl⟩ := hw
  obtain ⟨e, he, rfl⟩ := List.mem_map.mp hl
  have hbe := hwf.2.2 e he
  unfold sepWrites at hwl
  by_cases hd : e.1 = e.2.1
  · rw [if_pos hd] at hwl
    exact absurd hwl (List.not_mem_nil w)
  · rw [if_neg hd] at hwl
    simp only [List.mem_cons, List.not_mem_nil, or_false] at hwl
    subst hwl
    show 0 ≤ e.2.1 - 1 ∧ e.2.1 - 1 < (n : Int)
    omega

theorem rowEntries_col_bound (n nc : Nat) {rowidx colidx : List Int} {a : List ℚ}
    (hwf : COOWF n nc rowidx colidx a) (r : Int) :
    ∀ p ∈ rowEntries (zip3 rowidx colidx a) r, 0 ≤ p.1 ∧ p.1 < (nc : Int) := by
  intro p hp
  unfold rowEntries at hp
  obtain ⟨e, he, rfl⟩ := List.mem_map.mp hp
  have hbe := hwf.2.2 e (List.mem_of_mem_filter he)
  show 0 ≤ e.2.1 - 1 ∧ e.2.1 - 1 < (nc : Int)
  omega

end Ellspmv

namespace Ellspmv

/-- C7 (amended): `csr_from_coo` performs no bounds checking and never
returns an error code for out-of-range column indices: whenever the row
indices are within `[1, num_rows]` (and the parallel arrays have one common
length), the general fill path succeeds, no matter what the column indices
are. -/
theorem C7_no_bounds_checking_amended (symmetry : Mtxsymmetry) (n nc : Nat)
    (rowidx colidx : List Int) (a : List ℚ) (csrsize rmin rmax : Int) (cad0 : List ℚ)
    (sep : Bool)
    (hc1 : ¬(n = nc ∧ symmetry = Mtxsymmetry.symmetric ∧ sep = true))
    (hc2 : ¬(n = nc ∧ symmetry = Mtxsymmetry.symmetric ∧ sep = false))
    (hc3 : ¬(n = nc ∧ sep = true))
    (hlr : rowidx.length = a.length) (hlc : colidx.length = a.length)
    (hrows : ∀ e ∈ zip3 rowidx colidx a, 1 ≤ e.1 ∧ e.1 ≤ (n : Int)) :
    ∃ csr : Csr,
      csr_from_coo symmetry n nc rowidx colidx a
        (0 :: psumFrom 0 (cntRows n (((zip3 rowidx colidx a).map allBumps).flatten)))
        csrsize rmin rmax
        (List.replicate
          (prefCount (((zip3 rowidx colidx a).map allBumps).flatten) n).toNat 0)
        (List.replicate
          (prefCount (((zip3 rowidx colidx a).map allBumps).flatten) n).toNat 0)
        cad0 sep false = .ok csr := by
  obtain ⟨ccol, ca, hrun, _⟩ := csr_fill_general_spec symmetry n nc rowidx colidx a
    csrsize rmin rmax cad0 sep hc1 hc2 hc3 hlr hlc hrows
  exact ⟨_, hrun⟩

theorem C7_no_bounds_checking_amended_witness :
    ∃ csr : Csr,
      csr_from_coo Mtxsymmetry.general 1 1 [1] [5] [2]
        (0 :: psumFrom 0 (cntRows 1 (((zip3 [1] [5] [2]).map allBumps).flatten)))
        1 1 1
        (List.replicate (prefCount (((zip3 [1] [5] [2]).map allBumps).flatten) 1).toNat 0)
        (List.replicate (prefCount (((zip3 [1] [5] [2]).map allBumps).flatten) 1).toNat 0)
        [] false false = .ok csr :=
  C7_no_bounds_checking_amended Mtxsymmetry.general 1 1 [1] [5] [2] 1 1 1 [] false
    (by decide) (by decide) (by decide) rfl rfl (by decide)

end Ellspmv

namespace Ellspmv

theorem seg_bound_of_writes (nc : Nat) (ws : List (Nat × Int × ℚ))
    (hw : ∀ w ∈ ws, 0 ≤ w.2.1 ∧ w.2.1 < (nc : Int)) (r : Nat) :
    ∀ p ∈ (ws.filter (fun x => x.1 = r)).map (fun x => x.2),
      0 ≤ p.1 ∧ p.1 < (nc : Int) := by
  intro p hp
  obtain ⟨w, hwmem, rfl⟩ := List.mem_map.mp hp
  exact hw w (List.mem_of_mem_filter hwmem)

/-- The conclusion of the structural-invariant claim for the runs that take
the general (permutation) path of `csr_from_coo`. -/
theorem C5_general_case (symmetry : Mtxsymmetry) (n nc : Nat)
    (rowidx colidx : List Int) (a : List ℚ) (sep : Bool)
    (hn : 0 < n) (hwf : COOWF n nc rowidx colidx a)
    (hc1 : ¬(n = nc ∧ symmetry = Mtxsymmetry.symmetric ∧ sep = true))
    (hc2 : ¬(n = nc ∧ symmetry = Mtxsymmetry.symmetric ∧ sep = false))
    (hc3 : ¬(n = nc ∧ sep = true)) :
    ∃ sz csr,
      csrPipeline symmetry n nc rowidx colidx a sep false = .ok (sz, csr) ∧
      csr.rowptr = sz.rowptr ∧
      csr.rowptr.length = n + 1 ∧
      csr.rowptr.getD 0 0 = 0 ∧
      (∀ q, q < n → csr.rowptr.getD q 0 ≤ csr.rowptr.getD (q + 1) 0) ∧
      csr.rowptr.getD n 0 = sz.csrsize ∧
      csr.colidx.length = sz.csrsize.toNat ∧
      (∀ k, k < csr.colidx.length →
        0 ≤ csr.colidx.getD k 0 ∧ csr.colidx.getD k 0 < (nc : Int)) := by
  have hb := allBumps_bound hwf
  have hbf := flatten_bumps_bound hb
  have hb0 : (((zip3 rowidx colidx a).map allBumps).flatten).count (0 : Int) = 0 := by
    rw [List.count_eq_zero]
    intro hmem
    have := hbf 0 hmem
    omega
  have hsize := csr_size_general_spec symmetry n nc rowidx colidx a sep hn hc1 hc2 hc3 hb
  obtain ⟨ccol, ca, hrun, hclen, hcalen, hsub⟩ :=
    csr_fill_general_spec symmetry n nc rowidx colidx a
      (prefCount (((zip3 rowidx colidx a).map allBumps).flatten) n)
      ((cntRows n (((zip3 rowidx colidx a).map allBumps).flatten)).foldl
        (fun acc v => if acc ≤ v then acc else v)
        (((((zip3 rowidx colidx a).map allBumps).flatten).count ((0 : Int) + 1) : Int)))
      ((cntRows n (((zip3 rowidx colidx a).map allBumps).flatten)).foldl
        (fun acc v => if acc ≥ v then acc else v) 0)
      (List.replicate ((0 : Int)).toNat 0) sep hc1 hc2 hc3 hwf.1 hwf.2.1
      (fun e he => ⟨(hwf.2.2 e he).1, (hwf.2.2 e he).2.1⟩)
  obtain ⟨hrpl, hrp0, hrpmono, hrpn⟩ :=
    rp0_invariants n (((zip3 rowidx colidx a).map allBumps).flatten) hb0
  refine ⟨{ rowptr := (0 :: psumFrom 0 (cntRows n (((zip3 rowidx colidx a).map allBumps).flatten))), csrsize := prefCount (((zip3 rowidx colidx a).map allBumps).flatten) n, rowsizemin := ((cntRows n (((zip3 rowidx colidx a).map allBumps).flatten)).foldl (fun acc v => if acc ≤ v then acc else v) ((((((zip3 rowidx colidx a).map allBumps).flatten).count ((0 : Int) + 1)) : Int))), rowsizemax := ((cntRows n (((zip3 rowidx colidx a).map allBumps).flatten)).foldl (fun acc v => if acc ≥ v then acc else v) 0), diagsize := 0 },
    { rowptr := (0 :: psumFrom 0 (cntRows n (((zip3 rowidx colidx a).map allBumps).flatten))), colidx := ccol, a := ca, ad := List.replicate ((0 : Int)).toNat 0 },
    ?_, rfl, hrpl, hrp0, hrpmono, hrpn, hclen, ?_⟩
  · unfold csrPipeline
    rw [hsize]
    simp only [cm_bind_ok]
    rw [hrun]
    simp only [cm_bind_ok, cm_pure_eq]
  · show ∀ k, k < ccol.length → 0 ≤ ccol.getD k 0 ∧ ccol.getD k 0 < (nc : Int)
    refine lsub_range_bound nc ccol ca (((zip3 rowidx colidx a).map allBumps).flatten) n hb0
      (by
        rw [hclen]
        exact Int.toNat_of_nonneg (prefCount_nonneg _ n))
      (fun r => rowEntries (zip3 rowidx colidx a) ((r : Int) + 1)) ?_ hsub ?_
    · intro r hr
      unfold rowEntries
      rw [List.length_map]
      rw [count_flatten_allBumps]
    · intro r hr
      exact rowEntries_col_bound n nc hwf ((r : Int) + 1)

end Ellspmv

namespace Ellspmv

/-- C5: for every well-formed COO input (any symmetry, with or without
diagonal separation, row sorting disabled), the size pass followed by the
fill pass completes, the in-place cursor mutation of the row pointers during
the scatter is exactly undone by the final shift (the returned `rowptr` IS
the size-pass array), `rowptr` has length `num_rows+1`, starts at `0`, is
monotonically nondecreasing, ends at `csrsize`, and every stored column
index lies in `[0, num_columns)`. -/
theorem C5_csr_structure_invariants (symmetry : Mtxsymmetry) (n nc : Nat)
    (rowidx colidx : List Int) (a : List ℚ) (sep : Bool)
    (hn : 0 < n) (hwf : COOWF n nc rowidx colidx a) :
    ∃ sz csr,
      csrPipeline symmetry n nc rowidx colidx a sep false = .ok (sz, csr) ∧
      csr.rowptr = sz.rowptr ∧
      csr.rowptr.length = n + 1 ∧
      csr.rowptr.getD 0 0 = 0 ∧
      (∀ q, q < n → csr.rowptr.getD q 0 ≤ csr.rowptr.getD (q + 1) 0) ∧
      csr.rowptr.getD n 0 = sz.csrsize ∧
      csr.colidx.length = sz.csrsize.toNat ∧
      (∀ k, k < csr.colidx.length →
        0 ≤ csr.colidx.getD k 0 ∧ csr.colidx.getD k 0 < (nc : Int)) := by
  cases symmetry with
  | symmetric =>
    by_cases hnc : n = nc
    · subst hnc
      cases sep with
      | true =>
        have hb := symSepBumps_bound hwf
        have hbf := flatten_bumps_bound hb
        have hb0 : ((((zip3 rowidx colidx a).map symSepBumps).flatten)).count (0 : Int) = 0 := by
          rw [List.count_eq_zero]
          intro hmem
          have := hbf 0 hmem
          omega
        have hsize := csr_size_symsep_spec n rowidx colidx a hn hb
        obtain ⟨ccol, ca, cad, hrun, hclen, hcalen, hcadlen, hsub⟩ :=
          csr_fill_symsep_spec n rowidx colidx a
            (prefCount (((zip3 rowidx colidx a).map symSepBumps).flatten) n)
            ((cntRows n (((zip3 rowidx colidx a).map symSepBumps).flatten)).foldl (fun acc v => if acc ≤ v then acc else v) ((((((zip3 rowidx colidx a).map symSepBumps).flatten).count ((0 : Int) + 1)) : Int)) + 1)
            ((cntRows n (((zip3 rowidx colidx a).map symSepBumps).flatten)).foldl (fun acc v => if acc ≥ v then acc else v) 0 + 1)
            (List.replicate ((n : Nat) : Int).toNat 0)
            (by rw [List.length_replicate]; omega) hwf
        obtain ⟨hrpl, hrp0, hrpmono, hrpn⟩ := rp0_invariants n (((zip3 rowidx colidx a).map symSepBumps).flatten) hb0
        have hwr := fun e he => symWrites_rows_sep e (hwf.2.2 e he).1 (hwf.2.2 e he).2.2.1
        have hW := wcount_of_rows (zip3 rowidx colidx a) (symWrites true) symSepBumps hwr
        refine ⟨{ rowptr := (0 :: psumFrom 0 (cntRows n (((zip3 rowidx colidx a).map symSepBumps).flatten))), csrsize := prefCount (((zip3 rowidx colidx a).map symSepBumps).flatten) n, rowsizemin := ((cntRows n (((zip3 rowidx colidx a).map symSepBumps).flatten)).foldl (fun acc v => if acc ≤ v then acc else v) ((((((zip3 rowidx colidx a).map symSepBumps).flatten).count ((0 : Int) + 1)) : Int)) + 1), rowsizemax := ((cntRows n (((zip3 rowidx colidx a).map symSepBumps).flatten)).foldl (fun acc v => if acc ≥ v then acc else v) 0 + 1), diagsize := (n : Int) },
          { rowptr := (0 :: psumFrom 0 (cntRows n (((zip3 rowidx colidx a).map symSepBumps).flatten))), colidx := ccol, a := ca, ad := cad },
          ?_, rfl, hrpl, hrp0, hrpmono, hrpn, hclen, ?_⟩
        · unfold csrPipeline
          rw [hsize]
          simp only [cm_bind_ok]
          rw [hrun]
          simp only [cm_bind_ok, cm_pure_eq]
        · show ∀ k, k < ccol.length → 0 ≤ ccol.getD k 0 ∧ ccol.getD k 0 < (n : Int)
          refine lsub_range_bound n ccol ca (((zip3 rowidx colidx a).map symSepBumps).flatten) n hb0
            (by rw [hclen]; exact Int.toNat_of_nonneg (prefCount_nonneg _ n))
            (fun r => (((((zip3 rowidx colidx a).map (symWrites true)).flatten).filter (fun x => x.1 = r)).map (fun x => x.2))) ?_ hsub ?_
          · intro r hr
            rw [List.length_map, hW r]
          · intro r hr
            exact seg_bound_of_writes n _ (symWrites_col_bound true n hwf) r
      | false =>
        have hb := symNoSepBumps_bound hwf
        have hbf := flatten_bumps_bound hb
        have hb0 : ((((zip3 rowidx colidx a).map symNoSepBumps).flatten)).count (0 : Int) = 0 := by
          rw [List.count_eq_zero]
          intro hmem
          have := hbf 0 hmem
          omega
        have hsize := csr_size_symnosep_spec n rowidx colidx a hn hb
        obtain ⟨ccol, ca, hrun, hclen, hcalen, hsub⟩ :=
          csr_fill_symnosep_spec n rowidx colidx a
            (prefCount (((zip3 rowidx colidx a).map symNoSepBumps).flatten) n)
            ((cntRows n (((zip3 rowidx colidx a).map symNoSepBumps).flatten)).foldl (fun acc v => if acc ≤ v then acc else v) ((((((zip3 rowidx colidx a).map symNoSepBumps).flatten).count ((0 : Int) + 1)) : Int)))
            ((cntRows n (((zip3 rowidx colidx a).map symNoSepBumps).flatten)).foldl (fun acc v => if acc ≥ v then acc else v) 0)
            (List.replicate ((0 : Int)).toNat 0) hwf
        obtain ⟨hrpl, hrp0, hrpmono, hrpn⟩ := rp0_invariants n (((zip3 rowidx colidx a).map symNoSepBumps).flatten) hb0
        have hwr := fun e he => symWrites_rows_nosep e (hwf.2.2 e he).1 (hwf.2.2 e he).2.2.1
        have hW := wcount_of_rows (zip3 rowidx colidx a) (symWrites false) symNoSepBumps hwr
        refine ⟨{ rowptr := (0 :: psumFrom 0 (cntRows n (((zip3 rowidx colidx a).map symNoSepBumps).flatten))), csrsize := prefCount (((zip3 rowidx colidx a).map symNoSepBumps).flatten) n, rowsizemin := ((cntRows n (((zip3 rowidx colidx a).map symNoSepBumps).flatten)).foldl (fun acc v => if acc ≤ v then acc else v) ((((((zip3 rowidx colidx a).map symNoSepBumps).flatten).count ((0 : Int) + 1)) : Int))), rowsizemax := ((cntRows n (((zip3 rowidx colidx a).map symNoSepBumps).flatten)).foldl (fun acc v => if acc ≥ v then acc else v) 0), diagsize := 0 },
          { rowptr := (0 :: psumFrom 0 (cntRows n (((zip3 rowidx colidx a).map symNoSepBumps).flatten))), colidx := ccol, a := ca, ad := List.replicate ((0 : Int)).toNat 0 },
          ?_, rfl, hrpl, hrp0, hrpmono, hrpn, hclen, ?_⟩
        · unfold csrPipeline
          rw [hsize]
          simp only [cm_bind_ok]
          rw [hrun]
          simp only [cm_bind_ok, cm_pure_eq]
        · show ∀ k, k < ccol.length → 0 ≤ ccol.getD k 0 ∧ ccol.getD k 0 < (n : Int)
          refine lsub_range_bound n ccol ca (((zip3 rowidx colidx a).map symNoSepBumps).flatten) n hb0
            (by rw [hclen]; exact Int.toNat_of_nonneg (prefCount_nonneg _ n))
            (fun r => (((((zip3 rowidx colidx a).map (symWrites false)).flatten).filter (fun x => x.1 = r)).map (fun x => x.2))) ?_ hsub ?_
          · intro r hr
            rw [List.length_map, hW r]
          · intro r hr
            exact seg_bound_of_writes n _ (symWrites_col_bound false n hwf) r
    · exact C5_general_case Mtxsymmetry.symmetric n nc rowidx colidx a sep hn hwf
        (fun hc => hnc hc.1) (fun hc => hnc hc.1) (fun hc => hnc hc.1)
  | general =>
    by_cases hsq : n = nc ∧ sep = true
    · obtain ⟨hnc, hsept⟩ := hsq
      subst hnc
      subst hsept
      have hb := sepBumps_bound hwf
      have hbf := flatten_bumps_bound hb
      have hb0 : ((((zip3 rowidx colidx a).map sepBumps).flatten)).count (0 : Int) = 0 := by
        rw [List.count_eq_zero]
        intro hmem
        have := hbf 0 hmem
        omega
      have hsize := csr_size_sep_spec n rowidx colidx a hn hb
      obtain ⟨ccol, ca, cad, hrun, hclen, hcalen, hcadlen, hsub⟩ :=
        csr_fill_sep_spec n rowidx colidx a
          (prefCount (((zip3 rowidx colidx a).map sepBumps).flatten) n)
          ((cntRows n (((zip3 rowidx colidx a).map sepBumps).flatten)).foldl (fun acc v => if acc ≤ v then acc else v) ((((((zip3 rowidx colidx a).map sepBumps).flatten).count ((0 : Int) + 1)) : Int)) + 1)
          ((cntRows n (((zip3 rowidx colidx a).map sepBumps).flatten)).foldl (fun acc v => if acc ≥ v then acc else v) 0 + 1)
          (List.replicate ((n : Nat) : Int).toNat 0)
          (by rw [List.length_replicate]; omega) hwf
      obtain ⟨hrpl, hrp0, hrpmono, hrpn⟩ := rp0_invariants n (((zip3 rowidx colidx a).map sepBumps).flatten) hb0
      have hwr := fun e he => sepWrites_rows e (hwf.2.2 e he).1
      have hW := wcount_of_rows (zip3 rowidx colidx a) sepWrites sepBumps hwr
      refine ⟨{ rowptr := (0 :: psumFrom 0 (cntRows n (((zip3 rowidx colidx a).map sepBumps).flatten))), csrsize := prefCount (((zip3 rowidx colidx a).map sepBumps).flatten) n, rowsizemin := ((cntRows n (((zip3 rowidx colidx a).map sepBumps).flatten)).foldl (fun acc v => if acc ≤ v then acc else v) ((((((zip3 rowidx colidx a).map sepBumps).flatten).count ((0 : Int) + 1)) : Int)) + 1), rowsizemax := ((cntRows n (((zip3 rowidx colidx a).map sepBumps).flatten)).foldl (fun acc v => if acc ≥ v then acc else v) 0 + 1), diagsize := (n : Int) },
        { rowptr := (0 :: psumFrom 0 (cntRows n (((zip3 rowidx colidx a).map sepBumps).flatten))), colidx := ccol, a := ca, ad := cad },
        ?_, rfl, hrpl, hrp0, hrpmono, hrpn, hclen, ?_⟩
      · unfold csrPipeline
        rw [hsize]
        simp only [cm_bind_ok]
        rw [hrun]
        simp only [cm_bind_ok, cm_pure_eq]
      · show ∀ k, k < ccol.length → 0 ≤ ccol.getD k 0 ∧ ccol.getD k 0 < (n : Int)
        refine lsub_range_bound n ccol ca (((zip3 rowidx colidx a).map sepBumps).flatten) n hb0
          (by rw [hclen]; exact Int.toNat_of_nonneg (prefCount_nonneg _ n))
          (fun r => (((((zip3 rowidx colidx a).map sepWrites).flatten).filter (fun x => x.1 = r)).map (fun x => x.2))) ?_ hsub ?_
        · intro r hr
          rw [List.length_map, hW r]
        · intro r hr
          exact seg_bound_of_writes n _ (sepWrites_col_bound n hwf) r
    · exact C5_general_case Mtxsymmetry.general n nc rowidx colidx a sep hn hwf
        (fun hc => (by simp at hc : False)) (fun hc => (by simp at hc : False)) hsq

end Ellspmv

namespace Ellspmv

/-- Witness: the structure invariants hold on a concrete 2x2 general matrix. -/
theorem C5_csr_structure_invariants_witness :
    ∃ sz csr,
      csrPipeline Mtxsymmetry.general 2 2 [1, 2] [2, 1] [3, 7] false false = .ok (sz, csr) ∧
      csr.rowptr = sz.rowptr ∧
      csr.rowptr.length = 2 + 1 ∧
      csr.rowptr.getD 0 0 = 0 ∧
      (∀ q, q < 2 → csr.rowptr.getD q 0 ≤ csr.rowptr.getD (q + 1) 0) ∧
      csr.rowptr.getD 2 0 = sz.csrsize ∧
      csr.colidx.length = sz.csrsize.toNat ∧
      (∀ k, k < csr.colidx.length →
        0 ≤ csr.colidx.getD k 0 ∧ csr.colidx.getD k 0 < ((2 : Nat) : Int)) :=
  C5_csr_structure_invariants Mtxsymmetry.general 2 2 [1, 2] [2, 1] [3, 7] false
    (by decide) ⟨rfl, rfl, by decide⟩

end Ellspmv


namespace Ellspmv

/-- The combined prefix-sum and max scan of `ell_from_coo_size`
(`src/ellspmv.c:938-944`). -/
theorem ellscanfold_spec {f : Int × List Int → Nat → CM (Int × List Int)}
    (hf : ∀ M rp (i : Nat), f (M, rp) i = do
      let v ← aget rp (i : Int)
      let vprev ← aget rp ((i : Int) - 1)
      let rp2 ← aset rp (i : Int) (v + vprev)
      pure (if M ≥ v then M else v, rp2)) :
    ∀ (cnt s : Nat) (xs : List Int) (M : Int), 1 ≤ s → s + cnt = xs.length →
    efold f (M, xs) (List.range' s cnt) =
      .ok ((xs.drop s).foldl (fun acc v => if acc ≥ v then acc else v) M,
           xs.take s ++ psumFrom (xs.getD (s - 1) 0) (xs.drop s)) := by
  intro cnt
  induction cnt with
  | zero =>
    intro s xs M hs hlen
    have : xs.drop s = [] := by
      apply List.drop_eq_nil_of_le
      omega
    rw [this]
    simp only [List.range', efold_nil, psumFrom_nil, List.foldl_nil, List.append_nil]
    rw [List.take_of_length_le (by omega)]
  | succ cnt ih =>
    intro s xs M hs hlen
    have hslt : s < xs.length := by omega
    have hs1 : (s : Int).toNat = s := by omega
    have hsp : ((s : Int) - 1).toNat = s - 1 := by omega
    have hsp_lt : s - 1 < xs.length := by omega
    have hget_s : aget xs (s : Int) = .ok (xs.getD s 0) := by
      rw [aget_eq_getD 0 (by positivity) (by rw [hs1]; exact hslt), hs1]
    have hget_sp : aget xs ((s : Int) - 1) = .ok (xs.getD (s - 1) 0) := by
      rw [aget_eq_getD 0 (by omega) (by rw [hsp]; exact hsp_lt), hsp]
    have hset : aset xs (s : Int) (xs.getD s 0 + xs.getD (s - 1) 0) =
        .ok (xs.set s (xs.getD s 0 + xs.getD (s - 1) 0)) := by
      rw [aset_eq_ok _ (by positivity) (by rw [hs1]; exact hslt), hs1]
    set v := xs.getD s 0 with hv
    set vprev := xs.getD (s - 1) 0 with hvprev
    set xs' := xs.set s (v + vprev) with hxs'
    have hstep : f (M, xs) s = .ok (if M ≥ v then M else v, xs') := by
      rw [hf]
      rw [hget_s, cm_bind_ok, hget_sp, cm_bind_ok, hset, cm_bind_ok, cm_pure_eq]
    rw [List.range'_succ, efold_cons_ok _ hstep]
    rw [ih (s + 1) xs' _ (by omega) (by simp [hxs']; omega)]
    have hdrop' : xs'.drop (s + 1) = xs.drop (s + 1) := drop_set_gt xs s (s + 1) _ (by omega)
    have hdrop : xs.drop s = v :: xs.drop (s + 1) := by
      rw [List.drop_eq_getElem_cons hslt]
      congr 1
      rw [hv, List.getD_eq_getElem _ _ hslt]
    have htake' : xs'.take (s + 1) = xs.take s ++ [v + vprev] := by
      rw [hxs', List.take_succ]
      rw [take_set_ge xs s s _ (le_refl s)]
      congr 1
      have hlt' : s < xs'.length := by simp [hxs']; exact hslt
      rw [List.getElem?_eq_getElem (by simpa [hxs'] using hslt)]
      simp [hxs', List.getElem_set]
    have hgetD' : xs'.getD ((s + 1) - 1) 0 = v + vprev := by
      simp only [Nat.add_sub_cancel]
      rw [hxs', List.getD_eq_getElem _ _ (by simpa using hslt)]
      simp [List.getElem_set]
    rw [hdrop, hdrop', htake', hgetD']
    simp only [List.foldl_cons, psumFrom_cons, List.append_assoc, List.singleton_append]
    rw [add_comm vprev v]

/-- `ell_from_coo_size` without diagonal separation: the row pointers are the
prefix sums of the per-row counts, `rowsize` is the maximum per-row count,
`ellsize = num_rows * rowsize`, and `diagsize = min(num_rows, num_columns)`. -/
theorem ell_size_spec (n nc : Nat) (rowidx colidx : List Int) (a : List ℚ)
    (hb : ∀ e ∈ zip3 rowidx colidx a, ∀ p ∈ allBumps e, 1 ≤ p ∧ p ≤ (n : Int)) :
    ell_from_coo_size n nc rowidx colidx a false =
      .ok { rowptr := 0 :: psumFrom 0
              (cntRows n (((zip3 rowidx colidx a).map allBumps).flatten)),
            ellsize := (n : Int) *
              ((cntRows n (((zip3 rowidx colidx a).map allBumps).flatten)).foldl
                (fun acc v => if acc ≥ v then acc else v) 0),
            rowsize :=
              (cntRows n (((zip3 rowidx colidx a).map allBumps).flatten)).foldl
                (fun acc v => if acc ≥ v then acc else v) 0,
            diagsize := if n < nc then (n : Int) else (nc : Int) } := by
  have hbf := flatten_bumps_bound hb
  have hcount0 : ((((zip3 rowidx colidx a).map allBumps).flatten).count (0 : Int) : Int) = 0 := by
    have : (((zip3 rowidx colidx a).map allBumps).flatten).count (0 : Int) = 0 := by
      rw [List.count_eq_zero]
      intro hmem
      have := hbf 0 hmem
      omega
    rw [this]
    rfl
  have hf : ∀ rp e, (fun (rp : List Int) (e : Int × Int × ℚ) =>
      if false = false ∨ e.1 ≠ e.2.1 then bump rp e.1 else pure rp) rp e =
      efold bump rp (allBumps e) := by
    intro rp e
    show (if false = false ∨ e.1 ≠ e.2.1 then bump rp e.1 else pure rp) = _
    rw [if_pos (Or.inl rfl), allBumps, efold_single]
  unfold ell_from_coo_size
  show (do
    let rowptr ← efold (fun (rp : List Int) (e : Int × Int × ℚ) =>
        if false = false ∨ e.1 ≠ e.2.1 then bump rp e.1 else pure rp)
      (List.replicate (n + 1) 0) (zip3 rowidx colidx a)
    let st ← efold (fun (st : Int × List Int) (i : Nat) => do
        let (rowmax, rp) := st
        let v ← aget rp (i : Int)
        let vprev ← aget rp ((i : Int) - 1)
        let rp ← aset rp (i : Int) (v + vprev)
        pure (if rowmax ≥ v then rowmax else v, rp))
      (0, rowptr) ((List.range n).map (fun i => i + 1))
    let (rowmax, rowptr) := st
    pure { rowptr := rowptr, ellsize := (n : Int) * rowmax, rowsize := rowmax,
           diagsize := if n < nc then (n : Int) else (nc : Int) } : CM EllSize) = _
  rw [countfold_eq_map_range hf (zip3 rowidx colidx a) n
    (by intro p hp; have := hbf p hp; omega)]
  simp only [cm_bind_ok]
  set R : List Int := (List.range (n + 1)).map
    (fun (q : Nat) => ((((zip3 rowidx colidx a).map allBumps).flatten).count (q : Int) : Int))
    with hR
  have hRlen : R.length = n + 1 := by simp [hR]
  have hrange : (List.range n).map (fun i => i + 1) = List.range' 1 n := by
    rw [List.range'_eq_map_range]
    apply List.map_congr_left
    intro i _
    omega
  have hdrop : R.drop 1 = cntRows n (((zip3 rowidx colidx a).map allBumps).flatten) :=
    mapRange_drop_one n _
  have htake : R.take 1 =
      [((((zip3 rowidx colidx a).map allBumps).flatten).count ((0 : Nat) : Int) : Int)] := by
    rw [hR, List.range_succ_eq_map, List.map_cons]
    rfl
  have hgetD0 : R.getD 0 0 =
      ((((zip3 rowidx colidx a).map allBumps).flatten).count ((0 : Nat) : Int) : Int) := by
    rw [hR, List.range_succ_eq_map, List.map_cons]
    rfl
  rw [hrange]
  rw [ellscanfold_spec (fun _ _ _ => rfl) n 1 R 0 (le_refl 1) (by omega)]
  simp only [cm_bind_ok, cm_pure_eq]
  rw [hdrop, htake, hgetD0]
  have hseed : ((((zip3 rowidx colidx a).map allBumps).flatten).count ((0 : Nat) : Int) : Int)
      = 0 := by simpa using hcount0
  rw [hseed]
  rfl

end Ellspmv


namespace Ellspmv

/-- The driver-style zero loop `for (i = s; i < s+m; i++) v[i] = c;` indexed
by `Nat` counters. -/
theorem natFillfold_spec {α : Type} (c : α) :
    ∀ (m s : Nat) (v : List α), s + m ≤ v.length →
    efold (fun v (i : Nat) => aset v (i : Int) c) v (List.range' s m) =
    .ok (v.take s ++ List.replicate m c ++ v.drop (s + m)) := by
  intro m
  induction m with
  | zero =>
    intro s v h
    show (Except.ok v : CM (List α)) = _
    rw [List.replicate_zero, List.append_nil, Nat.add_zero, List.take_append_drop]
  | succ m ih =>
    intro s v h
    have hts : ((s : Nat) : Int).toNat = s := by omega
    have hset : aset v (s : Int) c = .ok (v.set s c) := by
      rw [aset_eq_ok _ (by positivity) (by omega), hts]
    rw [List.range'_succ, efold_cons_ok _ hset]
    rw [ih (s + 1) (v.set s c) (by rw [List.length_set]; omega)]
    have htake : (v.set s c).take (s + 1) = v.take s ++ [c] := by
      rw [take_succ_getD (v.set s c) s c (by rw [List.length_set]; omega),
        take_set_ge _ _ _ _ (le_refl s)]
      congr 1
      rw [List.getD_eq_getElem _ _ (by rw [List.length_set]; omega), List.getElem_set]
      simp
    rw [htake, drop_set_gt _ _ _ _ (by omega)]
    have hidx : s + 1 + m = s + (m + 1) := by omega
    rw [hidx]
    simp [List.append_assoc, List.replicate_succ]

theorem intRange_split_aux : ∀ (k : Nat) (s m e : Int), m = s + (k : Int) → m ≤ e →
    intRange s e = intRange s m ++ intRange m e := by
  intro k
  induction k with
  | zero =>
    intro s m e hm _
    have hms : m = s := by omega
    subst hms
    rw [intRange_eq_nil (le_refl m), List.nil_append]
  | succ k ih =>
    intro s m e hm hme
    have hse : s < e := by omega
    have hsm : s < m := by omega
    rw [intRange_eq_cons hse, intRange_eq_cons hsm, List.cons_append]
    rw [ih (s + 1) m e (by omega) hme]

/-- Splitting an integer range at an interior point. -/
theorem intRange_split (s m e : Int) (h1 : s ≤ m) (h2 : m ≤ e) :
    intRange s e = intRange s m ++ intRange m e :=
  intRange_split_aux (m - s).toNat s m e (by omega) h2

/-- The writes of the no-separation ELLPACK scatter, restricted to one row,
are exactly the row's COO entries in order. -/
theorem allWrites_filter_map (r : Nat) : ∀ (es : List (Int × Int × ℚ)),
    (∀ e ∈ es, 1 ≤ e.1) →
    ((((es.map allWrites).flatten).filter (fun x => x.1 = r)).map (fun x => x.2)) =
    rowEntries es ((r : Int) + 1) := by
  intro es
  induction es with
  | nil => intro _; rfl
  | cons e es ih =>
    intro hrows
    have h1 : 1 ≤ e.1 := hrows e (List.mem_cons_self e es)
    rw [List.map_cons, List.flatten_cons, List.filter_append, List.map_append,
      ih (fun x hx => hrows x (List.mem_cons_of_mem _ hx))]
    unfold rowEntries
    by_cases hre : e.1 = (r : Int) + 1
    · rw [List.filter_cons_of_pos (by simp only [decide_eq_true_eq]; exact hre)]
      have hfl : (allWrites e).filter (fun x => x.1 = r) = allWrites e := by
        unfold allWrites
        rw [List.filter_cons_of_pos (by simp only [decide_eq_true_eq]; omega)]
        rfl
      rw [hfl]
      rfl
    · rw [List.filter_cons_of_neg (by simp only [decide_eq_true_eq]; exact hre)]
      have hfl : (allWrites e).filter (fun x => x.1 = r) = [] := by
        unfold allWrites
        rw [List.filter_cons_of_neg (by simp only [decide_eq_true_eq]; omega)]
        rfl
      rw [hfl]
      rfl

/-- The ELLPACK scatter run from zeroed per-row counts and zeroed buffers of
width `rowsize` per row: it succeeds, the final count array holds each row's
write count, and each row's writes are laid out from `r * rowsize`. -/
theorem ell_scatter_core (n : Nat) (rowsize : Int) (hrs0 : 0 ≤ rowsize)
    (es : List (Int × Int × ℚ))
    (hrows1 : ∀ e ∈ es, 1 ≤ e.1 ∧ e.1 ≤ (n : Int))
    (hcnt : ∀ r : Nat, r < n →
      ((((es.map allWrites).flatten).filter (fun x => x.1 = r)).length : Int) ≤ rowsize) :
    ∃ cur2 bufc2 bufa2,
      efold (scatStep (fun r => (r : Int) * rowsize))
        (List.replicate (n + 1) 0,
          List.replicate ((n : Int) * rowsize).toNat (0 : Int),
          List.replicate ((n : Int) * rowsize).toNat (0 : ℚ))
        ((es.map allWrites).flatten) = .ok (cur2, bufc2, bufa2) ∧
      cur2.length = n + 1 ∧
      bufc2.length = ((n : Int) * rowsize).toNat ∧
      bufa2.length = ((n : Int) * rowsize).toNat ∧
      (∀ r, r < n + 1 → cur2.getD r 0 =
        ((((es.map allWrites).flatten).filter (fun x => x.1 = r)).length : Int)) ∧
      (∀ r, r < n →
        lsub bufc2 bufa2 ((r : Int) * rowsize)
          ((((es.map allWrites).flatten).filter (fun x => x.1 = r)).map (fun x => x.2))) := by
  set ws : List (Nat × Int × ℚ) := (es.map allWrites).flatten with hws
  set W : Nat → Nat := fun r => ((ws.filter (fun x => x.1 = r)).length) with hW
  have hrowlt : ∀ w ∈ ws, w.1 < n := by
    intro w hw
    rw [hws, List.mem_flatten] at hw
    obtain ⟨l, hl, hwl⟩ := hw
    obtain ⟨e, he, rfl⟩ := List.mem_map.mp hl
    unfold allWrites at hwl
    simp only [List.mem_cons, List.not_mem_nil, or_false] at hwl
    subst hwl
    have := hrows1 e he
    show (e.1 - 1).toNat < n
    omega
  have hWn : W n = 0 := by
    rw [hW]
    simp only []
    rw [List.length_eq_zero]
    rw [List.filter_eq_nil_iff]
    intro w hw
    have := hrowlt w hw
    simp only [decide_eq_true_eq]
    omega
  set cur0 : List Int := List.replicate (n + 1) (0 : Int) with hcur0
  have hcur0len : cur0.length = n + 1 := by rw [hcur0, List.length_replicate]
  have hcur0getD : ∀ r : Nat, r < n + 1 → cur0.getD r 0 = 0 := by
    intro r hr
    rw [hcur0, List.getD_eq_getElem _ _ (by rw [List.length_replicate]; omega)]
    simp
  set L : Nat := ((n : Int) * rowsize).toNat with hL
  have hLcast : ((L : Nat) : Int) = (n : Int) * rowsize := by
    rw [hL]
    exact Int.toNat_of_nonneg (mul_nonneg (by positivity) hrs0)
  have hWr : ∀ r : Nat, r ≤ n →
      (r : Int) * rowsize + ((W r : Nat) : Int) ≤ (n : Int) * rowsize := by
    intro r hr
    by_cases hrn : r < n
    · have h2 := hcnt r hrn
      have hmul : ((r : Int) + 1) * rowsize ≤ (n : Int) * rowsize :=
        mul_le_mul_of_nonneg_right (by omega) hrs0
      have : ((W r : Nat) : Int) = ((ws.filter (fun x => x.1 = r)).length : Int) := rfl
      nlinarith
    · have : r = n := by omega
      subst this
      rw [hWn]
      simp
  have hbnd : ∀ r, r < cur0.length →
      0 ≤ (r : Int) * rowsize + cur0.getD r 0 ∧
      (r : Int) * rowsize + cur0.getD r 0 + ((ws.filter (fun x => x.1 = r)).length : Int) ≤
        ((List.replicate L (0 : Int)).length : Int) := by
    intro r hr
    rw [hcur0len] at hr
    rw [hcur0getD r hr, List.length_replicate, hLcast, add_zero]
    have h1 := hWr r (by omega)
    have h0 : 0 ≤ (r : Int) * rowsize := mul_nonneg (by positivity) hrs0
    have heq : ((W r : Nat) : Int) = ((ws.filter (fun x => x.1 = r)).length : Int) := rfl
    constructor
    · exact h0
    · omega
  have hblock : ∀ r r' : Nat, r < r' → r' ≤ n →
      (r : Int) * rowsize + ((ws.filter (fun x => x.1 = r)).length : Int) ≤
        (r' : Int) * rowsize := by
    intro r r' hlt hr'
    have h2 := hcnt r (by omega)
    have hmul : ((r : Int) + 1) * rowsize ≤ (r' : Int) * rowsize :=
      mul_le_mul_of_nonneg_right (by omega) hrs0
    nlinarith
  have hdisj : ∀ r r', r < cur0.length → r' < cur0.length → r ≠ r' →
      (r : Int) * rowsize + cur0.getD r 0 + ((ws.filter (fun x => x.1 = r)).length : Int) ≤
        (r' : Int) * rowsize + cur0.getD r' 0 ∨
      (r' : Int) * rowsize + cur0.getD r' 0 + ((ws.filter (fun x => x.1 = r')).length : Int) ≤
        (r : Int) * rowsize + cur0.getD r 0 := by
    intro r r' hr hr' hne
    rw [hcur0len] at hr hr'
    rw [hcur0getD r hr, hcur0getD r' hr', add_zero, add_zero]
    by_cases hlt : r < r'
    · exact Or.inl (hblock r r' hlt (by omega))
    · exact Or.inr (hblock r' r (by omega) (by omega))
  obtain ⟨cur2, bufc2, bufa2, hrun, hc2len, hb2len, ha2len, hcur2, hsub, _⟩ :=
    scatfold_spec (fun r => (r : Int) * rowsize) ws cur0
      (List.replicate L (0 : Int)) (List.replicate L (0 : ℚ))
      (fun w hw => by rw [hcur0len]; have := hrowlt w hw; omega)
      (by rw [List.length_replicate, List.length_replicate])
      hbnd hdisj
  refine ⟨cur2, bufc2, bufa2, hrun, ?_, ?_, ?_, ?_, ?_⟩
  · rw [hc2len, hcur0len]
  · rw [hb2len, List.length_replicate]
  · rw [ha2len, List.length_replicate]
  · intro r hr
    have := hcur2 r (by rw [hcur0len]; omega)
    rw [hcur0getD r hr, zero_add] at this
    exact this
  · intro r hr
    have := hsub r (by rw [hcur0len]; omega)
    rw [hcur0getD r (by omega), add_zero] at this
    exact this

end Ellspmv


namespace Ellspmv

/-- The inner padding loop of one ELLPACK row: writes `(j, 0)` at the slots
`[s, e)` of row `i` and leaves everything else unchanged. -/
theorem padrowfold_spec (rowsize : Int) (i : Nat) (j : Int) :
    ∀ (m : Nat) (s e : Int) (ecol : List Int) (ea : List ℚ),
    e = s + (m : Int) →
    ea.length = ecol.length →
    0 ≤ (i : Int) * rowsize + s →
    (i : Int) * rowsize + e ≤ (ecol.length : Int) →
    ∃ ecol2 ea2,
      efold (ellPadStep rowsize i j) (ecol, ea) (intRange s e) = .ok (ecol2, ea2) ∧
      ecol2.length = ecol.length ∧ ea2.length = ea.length ∧
      (∀ l : Int, s ≤ l → l < e →
        aget ecol2 ((i : Int) * rowsize + l) = .ok j ∧
        aget ea2 ((i : Int) * rowsize + l) = .ok 0) ∧
      (∀ p : Int, (p < (i : Int) * rowsize + s ∨ (i : Int) * rowsize + e ≤ p) →
        aget ecol2 p = aget ecol p ∧ aget ea2 p = aget ea p) := by
  intro m
  induction m with
  | zero =>
    intro s e ecol ea he hlen h0 hfit
    have hes : e = s := by omega
    subst hes
    rw [intRange_eq_nil (le_refl e)]
    refine ⟨ecol, ea, rfl, rfl, rfl, ?_, ?_⟩
    · intro l hl1 hl2
      omega
    · intro p _
      exact ⟨rfl, rfl⟩
  | succ m ih =>
    intro s e ecol ea he hlen h0 hfit
    have hse : s < e := by omega
    rw [intRange_eq_cons hse]
    set P : Int := (i : Int) * rowsize + s with hP
    have hPlt : P.toNat < ecol.length := by omega
    have hsetc : aset ecol P j = .ok (ecol.set P.toNat j) := aset_eq_ok _ h0 hPlt
    have hseta : aset ea P (0 : ℚ) = .ok (ea.set P.toNat 0) :=
      aset_eq_ok _ h0 (by omega)
    set ecol1 : List Int := ecol.set P.toNat j with hecol1
    set ea1 : List ℚ := ea.set P.toNat 0 with hea1
    have hstep : ellPadStep rowsize i j (ecol, ea) s = .ok (ecol1, ea1) := by
      show (do
        let ecol ← aset ecol ((i : Int) * rowsize + s) j
        let ea ← aset ea ((i : Int) * rowsize + s) (0 : ℚ)
        pure (ecol, ea) : CM (List Int × List ℚ)) = _
      rw [show (i : Int) * rowsize + s = P from rfl, hsetc]
      simp only [cm_bind_ok]
      rw [hseta]
      simp only [cm_bind_ok, cm_pure_eq]
    have hlen1c : ecol1.length = ecol.length := by rw [hecol1, List.length_set]
    have hlen1a : ea1.length = ea.length := by rw [hea1, List.length_set]
    obtain ⟨ecol2, ea2, hrun, hl2c, hl2a, hfl0, hunch⟩ :=
      ih (s + 1) e ecol1 ea1 (by omega) (by rw [hlen1c, hlen1a]; exact hlen)
        (by omega) (by rw [hlen1c]; omega)
    refine ⟨ecol2, ea2, (efold_cons_ok _ hstep).trans hrun,
      hl2c.trans hlen1c, hl2a.trans hlen1a, ?_, ?_⟩
    · intro l hl1 hl2
      by_cases hls : l = s
      · subst hls
        have hout := hunch P (Or.inl (by omega))
        have hgc : aget ecol1 P = .ok j := by
          rw [aget_aset hsetc P, if_pos rfl]
        have hga : aget ea1 P = .ok 0 := by
          rw [aget_aset hseta P, if_pos rfl]
        rw [show (i : Int) * rowsize + l = P from rfl]
        exact ⟨hout.1.trans hgc, hout.2.trans hga⟩
      · exact hfl0 l (by omega) hl2
    · intro p hp
      have hne : ¬ p = P := by omega
      have h1 := hunch p (by omega)
      have hgc : aget ecol1 p = aget ecol p := by
        rw [aget_aset hsetc p, if_neg hne]
      have hga : aget ea1 p = aget ea p := by
        rw [aget_aset hseta p, if_neg hne]
      exact ⟨h1.1.trans hgc, h1.2.trans hga⟩

/-- One `ellPadRow` call: pads the slots `[c, rowsize)` of row `i` with
column `min(i, num_columns - 1)` and value `0`, touching nothing else. -/
theorem ellPadRow_spec (nc : Nat) (rowsize : Int) (rp : List Int) (i : Nat) (c : Int)
    (ecol : List Int) (ea : List ℚ)
    (hget : aget rp (i : Int) = .ok c) (h0c : 0 ≤ c) (hcr : c ≤ rowsize)
    (hlen : ea.length = ecol.length)
    (hfit : ((i : Int) + 1) * rowsize ≤ (ecol.length : Int)) :
    ∃ ecol2 ea2,
      ellPadRow nc rowsize rp (ecol, ea) i = .ok (ecol2, ea2) ∧
      ecol2.length = ecol.length ∧ ea2.length = ea.length ∧
      (∀ l : Int, c ≤ l → l < rowsize →
        aget ecol2 ((i : Int) * rowsize + l) =
          .ok (if (i : Int) < (nc : Int) then (i : Int) else (nc : Int) - 1) ∧
        aget ea2 ((i : Int) * rowsize + l) = .ok 0) ∧
      (∀ p : Int, (p < (i : Int) * rowsize + c ∨ ((i : Int) + 1) * rowsize ≤ p) →
        aget ecol2 p = aget ecol p ∧ aget ea2 p = aget ea p) := by
  have hrs0 : 0 ≤ rowsize := le_trans h0c hcr
  have hmulfit : (i : Int) * rowsize + rowsize ≤ (ecol.length : Int) := by
    have : ((i : Int) + 1) * rowsize = (i : Int) * rowsize + rowsize := by ring
    omega
  have h0 : 0 ≤ (i : Int) * rowsize + c := by
    have := mul_nonneg (show (0 : Int) ≤ (i : Int) by positivity) hrs0
    omega
  obtain ⟨ecol2, ea2, hrun, hl2c, hl2a, hfill, hunch⟩ :=
    padrowfold_spec rowsize i
      (if (i : Int) < (nc : Int) then (i : Int) else (nc : Int) - 1)
      (rowsize - c).toNat c rowsize ecol ea (by omega) hlen h0 hmulfit
  refine ⟨ecol2, ea2, ?_, hl2c, hl2a, hfill, ?_⟩
  · show (do
      let j : Int := if (i : Int) < (nc : Int) then (i : Int) else (nc : Int) - 1
      let c2 ← aget rp (i : Int)
      efold (ellPadStep rowsize i j) (ecol, ea) (intRange c2 rowsize) :
        CM (List Int × List ℚ)) = _
    rw [hget]
    simp only [cm_bind_ok]
    exact hrun
  · intro p hp
    refine hunch p ?_
    have : ((i : Int) + 1) * rowsize = (i : Int) * rowsize + rowsize := by ring
    omega

/-- The padding loop over all rows: pads each row's tail and leaves the
scattered entries intact. -/
theorem padfold_spec (nc : Nat) (rowsize : Int) (rp : List Int) :
    ∀ (cnt s : Nat) (ecol : List Int) (ea : List ℚ),
    ea.length = ecol.length →
    (((s + cnt : Nat) : Int) * rowsize ≤ (ecol.length : Int)) →
    (∀ r : Nat, s ≤ r → r < s + cnt →
      ∃ c, aget rp (r : Int) = .ok c ∧ 0 ≤ c ∧ c ≤ rowsize) →
    ∃ ecol2 ea2,
      efold (ellPadRow nc rowsize rp) (ecol, ea) (List.range' s cnt) = .ok (ecol2, ea2) ∧
      ecol2.length = ecol.length ∧ ea2.length = ea.length ∧
      (∀ r : Nat, s ≤ r → r < s + cnt → ∀ c : Int, aget rp (r : Int) = .ok c →
        ∀ l : Int, c ≤ l → l < rowsize →
        aget ecol2 ((r : Int) * rowsize + l) =
          .ok (if (r : Int) < (nc : Int) then (r : Int) else (nc : Int) - 1) ∧
        aget ea2 ((r : Int) * rowsize + l) = .ok 0) ∧
      (∀ p : Int,
        (∀ r : Nat, s ≤ r → r < s + cnt → ∀ c : Int, aget rp (r : Int) = .ok c →
          p < (r : Int) * rowsize + c ∨ ((r : Int) + 1) * rowsize ≤ p) →
        aget ecol2 p = aget ecol p ∧ aget ea2 p = aget ea p) := by
  intro cnt
  induction cnt with
  | zero =>
    intro s ecol ea hlen hfit hrp
    refine ⟨ecol, ea, rfl, rfl, rfl, ?_, ?_⟩
    · intro r hr1 hr2
      omega
    · intro p _
      exact ⟨rfl, rfl⟩
  | succ cnt ih =>
    intro s ecol ea hlen hfit hrp
    obtain ⟨c, hgetc, h0c, hcr⟩ := hrp s (le_refl s) (by omega)
    have hrs0 : 0 ≤ rowsize := le_trans h0c hcr
    have hcast : ((s + (cnt + 1) : Nat) : Int) = (s : Int) + (cnt : Int) + 1 := by
      push_cast
      ring
    have hfit_s : ((s : Int) + 1) * rowsize ≤ (ecol.length : Int) := by
      have hmul : ((s : Int) + 1) * rowsize ≤ ((s : Int) + (cnt : Int) + 1) * rowsize :=
        mul_le_mul_of_nonneg_right (by omega) hrs0
      rw [hcast] at hfit
      omega
    obtain ⟨ecol1, ea1, hrun1, hl1c, hl1a, hfill1, hunch1⟩ :=
      ellPadRow_spec nc rowsize rp s c ecol ea hgetc h0c hcr hlen hfit_s
    obtain ⟨ecol2, ea2, hrun2, hl2c, hl2a, hfill2, hunch2⟩ :=
      ih (s + 1) ecol1 ea1 (by rw [hl1c, hl1a]; exact hlen)
        (by
          rw [hl1c]
          have : ((s + 1 + cnt : Nat) : Int) = ((s + (cnt + 1) : Nat) : Int) := by
            push_cast
            ring
          rw [this]
          exact hfit)
        (fun r hr1 hr2 => hrp r (by omega) (by omega))
    have hblock : ∀ r r' : Nat, r < r' → ((r : Int) + 1) * rowsize ≤ (r' : Int) * rowsize :=
      fun r r' hlt => mul_le_mul_of_nonneg_right (by omega) hrs0
    refine ⟨ecol2, ea2, ?_, hl2c.trans hl1c, hl2a.trans hl1a, ?_, ?_⟩
    · rw [List.range'_succ]
      exact (efold_cons_ok _ hrun1).trans hrun2
    · intro r hr1 hr2 c2 hgetc2 l hl1 hl2
      by_cases hrs : r = s
      · rw [hrs] at hgetc2 ⊢
        have hceq : c2 = c := by
          rw [hgetc] at hgetc2
          exact (Except.ok.injEq _ _).mp hgetc2.symm
        subst hceq
        have hout : ∀ r' : Nat, s + 1 ≤ r' → r' < s + 1 + cnt → ∀ c' : Int,
            aget rp (r' : Int) = .ok c' →
            (s : Int) * rowsize + l < (r' : Int) * rowsize + c' ∨
            ((r' : Int) + 1) * rowsize ≤ (s : Int) * rowsize + l := by
          intro r' hr1' hr2' c' hgetc'
          obtain ⟨c'', hg'', h0'', hcr''⟩ := hrp r' (by omega) (by omega)
          have hceq' : c' = c'' := by
            rw [hg''] at hgetc'
            exact (Except.ok.injEq _ _).mp hgetc'.symm
          subst hceq'
          refine Or.inl ?_
          have hb := hblock s r' (by omega)
          have : (s : Int) * rowsize + l < ((s : Int) + 1) * rowsize := by
            have : ((s : Int) + 1) * rowsize = (s : Int) * rowsize + rowsize := by ring
            omega
          omega
        have huse := hunch2 ((s : Int) * rowsize + l) (by
          intro r' hr1' hr2' c' hgetc'
          exact hout r' hr1' hr2' c' hgetc')
        have hf := hfill1 l hl1 hl2
        exact ⟨huse.1.trans hf.1, huse.2.trans hf.2⟩
      · exact hfill2 r (by omega) (by omega) c2 hgetc2 l hl1 hl2
    · intro p hp
      have h2 := hunch2 p (fun r hr1 hr2 c2 hg => hp r (by omega) (by omega) c2 hg)
      have h1 := hunch1 p (hp s (le_refl s) (by omega) c hgetc)
      exact ⟨h2.1.trans h1.1, h2.2.trans h1.2⟩

end Ellspmv


namespace Ellspmv

/-- `ell_from_coo` without separation or sorting, run from the size-pass
row pointers and zeroed `ellsize`-wide buffers: it succeeds, the returned
row-pointer array holds the per-row counts, each row's entries are laid out
from `r * rowsize` in COO order, and the row's remaining slots are padded
with column `min(r, num_columns - 1)` and value `0`. -/
theorem ell_fill_spec (n nc : Nat) (rowidx colidx : List Int) (a : List ℚ)
    (rowsize : Int) (rpIn : List Int) (ellsize : Int) (ead0 : List ℚ)
    (hrpIn : rpIn.length = n + 1)
    (hrs0 : 0 ≤ rowsize)
    (hcnt : ∀ r : Nat, r < n →
      (((((zip3 rowidx colidx a).map allWrites).flatten).filter
        (fun x => x.1 = r)).length : Int) ≤ rowsize)
    (hwf : COOWF n nc rowidx colidx a) :
    ∃ rpF ecol ea,
      ell_from_coo n nc rowidx colidx a rpIn ellsize rowsize
        (List.replicate ((n : Int) * rowsize).toNat 0)
        (List.replicate ((n : Int) * rowsize).toNat 0) ead0 false false =
      .ok { rowptr := rpF, colidx := ecol, a := ea, ad := ead0 } ∧
      ecol.length = ((n : Int) * rowsize).toNat ∧
      ea.length = ((n : Int) * rowsize).toNat ∧
      (∀ r : Nat, r < n →
        lsub ecol ea ((r : Int) * rowsize)
          (rowEntries (zip3 rowidx colidx a) ((r : Int) + 1))) ∧
      (∀ r : Nat, r < n → ∀ l : Int,
        ((rowEntries (zip3 rowidx colidx a) ((r : Int) + 1)).length : Int) ≤ l →
        l < rowsize →
        aget ecol ((r : Int) * rowsize + l) =
          .ok (if (r : Int) < (nc : Int) then (r : Int) else (nc : Int) - 1) ∧
        aget ea ((r : Int) * rowsize + l) = .ok 0) := by
  set es : List (Int × Int × ℚ) := zip3 rowidx colidx a with hes
  set ws : List (Nat × Int × ℚ) := (es.map allWrites).flatten with hws
  have hrows1 : ∀ e ∈ es, 1 ≤ e.1 := fun e he => (hwf.2.2 e he).1
  obtain ⟨cur2, bufc2, bufa2, hscat, hc2len, hb2len, ha2len, hcur2, hsub⟩ :=
    ell_scatter_core n rowsize hrs0 es
      (fun e he => ⟨(hwf.2.2 e he).1, (hwf.2.2 e he).2.1⟩) hcnt
  have hgfold : efold (fun s (e : Int × Int × ℚ) =>
      efold (scatStep (fun r => (r : Int) * rowsize)) s (allWrites e))
      (List.replicate (n + 1) 0,
        List.replicate ((n : Int) * rowsize).toNat (0 : Int),
        List.replicate ((n : Int) * rowsize).toNat (0 : ℚ)) es = .ok (cur2, bufc2, bufa2) := by
    rw [efold_entrywise_mem es (fun s e he => rfl)]
    exact hscat
  have hsplit := efold_split4 es
    (fun p q u d e he => ell_step_split rowsize p q u d e (hwf.2.2 e he).1)
    _ _ _ _ _ _ _ _ hgfold (efold_pure_ok es ead0)
  have hzero : efold (fun rp (i : Nat) => aset rp (i : Int) 0) rpIn (List.range (n + 1)) =
      .ok (List.replicate (n + 1) (0 : Int)) := by
    rw [List.range_eq_range']
    rw [natFillfold_spec 0 (n + 1) 0 rpIn (by omega)]
    rw [List.take_zero, List.nil_append, Nat.zero_add,
      List.drop_of_length_le (by omega), List.append_nil]
  have hLcast : (((((n : Int) * rowsize).toNat : Nat)) : Int) = (n : Int) * rowsize :=
    Int.toNat_of_nonneg (mul_nonneg (by positivity) hrs0)
  have hcuraget : ∀ r : Nat, r < n →
      aget cur2 (r : Int) = .ok ((ws.filter (fun x => x.1 = r)).length : Int) := by
    intro r hr
    have hts : ((r : Nat) : Int).toNat = r := by omega
    rw [aget_eq_getD 0 (by positivity) (by rw [hts, hc2len]; omega), hts]
    rw [hcur2 r (by omega)]
  have hfit : ((0 + n : Nat) : Int) * rowsize ≤ (bufc2.length : Int) := by
    rw [hb2len, hLcast, Nat.zero_add]
  obtain ⟨ecol2, ea2, hpadrun, hl2c, hl2a, hfill, hunch⟩ :=
    padfold_spec nc rowsize cur2 n 0 bufc2 bufa2 (ha2len.trans hb2len.symm) hfit
      (fun r h0r hrn =>
        ⟨((ws.filter (fun x => x.1 = r)).length : Int), hcuraget r (by omega),
          by positivity, hcnt r (by omega)⟩)
  have hseg : ∀ r : Nat, ((ws.filter (fun x => x.1 = r)).map (fun x => x.2)) =
      rowEntries es ((r : Int) + 1) := fun r => allWrites_filter_map r es hrows1
  have hseglen : ∀ r : Nat, (rowEntries es ((r : Int) + 1)).length =
      (ws.filter (fun x => x.1 = r)).length := by
    intro r
    rw [← hseg r, List.length_map]
  have hout_of : ∀ (r : Nat) (t : Int), r < n → 0 ≤ t →
      t < ((ws.filter (fun x => x.1 = r)).length : Int) →
      ∀ r' : Nat, 0 ≤ r' → r' < 0 + n → ∀ c' : Int, aget cur2 (r' : Int) = .ok c' →
      (r : Int) * rowsize + t < (r' : Int) * rowsize + c' ∨
      ((r' : Int) + 1) * rowsize ≤ (r : Int) * rowsize + t := by
    intro r t hr h0t htlt r' h0' hr' c' hg'
    have hg'' := hcuraget r' (by omega)
    have hceq : c' = ((ws.filter (fun x => x.1 = r')).length : Int) := by
      rw [hg''] at hg'
      exact (Except.ok.injEq _ _).mp hg'.symm
    subst hceq
    by_cases hrr : r' = r
    · subst hrr
      left
      omega
    · have hWb := hcnt r hr
      by_cases hlt : r < r'
      · left
        have hmul : ((r : Int) + 1) * rowsize ≤ (r' : Int) * rowsize :=
          mul_le_mul_of_nonneg_right (by omega) hrs0
        have hc0 : (0 : Int) ≤ ((ws.filter (fun x => x.1 = r')).length : Int) := by positivity
        nlinarith
      · right
        have hmul : ((r' : Int) + 1) * rowsize ≤ (r : Int) * rowsize :=
          mul_le_mul_of_nonneg_right (by omega) hrs0
        omega
  have hlsub2 : ∀ r : Nat, r < n →
      lsub ecol2 ea2 ((r : Int) * rowsize)
        ((ws.filter (fun x => x.1 = r)).map (fun x => x.2)) := by
    intro r hr t ht
    have horig := hsub r hr t ht
    have htlen : t < (ws.filter (fun x => x.1 = r)).length := by
      have := ht
      rwa [List.length_map] at this
    have hu := hunch ((r : Int) * rowsize + (t : Int))
      (hout_of r (t : Int) hr (by positivity) (by exact_mod_cast htlen))
    exact ⟨hu.1.trans horig.1, hu.2.trans horig.2⟩
  refine ⟨cur2, ecol2, ea2, ?_, hl2c.trans hb2len, hl2a.trans ha2len, ?_, ?_⟩
  · unfold ell_from_coo
    rw [hzero]
    simp only [cm_bind_ok]
    rw [hsplit]
    simp only [cm_bind_ok]
    rw [List.range_eq_range', hpadrun]
    simp only [cm_bind_ok]
    rw [if_neg (show ¬((false : Bool) = true) by simp)]
    rfl
  · intro r hr
    have := hlsub2 r hr
    rwa [hseg r] at this
  · intro r hr l hl1 hl2
    refine hfill r (by omega) (by omega)
      ((ws.filter (fun x => x.1 = r)).length : Int) (hcuraget r hr) l ?_ hl2
    rw [hseglen r] at hl1
    exact hl1

end Ellspmv


namespace Ellspmv

/-- The CSR inner-product loop over a buffer segment holding `seg`. -/
theorem dot_spec_abs (x : List ℚ) (bufc : List Int) (bufa : List ℚ) :
    ∀ (seg : List (Int × ℚ)) (rs re : Int) (acc : ℚ),
    re = rs + (seg.length : Int) →
    lsub bufc bufa rs seg →
    (∀ p ∈ seg, 0 ≤ p.1 ∧ p.1 < (x.length : Int)) →
    efold (fun yi k => do
        let j ← aget bufc k
        let av ← aget bufa k
        let xv ← aget x j
        pure (yi + av * xv)) acc (intRange rs re) =
    .ok (seg.foldl (fun yi p => yi + p.2 * x.getD p.1.toNat 0) acc) := by
  intro seg
  induction seg with
  | nil =>
    intro rs re acc he _ _
    rw [intRange_eq_nil (by simp at he; omega)]
    rfl
  | cons p seg ih =>
    intro rs re acc he hsub hbnd
    have hslt : rs < re := by
      rw [he]
      have : (0 : Int) < ((p :: seg).length : Int) := by
        rw [List.length_cons]
        positivity
      omega
    rw [intRange_eq_cons hslt]
    have hc : aget bufc rs = .ok p.1 := by
      have := (hsub 0 (by simp)).1
      simpa using this
    have ha : aget bufa rs = .ok p.2 := by
      have := (hsub 0 (by simp)).2
      simpa using this
    have hpb := hbnd p (List.mem_cons_self p seg)
    have hx : aget x p.1 = .ok (x.getD p.1.toNat 0) :=
      aget_eq_getD 0 hpb.1 (by omega)
    have hstep : (do
        let j ← aget bufc rs
        let av ← aget bufa rs
        let xv ← aget x j
        pure (acc + av * xv) : CM ℚ) = .ok (acc + p.2 * x.getD p.1.toNat 0) := by
      rw [hc]
      simp only [cm_bind_ok]
      rw [ha]
      simp only [cm_bind_ok]
      rw [hx]
      simp only [cm_bind_ok, cm_pure_eq]
    have hsub' : lsub bufc bufa (rs + 1) seg := by
      intro t ht
      have := hsub (t + 1) (by simp only [List.length_cons]; omega)
      have hidx : rs + ((t + 1 : Nat) : Int) = rs + 1 + (t : Int) := by
        push_cast
        ring
      rw [hidx] at this
      exact this
    have hrest := ih (rs + 1) re (acc + p.2 * x.getD p.1.toNat 0)
      (by rw [he, List.length_cons]; push_cast; ring)
      hsub' (fun q hq => hbnd q (List.mem_cons_of_mem _ hq))
    rw [List.foldl_cons]
    refine Eq.trans (efold_cons_ok _ ?_) hrest
    exact hstep

/-- The ELLPACK inner-product loop over the filled slots of a row. -/
theorem dot_spec_off (x : List ℚ) (bufc : List Int) (bufa : List ℚ) (off : Int) :
    ∀ (seg : List (Int × ℚ)) (s e : Int) (acc : ℚ),
    e = s + (seg.length : Int) →
    lsub bufc bufa (off + s) seg →
    (∀ p ∈ seg, 0 ≤ p.1 ∧ p.1 < (x.length : Int)) →
    efold (fun yi l => do
        let j ← aget bufc (off + l)
        let av ← aget bufa (off + l)
        let xv ← aget x j
        pure (yi + av * xv)) acc (intRange s e) =
    .ok (seg.foldl (fun yi p => yi + p.2 * x.getD p.1.toNat 0) acc) := by
  intro seg
  induction seg with
  | nil =>
    intro s e acc he _ _
    rw [intRange_eq_nil (by simp at he; omega)]
    rfl
  | cons p seg ih =>
    intro s e acc he hsub hbnd
    have hslt : s < e := by
      rw [he]
      have : (0 : Int) < ((p :: seg).length : Int) := by
        rw [List.length_cons]
        positivity
      omega
    rw [intRange_eq_cons hslt]
    have hc : aget bufc (off + s) = .ok p.1 := by
      have := (hsub 0 (by simp)).1
      simpa using this
    have ha : aget bufa (off + s) = .ok p.2 := by
      have := (hsub 0 (by simp)).2
      simpa using this
    have hpb := hbnd p (List.mem_cons_self p seg)
    have hx : aget x p.1 = .ok (x.getD p.1.toNat 0) :=
      aget_eq_getD 0 hpb.1 (by omega)
    have hstep : (do
        let j ← aget bufc (off + s)
        let av ← aget bufa (off + s)
        let xv ← aget x j
        pure (acc + av * xv) : CM ℚ) = .ok (acc + p.2 * x.getD p.1.toNat 0) := by
      rw [hc]
      simp only [cm_bind_ok]
      rw [ha]
      simp only [cm_bind_ok]
      rw [hx]
      simp only [cm_bind_ok, cm_pure_eq]
    have hsub' : lsub bufc bufa (off + (s + 1)) seg := by
      intro t ht
      have := hsub (t + 1) (by simp only [List.length_cons]; omega)
      have hidx : off + s + ((t + 1 : Nat) : Int) = off + (s + 1) + (t : Int) := by
        push_cast
        ring
      rw [hidx] at this
      exact this
    have hrest := ih (s + 1) e (acc + p.2 * x.getD p.1.toNat 0)
      (by rw [he, List.length_cons]; push_cast; ring)
      hsub' (fun q hq => hbnd q (List.mem_cons_of_mem _ hq))
    rw [List.foldl_cons]
    refine Eq.trans (efold_cons_ok _ ?_) hrest
    exact hstep

/-- The ELLPACK inner-product loop over padding slots: every term is
`0 * x[j]`, so the accumulator passes through unchanged. -/
theorem pad_dot_spec (x : List ℚ) (bufc : List Int) (bufa : List ℚ) (off : Int) :
    ∀ (m : Nat) (s e : Int) (acc : ℚ),
    e = s + (m : Int) →
    (∀ l : Int, s ≤ l → l < e → ∃ j xv,
      aget bufc (off + l) = .ok j ∧ aget bufa (off + l) = .ok 0 ∧ aget x j = .ok xv) →
    efold (fun yi l => do
        let j ← aget bufc (off + l)
        let av ← aget bufa (off + l)
        let xv ← aget x j
        pure (yi + av * xv)) acc (intRange s e) = .ok acc := by
  intro m
  induction m with
  | zero =>
    intro s e acc he _
    rw [intRange_eq_nil (by omega)]
    rfl
  | succ m ih =>
    intro s e acc he hpad
    have hslt : s < e := by omega
    rw [intRange_eq_cons hslt]
    obtain ⟨j, xv, hcj, ha0, hxj⟩ := hpad s (le_refl s) hslt
    have hstep : (do
        let j ← aget bufc (off + s)
        let av ← aget bufa (off + s)
        let xv ← aget x j
        pure (acc + av * xv) : CM ℚ) = .ok acc := by
      rw [hcj]
      simp only [cm_bind_ok]
      rw [ha0]
      simp only [cm_bind_ok]
      rw [hxj]
      simp only [cm_bind_ok, cm_pure_eq, zero_mul, add_zero]
    have hrest := ih (s + 1) e acc (by omega)
      (fun l hl1 hl2 => hpad l (by omega) hl2)
    refine Eq.trans (efold_cons_ok _ ?_) hrest
    exact hstep

/-- The row loop shared by the SpMV kernels: each row's update adds a
y-independent per-row value `V i` to `y[i]`. -/
theorem yfold_spec {V : Nat → ℚ} {body : List ℚ → Nat → CM (List ℚ)} :
    ∀ (cnt s : Nat) (y : List ℚ),
    (∀ y2 : List ℚ, ∀ i : Nat, s ≤ i → i < s + cnt → y2.length = y.length →
      body y2 i = (do
        let yv ← aget y2 (i : Int)
        aset y2 (i : Int) (yv + V i))) →
    s + cnt ≤ y.length →
    ∃ y2, efold body y (List.range' s cnt) = .ok y2 ∧ y2.length = y.length ∧
      (∀ i : Nat, i < y.length → y2.getD i 0 =
        if s ≤ i ∧ i < s + cnt then y.getD i 0 + V i else y.getD i 0) := by
  intro cnt
  induction cnt with
  | zero =>
    intro s y _ _
    refine ⟨y, rfl, rfl, ?_⟩
    intro i hi
    rw [if_neg (by omega)]
  | succ cnt ih =>
    intro s y hbody hfit
    have hts : ((s : Nat) : Int).toNat = s := by omega
    have hslen : s < y.length := by omega
    have hget : aget y (s : Int) = .ok (y.getD s 0) := by
      rw [aget_eq_getD 0 (by positivity) (by omega), hts]
    have hset : aset y (s : Int) (y.getD s 0 + V s) = .ok (y.set s (y.getD s 0 + V s)) := by
      rw [aset_eq_ok _ (by positivity) (by omega), hts]
    set y1 : List ℚ := y.set s (y.getD s 0 + V s) with hy1
    have hl1 : y1.length = y.length := by rw [hy1, List.length_set]
    have hstep : body y s = .ok y1 := by
      rw [hbody y s (le_refl s) (by omega) rfl]
      rw [hget]
      simp only [cm_bind_ok]
      exact hset
    have hy1getD : ∀ i : Nat, i < y.length →
        y1.getD i 0 = if i = s then y.getD s 0 + V s else y.getD i 0 := by
      intro i hi
      rw [hy1, List.getD_eq_getElem _ _ (by rw [List.length_set]; omega), List.getElem_set]
      by_cases his : i = s
      · subst his
        rw [if_pos rfl, if_pos rfl]
      · rw [if_neg (fun hh => his hh.symm), if_neg his]
        exact (List.getD_eq_getElem _ _ (by omega)).symm
    obtain ⟨y2, hrun, hl2, hgetD2⟩ := ih (s + 1) y1
      (fun y3 i hi1 hi2 hl3 => hbody y3 i (by omega) (by omega) (hl3.trans hl1))
      (by omega)
    refine ⟨y2, ?_, hl2.trans hl1, ?_⟩
    · rw [List.range'_succ]
      exact (efold_cons_ok _ hstep).trans hrun
    · intro i hi
      rw [hgetD2 i (by omega)]
      by_cases his : i = s
      · rw [his]
        rw [if_neg (by omega), if_pos ⟨le_refl s, by omega⟩, hy1getD s (by omega), if_pos rfl]
      · by_cases hin : s + 1 ≤ i ∧ i < s + 1 + cnt
        · rw [if_pos hin, if_pos (by omega), hy1getD i hi, if_neg his]
        · rw [if_neg hin, if_neg (by omega), hy1getD i hi, if_neg his]

/-- Lists agreeing in length and pointwise `getD` are equal. -/
theorem list_eq_of_getD {α : Type} (d : α) (xs ys : List α) (hlen : xs.length = ys.length)
    (h : ∀ i : Nat, i < xs.length → xs.getD i d = ys.getD i d) : xs = ys := by
  apply List.ext_get hlen
  intro i h1 h2
  have := h i h1
  rw [List.getD_eq_getElem _ _ h1, List.getD_eq_getElem _ _ h2] at this
  exact this

end Ellspmv


namespace Ellspmv

/-- C2: for every general COO matrix (with at least one row and one column)
and every input vector `x`, the CSR pipeline (`csr_from_coo_size`,
`csr_from_coo`, `csrgemv`) and the ELLPACK pipeline (`ell_from_coo_size`,
`ell_from_coo`, `ellgemv`), with row sorting and diagonal separation both
disabled, produce identical result vectors starting from the same `y`: both
kernels accumulate each row's nonzeros sequentially in COO order, and the
ELLPACK padding entries contribute exactly zero. -/
theorem C2_round_trip_equivalence (n nc : Nat) (rowidx colidx : List Int)
    (a x y : List ℚ) (hn : 0 < n) (hnc : 0 < nc)
    (hwf : COOWF n nc rowidx colidx a) (hx : x.length = nc) (hy : y.length = n) :
    ∃ szc csr sze ell yout,
      csrPipeline Mtxsymmetry.general n nc rowidx colidx a false false = .ok (szc, csr) ∧
      ellPipeline n nc rowidx colidx a false false = .ok (sze, ell) ∧
      csrgemv n y nc x szc.csrsize szc.rowsizemin szc.rowsizemax
        csr.rowptr csr.colidx csr.a = .ok yout ∧
      ellgemv n y nc x sze.ellsize sze.rowsize ell.colidx ell.a = .ok yout := by
  have hc1 : ¬(n = nc ∧ Mtxsymmetry.general = Mtxsymmetry.symmetric ∧ (false : Bool) = true) := by
    simp
  have hc2 : ¬(n = nc ∧ Mtxsymmetry.general = Mtxsymmetry.symmetric ∧ (false : Bool) = false) := by
    simp
  have hc3 : ¬(n = nc ∧ (false : Bool) = true) := by simp
  have hb := allBumps_bound hwf
  have hbf := flatten_bumps_bound hb
  have hb0 : (((zip3 rowidx colidx a).map allBumps).flatten).count (0 : Int) = 0 := by
    rw [List.count_eq_zero]
    intro hmem
    have := hbf 0 hmem
    omega
  have hcnteq : ∀ i : Nat, (rowEntries (zip3 rowidx colidx a) ((i : Int) + 1)).length = (((zip3 rowidx colidx a).map allBumps).flatten).count ((i : Int) + 1) := by
    intro i
    unfold rowEntries
    rw [List.length_map]
    rw [count_flatten_allBumps]
  have hsizeC := csr_size_general_spec Mtxsymmetry.general n nc rowidx colidx a false
    hn hc1 hc2 hc3 hb
  obtain ⟨ccol, ca, hrunC, hclen, hcalen, hsubC⟩ :=
    csr_fill_general_spec Mtxsymmetry.general n nc rowidx colidx a
      (prefCount (((zip3 rowidx colidx a).map allBumps).flatten) n) ((cntRows n (((zip3 rowidx colidx a).map allBumps).flatten)).foldl (fun acc v => if acc ≤ v then acc else v) (((((zip3 rowidx colidx a).map allBumps).flatten).count ((0 : Int) + 1) : Int))) ((cntRows n (((zip3 rowidx colidx a).map allBumps).flatten)).foldl (fun acc v => if acc ≥ v then acc else v) 0)
      (List.replicate ((0 : Int)).toNat 0) false hc1 hc2 hc3 hwf.1 hwf.2.1
      (fun e he => ⟨(hwf.2.2 e he).1, (hwf.2.2 e he).2.1⟩)
  have hsizeE := ell_size_spec n nc rowidx colidx a hb
  have hM0 : (0 : Int) ≤ ((cntRows n (((zip3 rowidx colidx a).map allBumps).flatten)).foldl (fun acc v => if acc ≥ v then acc else v) 0) := (foldl_ifmax_ge (cntRows n (((zip3 rowidx colidx a).map allBumps).flatten)) 0).1
  have hWcount : ∀ r : Nat, ((((zip3 rowidx colidx a).map allWrites).flatten).filter (fun x2 => x2.1 = r)).length = (((zip3 rowidx colidx a).map allBumps).flatten).count ((r : Int) + 1) :=
    wcount_of_rows (zip3 rowidx colidx a) allWrites allBumps
      (fun e he => allWrites_rows e (hwf.2.2 e he).1)
  have hcntE : ∀ r : Nat, r < n → (((((zip3 rowidx colidx a).map allWrites).flatten).filter (fun x2 => x2.1 = r)).length : Int) ≤ ((cntRows n (((zip3 rowidx colidx a).map allBumps).flatten)).foldl (fun acc v => if acc ≥ v then acc else v) 0) := by
    intro r hr
    rw [hWcount r]
    exact (foldl_ifmax_ge (cntRows n (((zip3 rowidx colidx a).map allBumps).flatten)) 0).2 _ (mem_cntRows n (((zip3 rowidx colidx a).map allBumps).flatten) hr)
  have hrp0len : (((0 : Int) :: psumFrom 0 (cntRows n (((zip3 rowidx colidx a).map allBumps).flatten))) : List Int).length = n + 1 := by
    rw [List.length_cons, psumFrom_length]
    simp [cntRows]
  obtain ⟨rpF, ecol, ea, hrunE, helen, healen, hsubE, hpadE⟩ :=
    ell_fill_spec n nc rowidx colidx a ((cntRows n (((zip3 rowidx colidx a).map allBumps).flatten)).foldl (fun acc v => if acc ≥ v then acc else v) 0) ((0 : Int) :: psumFrom 0 (cntRows n (((zip3 rowidx colidx a).map allBumps).flatten))) ((n : Int) * ((cntRows n (((zip3 rowidx colidx a).map allBumps).flatten)).foldl (fun acc v => if acc ≥ v then acc else v) 0))
      (List.replicate (if n < nc then (n : Int) else (nc : Int)).toNat 0)
      hrp0len hM0 hcntE hwf
  have hrpget : ∀ q : Nat, q ≤ n → aget ((0 : Int) :: psumFrom 0 (cntRows n (((zip3 rowidx colidx a).map allBumps).flatten))) (q : Int) = .ok (prefCount (((zip3 rowidx colidx a).map allBumps).flatten) q) := by
    intro q hq
    have hts : ((q : Nat) : Int).toNat = q := by omega
    rw [aget_eq_getD 0 (by positivity) (by rw [hts, hrp0len]; omega), hts,
      rowptr0_getD n (((zip3 rowidx colidx a).map allBumps).flatten) hb0 q hq]
  have hdotC : ∀ i : Nat, i < n →
      csrRowDot (prefCount (((zip3 rowidx colidx a).map allBumps).flatten) i) (prefCount (((zip3 rowidx colidx a).map allBumps).flatten) (i + 1)) ccol ca x =
      .ok ((rowEntries (zip3 rowidx colidx a) ((i : Int) + 1)).foldl (fun yi p => yi + p.2 * x.getD p.1.toNat 0) 0) := by
    intro i hi
    unfold csrRowDot
    exact dot_spec_abs x ccol ca (rowEntries (zip3 rowidx colidx a) ((i : Int) + 1)) (prefCount (((zip3 rowidx colidx a).map allBumps).flatten) i) (prefCount (((zip3 rowidx colidx a).map allBumps).flatten) (i + 1)) 0
      (by rw [hcnteq i]; exact prefCount_succ (((zip3 rowidx colidx a).map allBumps).flatten) i)
      (hsubC i hi)
      (by
        intro p hp
        have := rowEntries_col_bound n nc hwf ((i : Int) + 1) p hp
        rw [hx]
        exact this)
  have hbodyC : ∀ y2 : List ℚ, ∀ i : Nat, 0 ≤ i → i < 0 + n → y2.length = y.length →
      (fun (y3 : List ℚ) (i2 : Nat) => do
        let rs ← aget ((0 : Int) :: psumFrom 0 (cntRows n (((zip3 rowidx colidx a).map allBumps).flatten))) (i2 : Int)
        let re ← aget ((0 : Int) :: psumFrom 0 (cntRows n (((zip3 rowidx colidx a).map allBumps).flatten))) ((i2 : Int) + 1)
        let yi ← csrRowDot rs re ccol ca x
        let yv ← aget y3 (i2 : Int)
        aset y3 (i2 : Int) (yv + yi)) y2 i =
      (do
        let yv ← aget y2 (i : Int)
        aset y2 (i : Int) (yv + (rowEntries (zip3 rowidx colidx a) ((i : Int) + 1)).foldl (fun yi p => yi + p.2 * x.getD p.1.toNat 0) 0)) := by
    intro y2 i h0i hin hyl
    show (do
      let rs ← aget ((0 : Int) :: psumFrom 0 (cntRows n (((zip3 rowidx colidx a).map allBumps).flatten))) (i : Int)
      let re ← aget ((0 : Int) :: psumFrom 0 (cntRows n (((zip3 rowidx colidx a).map allBumps).flatten))) ((i : Int) + 1)
      let yi ← csrRowDot rs re ccol ca x
      let yv ← aget y2 (i : Int)
      aset y2 (i : Int) (yv + yi) : CM (List ℚ)) = _
    rw [hrpget i (by omega)]
    simp only [cm_bind_ok]
    have hre := hrpget (i + 1) (by omega)
    rw [show (((i + 1 : Nat)) : Int) = ((i : Nat) : Int) + 1 from by push_cast; ring] at hre
    rw [hre]
    simp only [cm_bind_ok]
    rw [hdotC i (by omega)]
    simp only [cm_bind_ok]
  obtain ⟨yC, hyCrun, hyClen, hyCget⟩ := yfold_spec n 0 y hbodyC (by omega)
  have hdotE : ∀ i : Nat, i < n →
      efold (fun yi l => do
          let j ← aget ecol ((i : Int) * ((cntRows n (((zip3 rowidx colidx a).map allBumps).flatten)).foldl (fun acc v => if acc ≥ v then acc else v) 0) + l)
          let av ← aget ea ((i : Int) * ((cntRows n (((zip3 rowidx colidx a).map allBumps).flatten)).foldl (fun acc v => if acc ≥ v then acc else v) 0) + l)
          let xv ← aget x j
          pure (yi + av * xv)) 0 (intRange 0 ((cntRows n (((zip3 rowidx colidx a).map allBumps).flatten)).foldl (fun acc v => if acc ≥ v then acc else v) 0)) =
      .ok ((rowEntries (zip3 rowidx colidx a) ((i : Int) + 1)).foldl (fun yi p => yi + p.2 * x.getD p.1.toNat 0) 0) := by
    intro i hi
    have hlen_i : (((rowEntries (zip3 rowidx colidx a) ((i : Int) + 1)).length : Nat) : Int) ≤ ((cntRows n (((zip3 rowidx colidx a).map allBumps).flatten)).foldl (fun acc v => if acc ≥ v then acc else v) 0) := by
      rw [hcnteq i]
      rw [← hWcount i]
      exact hcntE i hi
    rw [intRange_split 0 (((rowEntries (zip3 rowidx colidx a) ((i : Int) + 1)).length : Nat) : Int) ((cntRows n (((zip3 rowidx colidx a).map allBumps).flatten)).foldl (fun acc v => if acc ≥ v then acc else v) 0) (by positivity) hlen_i]
    rw [efold_append]
    rw [dot_spec_off x ecol ea ((i : Int) * ((cntRows n (((zip3 rowidx colidx a).map allBumps).flatten)).foldl (fun acc v => if acc ≥ v then acc else v) 0)) (rowEntries (zip3 rowidx colidx a) ((i : Int) + 1)) 0 (((rowEntries (zip3 rowidx colidx a) ((i : Int) + 1)).length : Nat) : Int) 0
      (by ring)
      (by
        have := hsubE i hi
        rwa [show (i : Int) * ((cntRows n (((zip3 rowidx colidx a).map allBumps).flatten)).foldl (fun acc v => if acc ≥ v then acc else v) 0) + 0 = (i : Int) * ((cntRows n (((zip3 rowidx colidx a).map allBumps).flatten)).foldl (fun acc v => if acc ≥ v then acc else v) 0) from by ring])
      (by
        intro p hp
        have := rowEntries_col_bound n nc hwf ((i : Int) + 1) p hp
        rw [hx]
        exact this)]
    show efold (fun yi l => do
        let j ← aget ecol ((i : Int) * ((cntRows n (((zip3 rowidx colidx a).map allBumps).flatten)).foldl (fun acc v => if acc ≥ v then acc else v) 0) + l)
        let av ← aget ea ((i : Int) * ((cntRows n (((zip3 rowidx colidx a).map allBumps).flatten)).foldl (fun acc v => if acc ≥ v then acc else v) 0) + l)
        let xv ← aget x j
        pure (yi + av * xv)) ((rowEntries (zip3 rowidx colidx a) ((i : Int) + 1)).foldl (fun yi p => yi + p.2 * x.getD p.1.toNat 0) 0)
      (intRange (((rowEntries (zip3 rowidx colidx a) ((i : Int) + 1)).length : Nat) : Int) ((cntRows n (((zip3 rowidx colidx a).map allBumps).flatten)).foldl (fun acc v => if acc ≥ v then acc else v) 0)) = .ok ((rowEntries (zip3 rowidx colidx a) ((i : Int) + 1)).foldl (fun yi p => yi + p.2 * x.getD p.1.toNat 0) 0)
    refine pad_dot_spec x ecol ea ((i : Int) * ((cntRows n (((zip3 rowidx colidx a).map allBumps).flatten)).foldl (fun acc v => if acc ≥ v then acc else v) 0)) (((cntRows n (((zip3 rowidx colidx a).map allBumps).flatten)).foldl (fun acc v => if acc ≥ v then acc else v) 0) - (((rowEntries (zip3 rowidx colidx a) ((i : Int) + 1)).length : Nat) : Int)).toNat
      (((rowEntries (zip3 rowidx colidx a) ((i : Int) + 1)).length : Nat) : Int) ((cntRows n (((zip3 rowidx colidx a).map allBumps).flatten)).foldl (fun acc v => if acc ≥ v then acc else v) 0) ((rowEntries (zip3 rowidx colidx a) ((i : Int) + 1)).foldl (fun yi p => yi + p.2 * x.getD p.1.toNat 0) 0) (by omega) ?_
    intro l hl1 hl2
    have hp := hpadE i hi l hl1 hl2
    refine ⟨(if (i : Int) < (nc : Int) then (i : Int) else (nc : Int) - 1),
      x.getD ((if (i : Int) < (nc : Int) then (i : Int) else (nc : Int) - 1)).toNat 0,
      hp.1, hp.2, ?_⟩
    refine aget_eq_getD 0 ?_ ?_
    · split <;> omega
    · rw [hx]
      split <;> omega
  have hbodyE : ∀ y2 : List ℚ, ∀ i : Nat, 0 ≤ i → i < 0 + n → y2.length = y.length →
      (fun (y3 : List ℚ) (i2 : Nat) => do
        let yi ← efold (fun yi l => do
            let j ← aget ecol ((i2 : Int) * ((cntRows n (((zip3 rowidx colidx a).map allBumps).flatten)).foldl (fun acc v => if acc ≥ v then acc else v) 0) + l)
            let av ← aget ea ((i2 : Int) * ((cntRows n (((zip3 rowidx colidx a).map allBumps).flatten)).foldl (fun acc v => if acc ≥ v then acc else v) 0) + l)
            let xv ← aget x j
            pure (yi + av * xv)) 0 (intRange 0 ((cntRows n (((zip3 rowidx colidx a).map allBumps).flatten)).foldl (fun acc v => if acc ≥ v then acc else v) 0))
        let yv ← aget y3 (i2 : Int)
        aset y3 (i2 : Int) (yv + yi)) y2 i =
      (do
        let yv ← aget y2 (i : Int)
        aset y2 (i : Int) (yv + (rowEntries (zip3 rowidx colidx a) ((i : Int) + 1)).foldl (fun yi p => yi + p.2 * x.getD p.1.toNat 0) 0)) := by
    intro y2 i h0i hin hyl
    show (do
      let yi ← efold (fun yi l => do
          let j ← aget ecol ((i : Int) * ((cntRows n (((zip3 rowidx colidx a).map allBumps).flatten)).foldl (fun acc v => if acc ≥ v then acc else v) 0) + l)
          let av ← aget ea ((i : Int) * ((cntRows n (((zip3 rowidx colidx a).map allBumps).flatten)).foldl (fun acc v => if acc ≥ v then acc else v) 0) + l)
          let xv ← aget x j
          pure (yi + av * xv)) 0 (intRange 0 ((cntRows n (((zip3 rowidx colidx a).map allBumps).flatten)).foldl (fun acc v => if acc ≥ v then acc else v) 0))
      let yv ← aget y2 (i : Int)
      aset y2 (i : Int) (yv + yi) : CM (List ℚ)) = _
    rw [hdotE i (by omega)]
    simp only [cm_bind_ok]
  obtain ⟨yE, hyErun, hyElen, hyEget⟩ := yfold_spec n 0 y hbodyE (by omega)
  have hyeq : yC = yE := by
    refine list_eq_of_getD 0 yC yE (hyClen.trans hyElen.symm) ?_
    intro i hi
    have hi2 : i < y.length := by rwa [hyClen] at hi
    rw [hyCget i hi2, hyEget i hi2]
  refine ⟨{ rowptr := ((0 : Int) :: psumFrom 0 (cntRows n (((zip3 rowidx colidx a).map allBumps).flatten))), csrsize := prefCount (((zip3 rowidx colidx a).map allBumps).flatten) n, rowsizemin := ((cntRows n (((zip3 rowidx colidx a).map allBumps).flatten)).foldl (fun acc v => if acc ≤ v then acc else v) (((((zip3 rowidx colidx a).map allBumps).flatten).count ((0 : Int) + 1) : Int))), rowsizemax := ((cntRows n (((zip3 rowidx colidx a).map allBumps).flatten)).foldl (fun acc v => if acc ≥ v then acc else v) 0), diagsize := 0 },
    { rowptr := ((0 : Int) :: psumFrom 0 (cntRows n (((zip3 rowidx colidx a).map allBumps).flatten))), colidx := ccol, a := ca, ad := List.replicate ((0 : Int)).toNat 0 },
    { rowptr := ((0 : Int) :: psumFrom 0 (cntRows n (((zip3 rowidx colidx a).map allBumps).flatten))), ellsize := (n : Int) * ((cntRows n (((zip3 rowidx colidx a).map allBumps).flatten)).foldl (fun acc v => if acc ≥ v then acc else v) 0), rowsize := ((cntRows n (((zip3 rowidx colidx a).map allBumps).flatten)).foldl (fun acc v => if acc ≥ v then acc else v) 0), diagsize := if n < nc then (n : Int) else (nc : Int) },
    { rowptr := rpF, colidx := ecol, a := ea, ad := List.replicate (if n < nc then (n : Int) else (nc : Int)).toNat 0 },
    yC, ?_, ?_, ?_, ?_⟩
  · unfold csrPipeline
    rw [hsizeC]
    simp only [cm_bind_ok]
    rw [hrunC]
    simp only [cm_bind_ok, cm_pure_eq]
  · unfold ellPipeline
    rw [hsizeE]
    simp only [cm_bind_ok]
    rw [hrunE]
    simp only [cm_bind_ok, cm_pure_eq]
  · show csrgemv n y nc x (prefCount (((zip3 rowidx colidx a).map allBumps).flatten) n) ((cntRows n (((zip3 rowidx colidx a).map allBumps).flatten)).foldl (fun acc v => if acc ≤ v then acc else v) (((((zip3 rowidx colidx a).map allBumps).flatten).count ((0 : Int) + 1) : Int))) ((cntRows n (((zip3 rowidx colidx a).map allBumps).flatten)).foldl (fun acc v => if acc ≥ v then acc else v) 0) ((0 : Int) :: psumFrom 0 (cntRows n (((zip3 rowidx colidx a).map allBumps).flatten))) ccol ca = .ok yC
    unfold csrgemv
    rw [List.range_eq_range']
    exact hyCrun
  · show ellgemv n y nc x ((n : Int) * ((cntRows n (((zip3 rowidx colidx a).map allBumps).flatten)).foldl (fun acc v => if acc ≥ v then acc else v) 0)) ((cntRows n (((zip3 rowidx colidx a).map allBumps).flatten)).foldl (fun acc v => if acc ≥ v then acc else v) 0) ecol ea = .ok yC
    unfold ellgemv
    rw [List.range_eq_range']
    rw [hyeq]
    exact hyErun

end Ellspmv


namespace Ellspmv

/-- Witness: the CSR/ELLPACK round trip agrees on a concrete 2x2 general
matrix. -/
theorem C2_round_trip_equivalence_witness :
    ∃ szc csr sze ell yout,
      csrPipeline Mtxsymmetry.general 2 2 [1, 2] [2, 1] [3, 7] false false = .ok (szc, csr) ∧
      ellPipeline 2 2 [1, 2] [2, 1] [3, 7] false false = .ok (sze, ell) ∧
      csrgemv 2 [1, 2] 2 [5, 11] szc.csrsize szc.rowsizemin szc.rowsizemax
        csr.rowptr csr.colidx csr.a = .ok yout ∧
      ellgemv 2 [1, 2] 2 [5, 11] sze.ellsize sze.rowsize ell.colidx ell.a = .ok yout :=
  C2_round_trip_equivalence 2 2 [1, 2] [2, 1] [3, 7] [5, 11] [1, 2]
    (by decide) (by decide) ⟨rfl, rfl, by decide⟩ rfl rfl

end Ellspmv


namespace Ellspmv

/-- C10 (amended): with no x-file and no y-file, `ellspmv` initializes `x`
to all ones (length `num_columns`) and `y` to all zeros (length `num_rows`),
and `csrspmv` does the same whenever no explicit column/row lists are given
(for `x`, any partition) and the row partition is used (for `y`); the
nonzero partition's `y` initialization is the exception established by the
counterexample. -/
theorem C10_default_vector_init_amended (partition : Partition)
    (n nc nthreads : Nat) (x y : List ℚ)
    (startrows endrows startcolumns endcolumns : List Int)
    (csrsize : Int) (csrrowptr : List Int)
    (hx : x.length = nc) (hy : y.length = n) :
    ellXInit nc x = .ok (List.replicate nc (1 : ℚ)) ∧
    ellYInit n y = .ok (List.replicate n (0 : ℚ)) ∧
    csrXInit partition none none n nc nthreads
      startrows endrows startcolumns endcolumns x = .ok (List.replicate nc (1 : ℚ)) ∧
    csrYInit Partition.rows none n nthreads csrsize csrrowptr
      none none [] [] y = .ok (List.replicate n (0 : ℚ)) := by
  have hfill : ∀ (c : ℚ) (m : Nat) (v : List ℚ), v.length = m →
      efold (fun v i => aset v i c) v (intRange 0 (m : Int)) =
      .ok (List.replicate m c) := by
    intro c m v hv
    have h := fillfold_spec c m 0 v (by omega)
    simp only [Nat.zero_add, Nat.cast_zero] at h
    rw [h, List.take_zero, List.nil_append, List.drop_of_length_le (by omega),
      List.append_nil]
  refine ⟨?_, ?_, ?_, ?_⟩
  · unfold ellXInit
    exact hfill 1 nc x hx
  · unfold ellYInit
    exact hfill 0 n y hy
  · unfold csrXInit
    rw [if_neg (by simp), if_neg (by simp)]
    exact hfill 1 nc x hx
  · unfold csrYInit
    rw [if_pos ⟨rfl, rfl⟩]
    exact hfill 0 n y hy

/-- Witness: the default initializations on concrete buffers. -/
theorem C10_default_vector_init_amended_witness :
    ellXInit 3 [7, 8, 9] = .ok (List.replicate 3 (1 : ℚ)) ∧
    ellYInit 2 [4, 5] = .ok (List.replicate 2 (0 : ℚ)) ∧
    csrXInit Partition.nonzeros none none 2 3 1 [] [] [] [] [7, 8, 9] =
      .ok (List.replicate 3 (1 : ℚ)) ∧
    csrYInit Partition.rows none 2 1 5 [0, 2, 5] none none [] [] [4, 5] =
      .ok (List.replicate 2 (0 : ℚ)) :=
  C10_default_vector_init_amended Partition.nonzeros 2 3 1 [7, 8, 9] [4, 5]
    [] [] [] [] 5 [0, 2, 5] rfl rfl

end Ellspmv
